import Mathlib

/-!
Verification development for the retrieval core of the knowledge-base
service (hybrid retriever, RRF fusion, chunking pipeline, Drive sync
engine).  The Python sources under `src/rag/` are embedded shallowly:

* floating-point relevance scores are modelled as exact rationals; to keep
  every definition kernel-computable they are represented by the type
  `Frac` (an integer numerator over a positive natural denominator, with
  addition and comparison by cross-multiplication), and `Frac.toRat`
  links that representation to `ℚ` for the statements of the theorems;
* the PostgreSQL store is modelled as explicit lists of rows, and every
  external collaborator (embedding client, reranking client, Drive
  listing/download, per-file transaction commit) as a deterministic
  function supplied through an environment record;
* text handled by the chunker is modelled as `List Char`, since the
  byte-position based `String` primitives do not reduce in the kernel.
-/

/-- Exact rational score: integer numerator over a positive natural
denominator.  Fractions are deliberately not normalised so that every
operation is a structural computation the kernel can evaluate. -/
structure Frac where
  num : Int
  den : Nat
  den_pos : 0 < den

namespace Frac

/-- The rational value represented by a `Frac`. -/
def toRat (a : Frac) : ℚ := (a.num : ℚ) / (a.den : ℚ)

/-- Zero score (the default score of a freshly fetched chunk). -/
def zero : Frac := ⟨0, 1, Nat.one_pos⟩

/-- The reciprocal 1/n of a positive natural number. -/
def rcp (n : Nat) (h : 0 < n) : Frac := ⟨1, n, h⟩

/-- Addition by cross-multiplication. -/
def add (a b : Frac) : Frac :=
  ⟨a.num * (b.den : Int) + b.num * (a.den : Int), a.den * b.den,
    Nat.mul_pos a.den_pos b.den_pos⟩

/-- Boolean comparison `a ≤ b` by cross-multiplication. -/
def ble (a b : Frac) : Bool := a.num * (b.den : Int) ≤ b.num * (a.den : Int)

/-- Boolean comparison `a < b` by cross-multiplication. -/
def blt (a b : Frac) : Bool := a.num * (b.den : Int) < b.num * (a.den : Int)

theorem den_cast_pos (a : Frac) : (0 : ℚ) < (a.den : ℚ) := by
  exact_mod_cast a.den_pos

theorem toRat_zero : zero.toRat = 0 := by
  simp [zero, toRat]

theorem toRat_rcp (n : Nat) (h : 0 < n) : (rcp n h).toRat = 1 / (n : ℚ) := by
  simp [rcp, toRat]

theorem toRat_add (a b : Frac) : (a.add b).toRat = a.toRat + b.toRat := by
  have ha := a.den_cast_pos
  have hb := b.den_cast_pos
  field_simp [add, toRat]

theorem ble_iff (a b : Frac) : a.ble b = true ↔ a.toRat ≤ b.toRat := by
  have ha := a.den_cast_pos
  have hb := b.den_cast_pos
  rw [toRat, toRat, div_le_div_iff₀ ha hb]
  constructor
  · intro h
    have h' : a.num * (b.den : Int) ≤ b.num * (a.den : Int) := by
      simpa [ble] using h
    exact_mod_cast h'
  · intro h
    have h' : a.num * (b.den : Int) ≤ b.num * (a.den : Int) := by exact_mod_cast h
    simpa [ble] using h'

theorem blt_iff (a b : Frac) : a.blt b = true ↔ a.toRat < b.toRat := by
  have ha := a.den_cast_pos
  have hb := b.den_cast_pos
  rw [toRat, toRat, div_lt_div_iff₀ ha hb]
  constructor
  · intro h
    have h' : a.num * (b.den : Int) < b.num * (a.den : Int) := by
      simpa [blt] using h
    exact_mod_cast h'
  · intro h
    have h' : a.num * (b.den : Int) < b.num * (a.den : Int) := by exact_mod_cast h
    simpa [blt] using h'

theorem ble_total (a b : Frac) : a.ble b = true ∨ b.ble a = true := by
  rcases le_total a.toRat b.toRat with h | h
  · exact Or.inl ((ble_iff a b).2 h)
  · exact Or.inr ((ble_iff b a).2 h)

theorem ble_trans {a b c : Frac} (h1 : a.ble b = true) (h2 : b.ble c = true) :
    a.ble c = true :=
  (ble_iff a c).2 (le_trans ((ble_iff a b).1 h1) ((ble_iff b c).1 h2))

end Frac

/-! ## Hybrid retriever (src/rag/retriever.py) -/

/-- Standard RRF constant (`RRF_K = 60` in `src/rag/retriever.py`). -/
def RRF_K : Nat := 60

/-- One retrieved chunk with its per-query scores, mirroring the
`Chunk` dataclass of `src/rag/retriever.py` (field defaults included). -/
structure Chunk where
  id : String
  content : String
  filename : String := ""
  drive_file_id : String := ""
  chunk_index : Nat := 0
  source_category : String := ""
  dense_score : Frac := Frac.zero
  fts_score : Frac := Frac.zero
  rrf_score : Frac := Frac.zero
  rerank_score : Frac := Frac.zero

/-- The configuration fields read by the retriever and the sync engine
(`config.chat_kb_top_k`, `config.rerank_candidates`,
`config.chat_kb_similarity_threshold`, `config.hybrid_sparse_weight`,
`config.rerank_enabled`, `config.kb_chunk_size`, `config.kb_chunk_overlap`). -/
structure RagConfig where
  chat_kb_top_k : Nat
  rerank_candidates : Nat
  chat_kb_similarity_threshold : Frac
  hybrid_sparse_weight : Frac
  rerank_enabled : Bool

/-- External collaborators of one `retrieve` call.  The Chunk Store is
modelled by the full rankings it would return for this query:
`denseTable` ordered by cosine similarity (the `ORDER BY embedding` query
of `_dense_search`) and `ftsTable` ordered by `ts_rank`
(`_fts_search`); the SQL `LIMIT n` is `List.take n`.  `embedQuery` and
`rerank` are the Voyage clients of `src/rag/embedder.py` and
`src/rag/reranker.py`; an `Except.error` models a raised exception. -/
structure RetrievalEnv where
  embedQuery : Except String (List Frac)
  denseTable : List Chunk
  ftsTable : List Chunk
  rerank : List Chunk → Nat → Except String (List Chunk)

/-- `scores[id] = scores.get(id, 0.0) + v` on an insertion-ordered dict
modelled as an association list (Python dicts preserve insertion order;
a present key keeps its position, a new key is appended). -/
def dictAdd : List (String × Frac) → String → Frac → List (String × Frac)
  | [], id, v => [(id, v)]
  | (k, w) :: rest, id, v =>
    if k = id then (k, w.add v) :: rest else (k, w) :: dictAdd rest id v

/-- `by_id[chunk.id] = chunk` (unconditional overwrite, position kept). -/
def dictPut : List (String × Chunk) → Chunk → List (String × Chunk)
  | [], c => [(c.id, c)]
  | (k, w) :: rest, c =>
    if k = c.id then (k, c) :: rest else (k, w) :: dictPut rest c

/-- The sparse loop of `_rrf_fuse`: insert the chunk if its id is absent,
otherwise copy `fts_score` onto the stored (dense) chunk. -/
def dictPutSparse : List (String × Chunk) → Chunk → List (String × Chunk)
  | [], c => [(c.id, c)]
  | (k, w) :: rest, c =>
    if k = c.id then (k, { w with fts_score := c.fts_score }) :: rest
    else (k, w) :: dictPutSparse rest c

/-- First-match association lookup (`dict[k]` on a dict with unique keys). -/
def dictFind? {α : Type} (m : List (String × α)) (id : String) : Option α :=
  (m.find? (fun p => p.1 == id)).map (fun p => p.2)

/-- The RRF term `1.0 / (RRF_K + rank + 1)` for a 0-based rank. -/
def rrfTerm (rank : Nat) : Frac :=
  Frac.rcp (RRF_K + rank + 1) (Nat.succ_pos _)

/-- The `scores` dict of `_rrf_fuse` after both enumeration loops. -/
def rrfScores (dense sparse : List Chunk) : List (String × Frac) :=
  let afterDense := dense.enum.foldl
    (fun m rc => dictAdd m rc.2.id (rrfTerm rc.1)) []
  sparse.enum.foldl (fun m rc => dictAdd m rc.2.id (rrfTerm rc.1)) afterDense

/-- The `by_id` dict of `_rrf_fuse` after both loops. -/
def rrfById (dense sparse : List Chunk) : List (String × Chunk) :=
  let afterDense := dense.foldl dictPut []
  sparse.foldl dictPutSparse afterDense

/-- Descending-by-score order on score entries.  Python's
`sorted(..., key=lambda x: x[1], reverse=True)` is the unique stable
descending sort, which `List.insertionSort` with this relation computes. -/
def scoreGE (a b : String × Frac) : Prop := b.2.ble a.2 = true

instance : DecidableRel scoreGE := fun a b => by
  unfold scoreGE; infer_instance

/-- `_rrf_fuse(dense, sparse, limit)`: accumulate reciprocal-rank terms
per chunk id over both ranked lists, sort the score dict descending,
truncate to `limit`, and attach each fused score to the stored chunk. -/
def rrf_fuse (dense sparse : List Chunk) (limit : Nat) : List Chunk :=
  let ranked := ((rrfScores dense sparse).insertionSort scoreGE).take limit
  ranked.map (fun p =>
    let c := (dictFind? (rrfById dense sparse) p.1).getD
      { id := p.1, content := "" }
    { c with rrf_score := p.2 })

/-- Step 2 of `retrieve`: the dense search with `LIMIT candidates`. -/
def denseStage (env : RetrievalEnv) (candidates : Nat) : List Chunk :=
  env.denseTable.take candidates

/-- Step 3 of `retrieve`: the FTS search, skipped entirely when
`config.hybrid_sparse_weight > 0` fails (dense-only mode). -/
def sparseStage (env : RetrievalEnv) (cfg : RagConfig) (candidates : Nat) :
    List Chunk :=
  if Frac.zero.blt cfg.hybrid_sparse_weight then env.ftsTable.take candidates
  else []

/-- Step 4 of `retrieve`:
`fused = _rrf_fuse(dense, sparse, candidates) if sparse else dense[:candidates]`. -/
def fusedStage (env : RetrievalEnv) (cfg : RagConfig) (candidates : Nat) :
    List Chunk :=
  let dense := denseStage env candidates
  let sparse := sparseStage env cfg candidates
  if sparse.isEmpty then dense.take candidates
  else rrf_fuse dense sparse candidates

/-- Step 5 of `retrieve`: Voyage rerank when `config.rerank_enabled`,
else plain truncation of the fused list to `top_k`. -/
def rerankStage (env : RetrievalEnv) (cfg : RagConfig) (fused : List Chunk)
    (top_k : Nat) : Except String (List Chunk) :=
  if cfg.rerank_enabled then env.rerank fused top_k
  else Except.ok (fused.take top_k)

/-- Step 6 of `retrieve`: when `threshold > 0`, keep only chunks with
`chunk.rerank_score >= threshold` (the code compares `rerank_score`
whether or not reranking ran). -/
def thresholdStage (threshold : Frac) (chunks : List Chunk) : List Chunk :=
  if Frac.zero.blt threshold then
    chunks.filter (fun c => threshold.ble c.rerank_score)
  else chunks

/-- Python's `x or default` on the optional `top_k`/`candidates`
arguments: `None` and `0` both fall back to the configured default. -/
def pyOrNat : Option Nat → Nat → Nat
  | none, d => d
  | some 0, d => d
  | some (n + 1), _ => n + 1

/-- `retrieve(query, top_k, candidates, threshold, categories)` of
`src/rag/retriever.py`.  The query text and category filter are folded
into the environment's ranked tables; raised exceptions of the embedding
and reranking clients are `Except.error` and propagate. -/
def retrieve (env : RetrievalEnv) (cfg : RagConfig) (top_k? cands? : Option Nat)
    (threshold? : Option Frac) : Except String (List Chunk) :=
  let top_k := pyOrNat top_k? cfg.chat_kb_top_k
  let candidates := pyOrNat cands? cfg.rerank_candidates
  let threshold := threshold?.getD cfg.chat_kb_similarity_threshold
  match env.embedQuery with
  | Except.error e => Except.error e
  | Except.ok _ =>
    let fused := fusedStage env cfg candidates
    if fused.isEmpty then Except.ok []
    else
      match rerankStage env cfg fused top_k with
      | Except.error e => Except.error e
      | Except.ok reranked => Except.ok (thresholdStage threshold reranked)

/-! ## Chunker (src/rag/chunking.py)

`chunk_text` guards empty input, delegates splitting to LangChain's
`RecursiveCharacterTextSplitter` (separators
`["\n\n", "\n", ". ", "? ", "! ", "; ", ", ", " ", ""]`, character length
function, `keep_separator = True`, `strip_whitespace = True`), then strips
every produced chunk and drops the whitespace-only ones.  The splitter —
a pinned third-party dependency whose behaviour the repository's chunker
is defined by — is embedded below from its published implementation:
`_split_text_with_regex` (separator kept as prefix of the following
split), `_merge_splits` (greedy packing to `chunk_size` with the overlap
window retained by the popping loop, joined docs stripped), and the
recursive `_split_text` (first separator present in the text is used,
oversized splits are retried with the remaining separators).  Text is
`List Char`; recursion is by explicit fuel so every function evaluates in
the kernel (the fuel bounds are loose upper bounds on the recursion
depth, so the fuel-exhausted branches are unreachable). -/

/-- Python `str.strip()`: drop leading and trailing whitespace. -/
def stripChars (s : List Char) : List Char :=
  ((s.dropWhile Char.isWhitespace).reverse.dropWhile Char.isWhitespace).reverse

/-- Leftmost non-overlapping split on a non-empty separator
(`re.split` on the escaped separator, without the capture group). -/
def splitOnGo (sep : List Char) : Nat → List Char → List Char →
    List (List Char)
  | _, [], acc => [acc.reverse]
  | 0, text, acc => [acc.reverse ++ text]
  | fuel + 1, c :: rest, acc =>
    if sep.isPrefixOf (c :: rest) then
      acc.reverse :: splitOnGo sep fuel ((c :: rest).drop sep.length) []
    else splitOnGo sep fuel rest (c :: acc)

/-- Split `text` at every occurrence of `sep` (`sep` non-empty). -/
def splitOnCh (sep text : List Char) : List (List Char) :=
  if sep.isEmpty then [text] else splitOnGo sep text.length text []

/-- Does `sep` occur in `text` (`re.search` with a literal pattern)? -/
def containsSub (sep : List Char) : List Char → Bool
  | [] => sep.isPrefixOf []
  | c :: rest => sep.isPrefixOf (c :: rest) || containsSub sep rest

/-- `_split_text_with_regex(text, separator, keep_separator=True)`: split
on the separator keeping it as a prefix of the following piece; an empty
separator yields the list of characters; empty pieces are dropped. -/
def splitKeepSep (sep text : List Char) : List (List Char) :=
  if sep.isEmpty then
    (text.map (fun c => [c])).filter (fun s => !s.isEmpty)
  else
    match splitOnCh sep text with
    | [] => []
    | p :: ps => ((p :: ps.map (fun q => sep ++ q)).filter (fun s => !s.isEmpty))

/-- The separator-selection loop of `_split_text`: the first separator
that is empty or occurs in the text is chosen together with the list of
remaining lower-priority separators; if none matches, the last separator
is chosen with no remaining ones. -/
def chooseSep : List (List Char) → List Char → List Char × List (List Char)
  | [], _ => ([], [])
  | s :: rest, text =>
    if s.isEmpty then ([], [])
    else if containsSub s text then (s, rest)
    else
      match rest with
      | [] => (s, [])
      | _ :: _ => chooseSep rest text

/-- The popping loop of `_merge_splits`: shrink the running window from
the left while it exceeds the overlap, or while it cannot accommodate the
incoming split of length `dlen` within `chunkSize` (the joining separator
is empty, so its length contributes nothing). -/
def popWhile (chunkSize overlap dlen : Nat) :
    List (List Char) → Nat → List (List Char) × Nat
  | [], total => ([], total)
  | d :: rest, total =>
    if overlap < total || (chunkSize < total + dlen && 0 < total) then
      popWhile chunkSize overlap dlen rest (total - d.length)
    else (d :: rest, total)

/-- `_join_docs(docs, separator="")` with `strip_whitespace = True`:
concatenate, strip, return nothing when the result is empty. -/
def joinDocs (docs : List (List Char)) : Option (List Char) :=
  let t := stripChars docs.flatten
  if t.isEmpty then none else some t

/-- State of the `_merge_splits` loop: emitted docs, current window,
running character total. -/
structure MergeSt where
  docs : List (List Char)
  cur : List (List Char)
  total : Nat

/-- One iteration of the `_merge_splits` loop over an incoming split:
when the split no longer fits, a non-empty window is joined, emitted and
popped down; afterwards the split is appended to the window in any case. -/
def mergeStep (chunkSize overlap : Nat) (st : MergeSt) (d : List Char) :
    MergeSt :=
  let dlen := d.length
  let st1 :=
    if chunkSize < st.total + dlen then
      if st.cur.isEmpty then st
      else
        let docs2 :=
          match joinDocs st.cur with
          | some t => st.docs ++ [t]
          | none => st.docs
        let pr := popWhile chunkSize overlap dlen st.cur st.total
        { docs := docs2, cur := pr.1, total := pr.2 }
    else st
  { docs := st1.docs, cur := st1.cur ++ [d], total := st1.total + dlen }

/-- `_merge_splits(splits, separator="")`: greedily pack splits into docs
of at most `chunkSize` characters, retaining an overlap window. -/
def mergeSplits (chunkSize overlap : Nat) (splits : List (List Char)) :
    List (List Char) :=
  let st := splits.foldl (mergeStep chunkSize overlap) ⟨[], [], 0⟩
  st.docs ++
    (match joinDocs st.cur with
     | some t => [t]
     | none => [])

/-- The split-processing loop of `_split_text`: short splits accumulate
into `good` and are merged; an oversized split first flushes `good`, then
is either emitted as-is (no separators left) or handed to `recFn`. -/
def processSplits (chunkSize overlap : Nat) (noNewSeps : Bool)
    (recFn : List Char → List (List Char)) (splits : List (List Char)) :
    List (List Char) :=
  let step := fun (st : List (List Char) × List (List Char)) s =>
    if s.length < chunkSize then (st.1, st.2 ++ [s])
    else
      let flushed :=
        if st.2.isEmpty then st.1
        else st.1 ++ mergeSplits chunkSize overlap st.2
      if noNewSeps then (flushed ++ [s], [])
      else (flushed ++ recFn s, [])
  let fin := splits.foldl step ([], [])
  if fin.2.isEmpty then fin.1
  else fin.1 ++ mergeSplits chunkSize overlap fin.2

/-- `RecursiveCharacterTextSplitter._split_text(text, separators)`.  The
fuel dominates the recursion depth: every recursive call passes a
strictly shorter separator list. -/
def splitTextRec (chunkSize overlap : Nat) :
    Nat → List (List Char) → List Char → List (List Char)
  | 0, _, text => [text]
  | fuel + 1, seps, text =>
    let chosen := chooseSep seps text
    processSplits chunkSize overlap chosen.2.isEmpty
      (splitTextRec chunkSize overlap fuel chosen.2)
      (splitKeepSep chosen.1 text)

/-- The separator preference order passed by `chunk_text`. -/
def chunkSeparators : List (List Char) :=
  [['\n', '\n'], ['\n'], ['.', ' '], ['?', ' '], ['!', ' '], [';', ' '],
   [',', ' '], [' '], []]

/-- `chunk_text(text, chunk_size, overlap)` of `src/rag/chunking.py`:
empty or whitespace-only input yields `[]`; otherwise the recursive
splitter runs and each produced chunk is stripped, dropping the ones that
strip to nothing. -/
def chunk_text (text : List Char) (chunk_size overlap : Nat) :
    List (List Char) :=
  if (stripChars text).isEmpty then []
  else
    (splitTextRec chunk_size overlap chunkSeparators.length chunkSeparators
        text).filterMap
      (fun c =>
        let s := stripChars c
        if s.isEmpty then none else some s)

/-! ## Sync engine (src/rag/sync.py)

The PostgreSQL tables `kb_chunks` and `kb_sources` are lists of rows;
`NOW()` is the single pass timestamp `now`; ISO-8601 timestamps are
naturals ordered like the instants they denote (`datetime.fromisoformat`
is the identity of that model).  `_get_all_kb_sources` builds a Python
dict keyed by `file_id`, so a lookup returns the last row with the key
(`lookupSource`) and an iteration over the dict visits one entry per key,
first-occurrence position, last-occurrence value (`toDict`).  The
collaborators (download+parse, batched embedding, and the commit of the
per-file delete+insert transaction) are deterministic functions in
`SyncEnv`; `Except.error` models a raised exception, and a failing
transaction (`insertOk = false`) rolls back, leaving the store as it
was. -/

/-- A remote file listing entry (`DriveFileRecord` of `src/rag/loader.py`). -/
structure DriveFileRecord where
  id : String
  name : String
  mime_type : String := ""
  modified_time : Nat
  category : String
  size : Option Nat := none

/-- One `kb_sources` row. -/
structure SourceRow where
  file_id : String
  filename : String
  category : String
  modified_time : Nat
  last_synced : Option Nat
  chunk_count : Nat
  status : String

/-- One `kb_chunks` row (`id` models the generated row key). -/
structure ChunkRow where
  id : Nat
  content : List Char
  embedding : List Frac
  source_category : String
  drive_file_id : String
  filename : String
  chunk_index : Nat

/-- The database state: both tables plus the row-key counter. -/
structure Store where
  chunks : List ChunkRow
  sources : List SourceRow
  nextId : Nat

/-- External collaborators of one sync pass. -/
structure SyncEnv where
  fetchParse : String → Except String (List Char)
  embedBatch : List (List Char) → Except String (List (List Frac))
  insertOk : String → Bool

/-- The chunking configuration read by `sync_drive`
(`config.kb_chunk_size`, `config.kb_chunk_overlap`). -/
structure SyncCfg where
  kb_chunk_size : Nat
  kb_chunk_overlap : Nat

/-- `existing_sources.get(fid)`: the dict keyed by `file_id` holds, for
each key, the last row of the table with that key. -/
def lookupSource (rows : List SourceRow) (fid : String) : Option SourceRow :=
  (rows.filter (fun r => r.file_id == fid)).getLast?

/-- The dict built by `_get_all_kb_sources` as an ordered list of
entries: one per key, at its first-occurrence position, holding the
last-occurrence row. -/
def toDict (rows : List SourceRow) : List SourceRow :=
  rows.foldl
    (fun acc r =>
      if acc.any (fun q => q.file_id == r.file_id) then
        acc.map (fun q => if q.file_id == r.file_id then r else q)
      else acc ++ [r])
    []

/-- `_needs_sync(file, source)`: new file, never-synced record, or remote
modification strictly newer than the last sync. -/
def needs_sync (f : DriveFileRecord) (src : Option SourceRow) : Bool :=
  match src with
  | none => true
  | some s =>
    match s.last_synced with
    | none => true
    | some ls => decide (ls < f.modified_time)

/-- `DELETE FROM kb_chunks WHERE drive_file_id = fid`. -/
def deleteChunks (st : Store) (fid : String) : Store :=
  { st with chunks := st.chunks.filter (fun c => c.drive_file_id != fid) }

/-- `UPDATE kb_sources SET status = deleted, last_synced = NOW() WHERE
file_id = fid`. -/
def markDeleted (st : Store) (fid : String) (now : Nat) : Store :=
  { st with
    sources := st.sources.map (fun r =>
      if r.file_id == fid then
        { r with status := "deleted", last_synced := some now }
      else r) }

/-- `_remove_deleted_files(pool, file_ids)`: per vanished file, delete
its chunks and flip its registry row to `deleted`. -/
def remove_deleted_files (st : Store) (fids : List String) (now : Nat) :
    Store :=
  fids.foldl (fun s fid => markDeleted (deleteChunks s fid) fid now) st

/-- `_upsert_file_chunks`: in one transaction, delete the file's chunks
and insert the new set with contiguous `chunk_index` from 0; returns the
number of chunks inserted (`len(chunks)`). -/
def upsert_file_chunks (st : Store) (fid name cat : String)
    (chunks : List (List Char)) (embs : List (List Frac)) : Store × Nat :=
  let st1 := deleteChunks st fid
  if chunks.isEmpty then (st1, 0)
  else
    let rows := (chunks.zip embs).enum.map (fun p =>
      ({ id := st1.nextId + p.1, content := p.2.1, embedding := p.2.2,
         source_category := cat, drive_file_id := fid, filename := name,
         chunk_index := p.1 } : ChunkRow))
    ({ st1 with
        chunks := st1.chunks ++ rows
        nextId := st1.nextId + rows.length }, chunks.length)

/-- `_upsert_kb_source`: insert or update the registry row, setting
`last_synced = NOW()` and `status = active`. -/
def upsert_kb_source (st : Store) (fid name cat : String) (mtime : Nat)
    (cnt : Nat) (now : Nat) : Store :=
  if st.sources.any (fun r => r.file_id == fid) then
    { st with
      sources := st.sources.map (fun r =>
        if r.file_id == fid then
          { r with filename := name, category := cat, modified_time := mtime,
                   last_synced := some now, chunk_count := cnt,
                   status := "active" }
        else r) }
  else
    { st with
      sources := st.sources ++
        [{ file_id := fid, filename := name, category := cat,
           modified_time := mtime, last_synced := some now,
           chunk_count := cnt, status := "active" }] }

/-- `_EMBED_BATCH = 96`. -/
def EMBED_BATCH : Nat := 96

/-- `range(0, len(l), n)` batching (`n > 0`; the fuel, instantiated with
the list length, dominates the number of batches). -/
def batchesOf {α : Type} (n : Nat) : Nat → List α → List (List α)
  | _, [] => []
  | 0, l => [l]
  | fuel + 1, l => l.take n :: batchesOf n fuel (l.drop n)

/-- The batched embedding loop of `sync_drive`: each batch of at most
`_EMBED_BATCH` chunks goes to `embed_documents`; results concatenate in
order; a failing batch fails the file. -/
def embedAll (env : SyncEnv) (chunks : List (List Char)) :
    Except String (List (List Frac)) :=
  (batchesOf EMBED_BATCH chunks.length chunks).foldlM
    (fun acc b => (env.embedBatch b).map (fun embs => acc ++ embs)) []

/-- The running counters and store of one pass over the listing. -/
structure SyncAcc where
  store : Store
  files_synced : Nat
  files_skipped : Nat
  chunks_inserted : Nat
  errors : List String

/-- The body of the `for file in drive_files` loop of `sync_drive`:
skip unmodified files; otherwise fetch, parse, chunk, embed and replace,
catching any raised error into `errors` with the file's name. -/
def processFile (cfg : SyncCfg) (env : SyncEnv) (now : Nat)
    (srcRows : List SourceRow) (force : Bool) (acc : SyncAcc)
    (f : DriveFileRecord) : SyncAcc :=
  let src := lookupSource srcRows f.id
  if !force && !needs_sync f src then
    { acc with files_skipped := acc.files_skipped + 1 }
  else
    match env.fetchParse f.id with
    | Except.error e => { acc with errors := acc.errors ++ [f.name ++ ": " ++ e] }
    | Except.ok text =>
      if (stripChars text).isEmpty then acc
      else
        let chunks := chunk_text text cfg.kb_chunk_size cfg.kb_chunk_overlap
        if chunks.isEmpty then acc
        else
          match embedAll env chunks with
          | Except.error e =>
            { acc with errors := acc.errors ++ [f.name ++ ": " ++ e] }
          | Except.ok embs =>
            if env.insertOk f.id then
              let res := upsert_file_chunks acc.store f.id f.name f.category
                chunks embs
              let st2 := upsert_kb_source res.1 f.id f.name f.category
                f.modified_time res.2 now
              { acc with
                store := st2
                files_synced := acc.files_synced + 1
                chunks_inserted := acc.chunks_inserted + res.2 }
            else
              { acc with errors := acc.errors ++ [f.name ++ ": insert failed"] }

/-- The result dict of `sync_drive`. -/
structure SyncResult where
  files_synced : Nat
  files_skipped : Nat
  files_deleted : Nat
  chunks_inserted : Nat
  errors : List String
  synced_at : Nat

/-- `sync_drive(force)` of `src/rag/sync.py`: list remote files, remove
the active registry entries that vanished from the listing, then process
every listed file against the registry snapshot taken at the start. -/
def sync_drive (cfg : SyncCfg) (env : SyncEnv) (files : List DriveFileRecord)
    (st : Store) (force : Bool) (now : Nat) : SyncResult × Store :=
  let existing := toDict st.sources
  let driveIds := files.map (fun f => f.id)
  let deletedIds := (existing.filter (fun r =>
      r.status == "active" && !(driveIds.contains r.file_id))).map
      (fun r => r.file_id)
  let st0 := remove_deleted_files st deletedIds now
  let acc := files.foldl (processFile cfg env now st.sources force)
    { store := st0, files_synced := 0, files_skipped := 0,
      chunks_inserted := 0, errors := [] }
  ({ files_synced := acc.files_synced
     files_skipped := acc.files_skipped
     files_deleted := deletedIds.length
     chunks_inserted := acc.chunks_inserted
     errors := acc.errors
     synced_at := now }, acc.store)

/-! ## Retriever lemmas -/

theorem thresholdStage_nil (θ : Frac) : thresholdStage θ [] = [] := by
  unfold thresholdStage
  split <;> rfl

/-- With reranking disabled and a successful query embedding, `retrieve`
returns the thresholded truncation of the fused candidate list. -/
theorem retrieve_ok_rerank_disabled (env : RetrievalEnv) (cfg : RagConfig)
    (tk ck : Option Nat) (θ? : Option Frac) (emb : List Frac)
    (hre : cfg.rerank_enabled = false) (he : env.embedQuery = Except.ok emb) :
    retrieve env cfg tk ck θ? =
      Except.ok (thresholdStage (θ?.getD cfg.chat_kb_similarity_threshold)
        ((fusedStage env cfg (pyOrNat ck cfg.rerank_candidates)).take
          (pyOrNat tk cfg.chat_kb_top_k))) := by
  unfold retrieve
  rw [he]
  by_cases hf : (fusedStage env cfg (pyOrNat ck cfg.rerank_candidates)).isEmpty
  · simp only [hf]
    rw [List.isEmpty_iff.1 hf]
    simp [thresholdStage_nil]
  · simp only [hf]
    unfold rerankStage
    rw [hre]
    simp

/-- Claim C1 (counterexample): with reranking disabled and a positive
threshold, `retrieve` returns no results even though every fused
candidate's fused (RRF) score is at least the threshold — the code
filters on `rerank_score`, which unreranked chunks keep at 0. -/
def chunkC1a : Chunk := { id := "a", content := "A" }

def chunkC1b : Chunk := { id := "b", content := "B" }

def envC1 : RetrievalEnv :=
  { embedQuery := Except.ok []
    denseTable := [chunkC1a, chunkC1b]
    ftsTable := [chunkC1a]
    rerank := fun l _ => Except.ok l }

def cfgC1 : RagConfig :=
  { chat_kb_top_k := 5
    rerank_candidates := 10
    chat_kb_similarity_threshold := Frac.zero
    hybrid_sparse_weight := Frac.rcp 10 (by decide)
    rerank_enabled := false }

def thC1 : Frac := Frac.rcp 100 (by decide)

/-- Claim C1 is false on the code: in a run with reranking disabled and
threshold 1/100, every fused candidate has fused score at least the
threshold (`thC1.ble c.rrf_score` holds for both), yet the threshold
stage drops them all and `retrieve` returns the empty list. -/
theorem C1_counterexample :
    cfgC1.rerank_enabled = false ∧
    Frac.zero.blt thC1 = true ∧
    (fusedStage envC1 cfgC1 10).map (fun c => thC1.ble c.rrf_score) =
      [true, true] ∧
    retrieve envC1 cfgC1 (some 5) (some 10) (some thC1) = Except.ok [] :=
  ⟨rfl, rfl, rfl, rfl⟩

/-- Claim C1 (amended): the threshold stage always compares the
`rerank_score` against the threshold, whether or not reranking ran.  A
non-positive threshold (the `threshold = 0` case) drops nothing; a
positive threshold keeps exactly the chunks whose `rerank_score` is at
least the threshold, so every chunk a successful `retrieve` returns
under a positive threshold has `rerank_score ≥ threshold`; with
reranking disabled, where every candidate keeps `rerank_score = 0`, a
positive threshold therefore drops every candidate of the truncated
fused list regardless of its fused score. -/
theorem threshold_filters_on_rerank_score :
    (∀ (θ : Frac) (l : List Chunk), θ.toRat ≤ 0 → thresholdStage θ l = l) ∧
    (∀ (θ : Frac) (l : List Chunk), 0 < θ.toRat → ∀ c,
      c ∈ thresholdStage θ l ↔ c ∈ l ∧ θ.toRat ≤ c.rerank_score.toRat) ∧
    (∀ (env : RetrievalEnv) (cfg : RagConfig) (tk ck : Option Nat) (θ : Frac)
      (l : List Chunk), 0 < θ.toRat →
      retrieve env cfg tk ck (some θ) = Except.ok l →
      ∀ c ∈ l, θ.toRat ≤ c.rerank_score.toRat) ∧
    (∀ (env : RetrievalEnv) (cfg : RagConfig) (tk ck : Option Nat) (θ : Frac)
      (emb : List Frac) (l : List Chunk),
      cfg.rerank_enabled = false → env.embedQuery = Except.ok emb →
      0 < θ.toRat → retrieve env cfg tk ck (some θ) = Except.ok l →
      ((∀ c, c ∈ l ↔
        c ∈ (fusedStage env cfg (pyOrNat ck cfg.rerank_candidates)).take
              (pyOrNat tk cfg.chat_kb_top_k) ∧
        θ.toRat ≤ c.rerank_score.toRat) ∧
      ((∀ c ∈ fusedStage env cfg (pyOrNat ck cfg.rerank_candidates),
          c.rerank_score = Frac.zero) → l = []))) := by
  have hzero : ∀ (θ : Frac) (l : List Chunk), θ.toRat ≤ 0 →
      thresholdStage θ l = l := by
    intro θ l hθ
    have hblt : Frac.zero.blt θ = false := by
      rw [Bool.eq_false_iff]
      intro h
      have hlt := (Frac.blt_iff _ _).1 h
      rw [Frac.toRat_zero] at hlt
      exact absurd (lt_of_lt_of_le hlt hθ) (lt_irrefl _)
    unfold thresholdStage
    rw [hblt]
    simp
  have hmem : ∀ (θ : Frac) (l : List Chunk), 0 < θ.toRat → ∀ c,
      c ∈ thresholdStage θ l ↔ c ∈ l ∧ θ.toRat ≤ c.rerank_score.toRat := by
    intro θ l hθ c
    have hblt : Frac.zero.blt θ = true := by
      rw [Frac.blt_iff, Frac.toRat_zero]
      exact hθ
    rw [show thresholdStage θ l = l.filter (fun c => θ.ble c.rerank_score) by
      unfold thresholdStage
      simp [hblt]]
    rw [List.mem_filter]
    constructor
    · rintro ⟨hm, hb⟩
      exact ⟨hm, (Frac.ble_iff θ c.rerank_score).1 hb⟩
    · rintro ⟨hm, hb⟩
      exact ⟨hm, (Frac.ble_iff θ c.rerank_score).2 hb⟩
  have hret : ∀ (env : RetrievalEnv) (cfg : RagConfig) (tk ck : Option Nat)
      (θ : Frac) (l : List Chunk), 0 < θ.toRat →
      retrieve env cfg tk ck (some θ) = Except.ok l →
      ∀ c ∈ l, θ.toRat ≤ c.rerank_score.toRat := by
    intro env cfg tk ck θ l hθ hok c hc
    unfold retrieve at hok
    rcases he : env.embedQuery with e | emb
    · rw [he] at hok
      exact Except.noConfusion hok
    · rw [he] at hok
      dsimp only at hok
      simp only [Option.getD_some] at hok
      by_cases hf :
          (fusedStage env cfg (pyOrNat ck cfg.rerank_candidates)).isEmpty = true
      · rw [if_pos hf] at hok
        have hl : ([] : List Chunk) = l := Except.ok.inj hok
        rw [← hl] at hc
        exact absurd hc (List.not_mem_nil c)
      · rw [if_neg hf] at hok
        rcases hr : rerankStage env cfg
            (fusedStage env cfg (pyOrNat ck cfg.rerank_candidates))
            (pyOrNat tk cfg.chat_kb_top_k) with e | rr
        · rw [hr] at hok
          exact Except.noConfusion hok
        · rw [hr] at hok
          have hl : thresholdStage θ rr = l := Except.ok.inj hok
          rw [← hl] at hc
          exact ((hmem θ rr hθ c).1 hc).2
  refine ⟨hzero, hmem, hret, ?_⟩
  intro env cfg tk ck θ emb l hre he hθ hok
  rw [retrieve_ok_rerank_disabled env cfg tk ck (some θ) emb hre he] at hok
  have hblt : Frac.zero.blt θ = true := by
    rw [Frac.blt_iff, Frac.toRat_zero]
    exact hθ
  have hl : l = ((fusedStage env cfg (pyOrNat ck cfg.rerank_candidates)).take
      (pyOrNat tk cfg.chat_kb_top_k)).filter
      (fun c => θ.ble c.rerank_score) := by
    have hok' := hok.symm
    injection hok' with h
    rw [h]
    unfold thresholdStage
    simp [hblt]
  constructor
  · intro c
    rw [hl, List.mem_filter]
    constructor
    · rintro ⟨hm, hb⟩
      exact ⟨hm, (Frac.ble_iff θ c.rerank_score).1 hb⟩
    · rintro ⟨hm, hb⟩
      exact ⟨hm, (Frac.ble_iff θ c.rerank_score).2 hb⟩
  · intro hz
    rw [hl]
    rw [List.filter_eq_nil_iff]
    intro c hc
    have hcf : c ∈ fusedStage env cfg (pyOrNat ck cfg.rerank_candidates) :=
      List.mem_of_mem_take hc
    have h0 : c.rerank_score = Frac.zero := hz c hcf
    rw [h0]
    intro hble
    have hble' := (Frac.ble_iff θ Frac.zero).1 hble
    rw [Frac.toRat_zero] at hble'
    exact absurd (lt_of_lt_of_le hθ hble') (lt_irrefl 0)

/-- Witness for `threshold_filters_on_rerank_score`: threshold 0 keeps a
chunk, a positive threshold filters a singleton on its rerank score, and
the empty result of the `C1_counterexample` run satisfies the positive
threshold vacuously. -/
theorem threshold_filters_on_rerank_score_witness :
    thresholdStage Frac.zero [chunkC1a] = [chunkC1a] ∧
    (chunkC1a ∈ thresholdStage thC1 [chunkC1a] ↔
      chunkC1a ∈ [chunkC1a] ∧ thC1.toRat ≤ chunkC1a.rerank_score.toRat) ∧
    (∀ c ∈ ([] : List Chunk), thC1.toRat ≤ c.rerank_score.toRat) ∧
    ((∀ c ∈ fusedStage envC1 cfgC1 (pyOrNat (some 10) cfgC1.rerank_candidates),
        c.rerank_score = Frac.zero) → ([] : List Chunk) = []) :=
  ⟨threshold_filters_on_rerank_score.1 Frac.zero [chunkC1a]
      (le_of_eq Frac.toRat_zero),
    threshold_filters_on_rerank_score.2.1 thC1 [chunkC1a]
      (by
        have h := (Frac.blt_iff Frac.zero thC1).1 (by decide)
        rwa [Frac.toRat_zero] at h) chunkC1a,
    threshold_filters_on_rerank_score.2.2.1 envC1 cfgC1 (some 5) (some 10)
      thC1 []
      (by
        have h := (Frac.blt_iff Frac.zero thC1).1 (by decide)
        rwa [Frac.toRat_zero] at h) rfl,
    (threshold_filters_on_rerank_score.2.2.2 envC1 cfgC1 (some 5) (some 10)
      thC1 [] [] rfl rfl
      (by
        have h := (Frac.blt_iff Frac.zero thC1).1 (by decide)
        rwa [Frac.toRat_zero] at h) rfl).2⟩

theorem rrf_fuse_length_le (dense sparse : List Chunk) (limit : Nat) :
    (rrf_fuse dense sparse limit).length ≤ limit := by
  unfold rrf_fuse
  rw [List.length_map]
  exact List.length_take_le limit _

theorem fusedStage_length_le (env : RetrievalEnv) (cfg : RagConfig)
    (candidates : Nat) :
    (fusedStage env cfg candidates).length ≤ candidates := by
  unfold fusedStage
  dsimp only
  split
  · exact List.length_take_le candidates _
  · exact rrf_fuse_length_le _ _ candidates

theorem thresholdStage_length_le (θ : Frac) (l : List Chunk) :
    (thresholdStage θ l).length ≤ l.length := by
  unfold thresholdStage
  split
  · exact List.length_filter_le _ l
  · exact le_refl _

def chunkC2a : Chunk := { id := "a", content := "A" }

def chunkC2b : Chunk := { id := "b", content := "B" }

def envC2 : RetrievalEnv :=
  { embedQuery := Except.ok []
    denseTable := [chunkC2a, chunkC2b]
    ftsTable := []
    rerank := fun l _ => Except.ok l }

def cfgC2 : RagConfig :=
  { chat_kb_top_k := 5
    rerank_candidates := 10
    chat_kb_similarity_threshold := Frac.zero
    hybrid_sparse_weight := Frac.zero
    rerank_enabled := false }

/-- Claim C2 is false on the code: with `top_k = 2` and `candidates = 1`
against a store holding two matching chunks, `retrieve` raises no error
but fetches only one candidate and returns one chunk, while the very same
call with `candidates = 2` (the value the claimed capping would use)
returns two — so the violation is not capped up to `top_k`. -/
theorem C2_counterexample :
    retrieve envC2 cfgC2 (some 2) (some 1) (some Frac.zero) =
      Except.ok [chunkC2a] ∧
    retrieve envC2 cfgC2 (some 2) (some 2) (some Frac.zero) =
      Except.ok [chunkC2a, chunkC2b] :=
  ⟨rfl, rfl⟩

/-- Claim C2 (amended): `retrieve` never caps `candidates` up to `top_k`:
each search stage fetches only the given `candidates` rows, so with
reranking disabled the call completes without error with at most
`min top_k candidates` results — possibly fewer than `top_k` even when
the store holds `top_k` matches.  (No error is raised for the
violation.) -/
theorem candidates_not_capped (env : RetrievalEnv) (cfg : RagConfig)
    (tk ck : Option Nat) (θ? : Option Frac) (emb : List Frac)
    (hre : cfg.rerank_enabled = false)
    (he : env.embedQuery = Except.ok emb) :
    ∃ l, retrieve env cfg tk ck θ? = Except.ok l ∧
      l.length ≤ min (pyOrNat tk cfg.chat_kb_top_k)
        (pyOrNat ck cfg.rerank_candidates) ∧
      denseStage env (pyOrNat ck cfg.rerank_candidates) =
        env.denseTable.take (pyOrNat ck cfg.rerank_candidates) := by
  refine ⟨_, retrieve_ok_rerank_disabled env cfg tk ck θ? emb hre he, ?_, rfl⟩
  refine le_trans (thresholdStage_length_le _ _) ?_
  refine le_min ?_ ?_
  · exact List.length_take_le _ _
  · rw [List.length_take]
    exact le_trans (min_le_right _ _) (fusedStage_length_le env cfg _)

/-- Witness for `candidates_not_capped` at the run of
`C2_counterexample` (`top_k = 2`, `candidates = 1`). -/
theorem candidates_not_capped_witness :
    ∃ l, retrieve envC2 cfgC2 (some 2) (some 1) (some Frac.zero) =
        Except.ok l ∧
      l.length ≤ min (pyOrNat (some 2) cfgC2.chat_kb_top_k)
        (pyOrNat (some 1) cfgC2.rerank_candidates) ∧
      denseStage envC2 (pyOrNat (some 1) cfgC2.rerank_candidates) =
        envC2.denseTable.take (pyOrNat (some 1) cfgC2.rerank_candidates) :=
  candidates_not_capped envC2 cfgC2 (some 2) (some 1) (some Frac.zero) []
    rfl rfl

/-- Claim C9: embedding and reranking failures propagate out of
`retrieve` as errors — never as an empty or silently unreranked result —
and a successful empty result can only arise from an empty fused
candidate list or from the threshold stage dropping every reranked
candidate. -/
theorem retrieval_failures_propagate (env : RetrievalEnv) (cfg : RagConfig)
    (tk ck : Option Nat) (θ? : Option Frac) :
    (∀ e, env.embedQuery = Except.error e →
      retrieve env cfg tk ck θ? = Except.error e) ∧
    (∀ emb e, env.embedQuery = Except.ok emb →
      cfg.rerank_enabled = true →
      fusedStage env cfg (pyOrNat ck cfg.rerank_candidates) ≠ [] →
      env.rerank (fusedStage env cfg (pyOrNat ck cfg.rerank_candidates))
          (pyOrNat tk cfg.chat_kb_top_k) = Except.error e →
      retrieve env cfg tk ck θ? = Except.error e) ∧
    (∀ emb l, env.embedQuery = Except.ok emb →
      retrieve env cfg tk ck θ? = Except.ok l → l = [] →
      fusedStage env cfg (pyOrNat ck cfg.rerank_candidates) = [] ∨
      ∃ rr, rerankStage env cfg
          (fusedStage env cfg (pyOrNat ck cfg.rerank_candidates))
          (pyOrNat tk cfg.chat_kb_top_k) = Except.ok rr ∧
        ∀ c ∈ rr,
          0 < (θ?.getD cfg.chat_kb_similarity_threshold).toRat ∧
          c.rerank_score.toRat <
            (θ?.getD cfg.chat_kb_similarity_threshold).toRat) := by
  refine ⟨?_, ?_, ?_⟩
  · intro e he
    unfold retrieve
    rw [he]
  · intro emb e he hren hne hrerr
    unfold retrieve
    rw [he]
    have hfe : (fusedStage env cfg (pyOrNat ck cfg.rerank_candidates)).isEmpty
        = false := by
      rcases hx : fusedStage env cfg (pyOrNat ck cfg.rerank_candidates) with
        _ | ⟨a, l⟩
      · exact absurd hx hne
      · rfl
    have hrs : rerankStage env cfg
        (fusedStage env cfg (pyOrNat ck cfg.rerank_candidates))
        (pyOrNat tk cfg.chat_kb_top_k) = Except.error e := by
      unfold rerankStage
      rw [hren]
      simpa using hrerr
    simp only [hfe, Bool.false_eq_true, if_false, hrs]
  · intro emb l he hok hnil
    subst hnil
    unfold retrieve at hok
    rw [he] at hok
    by_cases hf :
        (fusedStage env cfg (pyOrNat ck cfg.rerank_candidates)).isEmpty
    · exact Or.inl (List.isEmpty_iff.1 hf)
    · right
      simp only [hf, Bool.false_eq_true, if_false] at hok
      rcases hrr : rerankStage env cfg
          (fusedStage env cfg (pyOrNat ck cfg.rerank_candidates))
          (pyOrNat tk cfg.chat_kb_top_k) with e | rr
      · rw [hrr] at hok
        exact absurd hok (by simp)
      · rw [hrr] at hok
        refine ⟨rr, rfl, ?_⟩
        have hth : thresholdStage (θ?.getD cfg.chat_kb_similarity_threshold)
            rr = [] := by
          have h2 : Except.ok (thresholdStage
              (θ?.getD cfg.chat_kb_similarity_threshold) rr) =
              (Except.ok [] : Except String (List Chunk)) := hok
          exact Except.ok.inj h2
        unfold thresholdStage at hth
        by_cases hpos :
            Frac.zero.blt (θ?.getD cfg.chat_kb_similarity_threshold) = true
        · rw [if_pos hpos] at hth
          intro c hc
          have h0 := (Frac.blt_iff _ _).1 hpos
          rw [Frac.toRat_zero] at h0
          refine ⟨h0, ?_⟩
          have hnotble := List.filter_eq_nil_iff.1 hth c hc
          have hnle : ¬ ((θ?.getD cfg.chat_kb_similarity_threshold).toRat ≤
              c.rerank_score.toRat) := by
            intro hle
            exact hnotble ((Frac.ble_iff _ _).2 hle)
          exact lt_of_not_le hnle
        · rw [if_neg hpos] at hth
          subst hth
          intro c hc
          exact absurd hc (List.not_mem_nil c)

/-- Witness for `retrieval_failures_propagate`: a concrete environment
whose embedding call fails, instantiating the first conjunct. -/
def envC9 : RetrievalEnv :=
  { embedQuery := Except.error "embed down"
    denseTable := []
    ftsTable := []
    rerank := fun l _ => Except.ok l }

def cfgC9 : RagConfig :=
  { chat_kb_top_k := 5
    rerank_candidates := 10
    chat_kb_similarity_threshold := Frac.zero
    hybrid_sparse_weight := Frac.zero
    rerank_enabled := true }

theorem retrieval_failures_propagate_witness :
    retrieve envC9 cfgC9 (some 5) (some 10) (some Frac.zero) =
      Except.error "embed down" :=
  (retrieval_failures_propagate envC9 cfgC9 (some 5) (some 10)
    (some Frac.zero)).1 "embed down" rfl

/-! ## Chunker lemmas -/

theorem head?_dropWhile_false (p : Char → Bool) :
    ∀ (l : List Char) (a : Char), (l.dropWhile p).head? = some a →
      p a = false := by
  intro l
  induction l with
  | nil => intro a h; exact absurd h (by simp)
  | cons x t ih =>
    intro a h
    by_cases hx : p x
    · rw [List.dropWhile_cons_of_pos hx] at h
      exact ih a h
    · rw [List.dropWhile_cons_of_neg hx] at h
      have : x = a := by simpa using h
      subst this
      exact Bool.not_eq_true _ ▸ (by simpa using hx)

theorem dropWhile_eq_self_of_head (p : Char → Bool) (l : List Char)
    (h : ∀ a, l.head? = some a → p a = false) : l.dropWhile p = l := by
  cases l with
  | nil => rfl
  | cons x t =>
    have hx : p x = false := h x rfl
    simp [List.dropWhile, hx]

theorem stripChars_head?_false (s : List Char) (a : Char)
    (h : (stripChars s).head? = some a) : Char.isWhitespace a = false := by
  have hpre : stripChars s <+: (s.dropWhile Char.isWhitespace) := by
    have h0 : ((s.dropWhile Char.isWhitespace).reverse.dropWhile
        Char.isWhitespace) <:+ (s.dropWhile Char.isWhitespace).reverse :=
      List.dropWhile_suffix _
    have h1 := List.reverse_prefix.2 h0
    rw [List.reverse_reverse] at h1
    unfold stripChars
    exact h1
  rcases hpre with ⟨r, hr⟩
  have h2 : (s.dropWhile Char.isWhitespace).head? = some a := by
    cases hc : stripChars s with
    | nil => rw [hc] at h; exact absurd h (by simp)
    | cons y ys =>
      rw [hc] at h
      have hy : y = a := by simpa using h
      rw [hc] at hr
      rw [← hr]
      simpa using hy
  exact head?_dropWhile_false Char.isWhitespace s a h2

theorem stripChars_getLast?_false (s : List Char) (a : Char)
    (h : (stripChars s).getLast? = some a) : Char.isWhitespace a = false := by
  unfold stripChars at h
  rw [List.getLast?_reverse] at h
  exact head?_dropWhile_false Char.isWhitespace _ a h

theorem stripChars_idem (s : List Char) :
    stripChars (stripChars s) = stripChars s := by
  have h1 : (stripChars s).dropWhile Char.isWhitespace = stripChars s :=
    dropWhile_eq_self_of_head _ _ (stripChars_head?_false s)
  have h2 : (stripChars s).reverse.dropWhile Char.isWhitespace =
      (stripChars s).reverse := by
    refine dropWhile_eq_self_of_head _ _ ?_
    intro a ha
    rw [List.head?_reverse] at ha
    exact stripChars_getLast?_false s a ha
  show ((((stripChars s).dropWhile Char.isWhitespace).reverse).dropWhile
      Char.isWhitespace).reverse = stripChars s
  rw [h1, h2, List.reverse_reverse]

theorem mem_dropWhile_of_not (p : Char → Bool) (l : List Char) (x : Char)
    (hx : x ∈ l) (hpx : p x = false) : x ∈ l.dropWhile p := by
  rw [← List.takeWhile_append_dropWhile (p := p) (l := l)] at hx
  rcases List.mem_append.1 hx with h1 | h2
  · have := List.mem_takeWhile_imp h1
    rw [hpx] at this
    exact Bool.noConfusion this
  · exact h2

/-- Stripping removes only whitespace characters: any non-whitespace
character of the input survives. -/
theorem mem_stripChars (l : List Char) (x : Char) (hx : x ∈ l)
    (hws : x.isWhitespace = false) : x ∈ stripChars l := by
  unfold stripChars
  refine List.mem_reverse.2 (mem_dropWhile_of_not _ _ _ ?_ hws)
  exact List.mem_reverse.2 (mem_dropWhile_of_not _ _ _ hx hws)

theorem stripChars_length_le (l : List Char) :
    (stripChars l).length ≤ l.length := by
  unfold stripChars
  rw [List.length_reverse]
  calc ((l.dropWhile Char.isWhitespace).reverse.dropWhile
      Char.isWhitespace).length
      ≤ (l.dropWhile Char.isWhitespace).reverse.length :=
        (List.dropWhile_suffix _).length_le
    _ = (l.dropWhile Char.isWhitespace).length := List.length_reverse _
    _ ≤ l.length := (List.dropWhile_suffix _).length_le

/-- Does the text contain a non-whitespace character?  (`text.strip()`
is non-empty exactly on such texts.) -/
def hasInk (l : List Char) : Bool :=
  l.any (fun ch => !ch.isWhitespace)

theorem hasInk_of_mem (l : List Char) (x : Char) (hx : x ∈ l)
    (hws : x.isWhitespace = false) : hasInk l = true := by
  refine List.any_eq_true.2 ⟨x, hx, ?_⟩
  rw [hws]
  rfl

theorem exists_of_hasInk (l : List Char) (h : hasInk l = true) :
    ∃ x ∈ l, x.isWhitespace = false := by
  rcases List.any_eq_true.1 h with ⟨x, hx, hpx⟩
  refine ⟨x, hx, ?_⟩
  simpa using hpx

theorem hasInk_stripChars (l : List Char) (h : hasInk l = true) :
    hasInk (stripChars l) = true := by
  rcases exists_of_hasInk l h with ⟨x, hx, hws⟩
  exact hasInk_of_mem _ x (mem_stripChars l x hx hws) hws

theorem stripChars_ne_nil (l : List Char) (h : hasInk l = true) :
    stripChars l ≠ [] := by
  rcases exists_of_hasInk l h with ⟨x, hx, hws⟩
  exact List.ne_nil_of_mem (mem_stripChars l x hx hws)

theorem hasInk_flatten (L : List (List Char)) :
    hasInk L.flatten = true ↔ ∃ s ∈ L, hasInk s = true := by
  constructor
  · intro h
    rcases exists_of_hasInk _ h with ⟨x, hx, hws⟩
    rcases List.mem_flatten.1 hx with ⟨s, hs, hxs⟩
    exact ⟨s, hs, hasInk_of_mem s x hxs hws⟩
  · rintro ⟨s, hs, hink⟩
    rcases exists_of_hasInk s hink with ⟨x, hx, hws⟩
    exact hasInk_of_mem _ x (List.mem_flatten.2 ⟨s, hs, hx⟩) hws

theorem isPrefixOf_exists (l₁ : List Char) :
    ∀ l₂ : List Char, l₁.isPrefixOf l₂ = true → ∃ t, l₂ = l₁ ++ t := by
  induction l₁ with
  | nil => exact fun l₂ _ => ⟨l₂, rfl⟩
  | cons a s ih =>
    intro l₂ h
    cases l₂ with
    | nil => exact Bool.noConfusion h
    | cons b u =>
      simp only [List.isPrefixOf, Bool.and_eq_true, beq_iff_eq] at h
      rcases h with ⟨hab, h2⟩
      rcases ih u h2 with ⟨r, hr⟩
      exact ⟨r, by rw [hab, hr]; rfl⟩

/-- Reattach the separators that splitting cut away: the inverse reading
of `_split_text_with_regex` pieces. -/
def glue (sep : List Char) : List (List Char) → List Char
  | [] => []
  | p :: ps => p ++ (ps.map (fun q => sep ++ q)).flatten

theorem splitOnGo_ne_nil (sep : List Char) :
    ∀ (fuel : Nat) (text acc : List Char), splitOnGo sep fuel text acc ≠ [] := by
  intro fuel
  induction fuel with
  | zero =>
    intro text acc
    cases text <;> simp [splitOnGo]
  | succ n ih =>
    intro text acc
    cases text with
    | nil => simp [splitOnGo]
    | cons c rest =>
      unfold splitOnGo
      split
      · simp
      · exact ih rest (c :: acc)

theorem glue_cons_flatten (sep : List Char) (l : List (List Char))
    (h : l ≠ []) :
    (l.map (fun q => sep ++ q)).flatten = sep ++ glue sep l := by
  cases l with
  | nil => exact absurd rfl h
  | cons p ps =>
    rw [List.map_cons, List.flatten_cons]
    rw [show glue sep (p :: ps) =
      p ++ (ps.map (fun q => sep ++ q)).flatten from rfl]
    rw [List.append_assoc]

/-- Splitting followed by re-gluing is the identity: `splitOnGo` loses
no characters. -/
theorem splitOnGo_glue (sep : List Char) :
    ∀ (fuel : Nat) (text acc : List Char),
      glue sep (splitOnGo sep fuel text acc) = acc.reverse ++ text := by
  intro fuel
  induction fuel with
  | zero =>
    intro text acc
    cases text <;> simp [splitOnGo, glue]
  | succ n ih =>
    intro text acc
    cases text with
    | nil => simp [splitOnGo, glue]
    | cons c rest =>
      unfold splitOnGo
      split
      · rename_i hpre
        rw [show glue sep (acc.reverse ::
            splitOnGo sep n ((c :: rest).drop sep.length) []) =
          acc.reverse ++ ((splitOnGo sep n ((c :: rest).drop sep.length)
            []).map (fun q => sep ++ q)).flatten from rfl]
        rw [glue_cons_flatten sep _ (splitOnGo_ne_nil sep n _ [])]
        rw [ih ((c :: rest).drop sep.length) []]
        rcases isPrefixOf_exists sep (c :: rest) hpre with ⟨t, ht⟩
        rw [ht, List.drop_left]
        simp
      · rw [ih rest (c :: acc)]
        simp

theorem splitOnCh_glue (sep text : List Char) (h : sep ≠ []) :
    glue sep (splitOnCh sep text) = text := by
  unfold splitOnCh
  rw [if_neg (fun hh => h (List.isEmpty_iff.1 hh))]
  rw [splitOnGo_glue sep text.length text []]
  rfl

theorem flatten_filter_ne_nil (l : List (List Char)) :
    (l.filter (fun s => !s.isEmpty)).flatten = l.flatten := by
  induction l with
  | nil => rfl
  | cons x t ih =>
    cases x with
    | nil => simp [List.filter_cons, ih]
    | cons c cs => simp [List.filter_cons, ih]

/-- `_split_text_with_regex` with `keep_separator = True` loses no
characters: concatenating the pieces restores the text. -/
theorem splitKeepSep_flatten (sep text : List Char) :
    (splitKeepSep sep text).flatten = text := by
  unfold splitKeepSep
  by_cases hsep : sep.isEmpty = true
  · rw [if_pos hsep]
    rw [flatten_filter_ne_nil]
    induction text with
    | nil => rfl
    | cons c t ih =>
      rw [List.map_cons, List.flatten_cons, ih]
      rfl
  · rw [if_neg hsep]
    have hne : sep ≠ [] := fun he => hsep (by rw [he]; rfl)
    rcases hsp : splitOnCh sep text with _ | ⟨p, ps⟩
    · exfalso
      unfold splitOnCh at hsp
      rw [if_neg (fun hh => hne (List.isEmpty_iff.1 hh))] at hsp
      exact splitOnGo_ne_nil sep text.length text [] hsp
    · rw [flatten_filter_ne_nil]
      have hg : glue sep (p :: ps) = text := by
        rw [← hsp]
        exact splitOnCh_glue sep text hne
      rw [← hg]
      rfl

theorem joinDocs_some_length (docs : List (List Char)) (t : List Char)
    (h : joinDocs docs = some t) :
    t.length ≤ (docs.map List.length).sum ∧ t = stripChars docs.flatten := by
  unfold joinDocs at h
  dsimp only at h
  split at h
  · exact Option.noConfusion h
  · have ht : t = stripChars docs.flatten := (Option.some.inj h).symm
    refine ⟨?_, ht⟩
    rw [ht]
    calc (stripChars docs.flatten).length ≤ docs.flatten.length :=
        stripChars_length_le _
      _ = (docs.map List.length).sum := List.length_flatten _

theorem joinDocs_of_hasInk (docs : List (List Char))
    (h : hasInk docs.flatten = true) :
    ∃ t, joinDocs docs = some t ∧ hasInk t = true := by
  have h2 : hasInk (stripChars docs.flatten) = true := hasInk_stripChars _ h
  have h3 : stripChars docs.flatten ≠ [] := stripChars_ne_nil _ h
  refine ⟨stripChars docs.flatten, ?_, h2⟩
  unfold joinDocs
  dsimp only
  rw [if_neg (fun hh => h3 (List.isEmpty_iff.1 hh))]

/-- The popping loop keeps the running total equal to the window's
character count, and stops only once the incoming split fits or the
window is exhausted. -/
theorem popWhile_spec (cs ov dlen : Nat) :
    ∀ (cur : List (List Char)) (total : Nat),
      total = (cur.map List.length).sum →
      ((popWhile cs ov dlen cur total).2 =
        ((popWhile cs ov dlen cur total).1.map List.length).sum) ∧
      ((popWhile cs ov dlen cur total).2 + dlen ≤ cs ∨
        (popWhile cs ov dlen cur total).2 = 0) := by
  intro cur
  induction cur with
  | nil =>
    intro total htot
    simp only [List.map_nil, List.sum_nil] at htot
    subst htot
    exact ⟨rfl, Or.inr rfl⟩
  | cons d rest ih =>
    intro total htot
    simp only [popWhile]
    split
    · rename_i hcond
      apply ih
      rw [htot]
      simp only [List.map_cons, List.sum_cons]
      omega
    · rename_i hcond
      refine ⟨htot, ?_⟩
      simp only [Bool.or_eq_true, Bool.and_eq_true, decide_eq_true_eq,
        not_or, not_and] at hcond
      omega

theorem mergeStep_no_flush (cs ov : Nat) (st : MergeSt) (d : List Char)
    (h : ¬(cs < st.total + d.length)) :
    mergeStep cs ov st d =
      ⟨st.docs, st.cur ++ [d], st.total + d.length⟩ := by
  unfold mergeStep
  dsimp only
  rw [if_neg h]

theorem mergeStep_flush_empty (cs ov : Nat) (st : MergeSt) (d : List Char)
    (h : cs < st.total + d.length) (hcur : st.cur.isEmpty = true) :
    mergeStep cs ov st d =
      ⟨st.docs, st.cur ++ [d], st.total + d.length⟩ := by
  unfold mergeStep
  dsimp only
  rw [if_pos h, if_pos hcur]

theorem mergeStep_flush (cs ov : Nat) (st : MergeSt) (d : List Char)
    (h : cs < st.total + d.length) (hcur : ¬(st.cur.isEmpty = true)) :
    mergeStep cs ov st d =
      ⟨(match joinDocs st.cur with
         | some t => st.docs ++ [t]
         | none => st.docs),
        (popWhile cs ov d.length st.cur st.total).1 ++ [d],
        (popWhile cs ov d.length st.cur st.total).2 + d.length⟩ := by
  unfold mergeStep
  dsimp only
  rw [if_pos h, if_neg hcur]

/-- One `_merge_splits` iteration keeps the invariant: the total counts
the window, never exceeds `chunk_size`, and every emitted doc fits. -/
theorem mergeStep_inv (cs ov : Nat) (st : MergeSt) (d : List Char)
    (hd : d.length ≤ cs)
    (h1 : st.total = (st.cur.map List.length).sum)
    (h2 : st.total ≤ cs)
    (h3 : ∀ doc ∈ st.docs, doc.length ≤ cs) :
    ((mergeStep cs ov st d).total =
      ((mergeStep cs ov st d).cur.map List.length).sum) ∧
    ((mergeStep cs ov st d).total ≤ cs) ∧
    (∀ doc ∈ (mergeStep cs ov st d).docs, doc.length ≤ cs) := by
  by_cases hover : cs < st.total + d.length
  · by_cases hcur : st.cur.isEmpty = true
    · have hnil : st.cur = [] := List.isEmpty_iff.1 hcur
      have h0 : st.total = 0 := by
        rw [h1, hnil]
        rfl
      exact absurd hover (by omega)
    · rw [mergeStep_flush cs ov st d hover hcur]
      dsimp only
      rcases popWhile_spec cs ov d.length st.cur st.total h1 with ⟨hp1, hp2⟩
      refine ⟨?_, ?_, ?_⟩
      · simp only [List.map_append, List.sum_append, List.map_cons,
          List.sum_cons, List.map_nil, List.sum_nil]
        omega
      · rcases hp2 with h | h <;> omega
      · intro doc hdoc
        rcases hj : joinDocs st.cur with _ | t
        · rw [hj] at hdoc
          exact h3 doc hdoc
        · rw [hj] at hdoc
          dsimp only at hdoc
          rcases List.mem_append.1 hdoc with hm | hm
          · exact h3 doc hm
          · have hdt : doc = t := List.mem_singleton.1 hm
            rw [hdt]
            have hlen := (joinDocs_some_length st.cur t hj).1
            rw [← h1] at hlen
            omega
  · rw [mergeStep_no_flush cs ov st d hover]
    dsimp only
    refine ⟨?_, ?_, h3⟩
    · simp only [List.map_append, List.sum_append, List.map_cons,
        List.sum_cons, List.map_nil, List.sum_nil]
      omega
    · omega

theorem mergeSplits_eq (cs ov : Nat) (splits : List (List Char)) :
    mergeSplits cs ov splits =
      (splits.foldl (mergeStep cs ov) ⟨[], [], 0⟩).docs ++
        (match joinDocs (splits.foldl (mergeStep cs ov) ⟨[], [], 0⟩).cur with
         | some t => [t]
         | none => []) := rfl

theorem foldl_mergeStep_inv (cs ov : Nat) :
    ∀ (l : List (List Char)) (st : MergeSt),
      (∀ s ∈ l, s.length < cs) →
      st.total = (st.cur.map List.length).sum → st.total ≤ cs →
      (∀ doc ∈ st.docs, doc.length ≤ cs) →
      ((l.foldl (mergeStep cs ov) st).total =
        ((l.foldl (mergeStep cs ov) st).cur.map List.length).sum) ∧
      ((l.foldl (mergeStep cs ov) st).total ≤ cs) ∧
      (∀ doc ∈ (l.foldl (mergeStep cs ov) st).docs, doc.length ≤ cs) := by
  intro l
  induction l with
  | nil => exact fun st _ h1 h2 h3 => ⟨h1, h2, h3⟩
  | cons d t ih =>
    intro st hl h1 h2 h3
    rw [List.foldl_cons]
    rcases mergeStep_inv cs ov st d
      (le_of_lt (hl d (List.mem_cons_self d t))) h1 h2 h3 with ⟨g1, g2, g3⟩
    exact ih _ (fun s hs => hl s (List.mem_cons_of_mem d hs)) g1 g2 g3

/-- `_merge_splits` never emits a doc longer than `chunk_size` when all
incoming splits are shorter than `chunk_size`. -/
theorem mergeSplits_le (cs ov : Nat) (splits : List (List Char))
    (h : ∀ s ∈ splits, s.length < cs) :
    ∀ doc ∈ mergeSplits cs ov splits, doc.length ≤ cs := by
  rw [mergeSplits_eq]
  rcases foldl_mergeStep_inv cs ov splits ⟨[], [], 0⟩ h rfl (Nat.zero_le cs)
    (fun doc hdoc => absurd hdoc (List.not_mem_nil doc)) with ⟨g1, g2, g3⟩
  intro doc hdoc
  rcases List.mem_append.1 hdoc with hm | hm
  · exact g3 doc hm
  · rcases hj : joinDocs (splits.foldl (mergeStep cs ov) ⟨[], [], 0⟩).cur
      with _ | t
    · rw [hj] at hm
      exact absurd hm (List.not_mem_nil doc)
    · rw [hj] at hm
      have hdt : doc = t := List.mem_singleton.1 hm
      rw [hdt]
      have hlen := (joinDocs_some_length _ t hj).1
      rw [← g1] at hlen
      omega

/-- The `_split_text` loop body, named for the proofs below. -/
def pStep (cs ov : Nat) (noNew : Bool) (recFn : List Char → List (List Char))
    (st : List (List Char) × List (List Char)) (s : List Char) :
    List (List Char) × List (List Char) :=
  if s.length < cs then (st.1, st.2 ++ [s])
  else
    let flushed :=
      if st.2.isEmpty then st.1
      else st.1 ++ mergeSplits cs ov st.2
    if noNew then (flushed ++ [s], [])
    else (flushed ++ recFn s, [])

theorem processSplits_eq (cs ov : Nat) (noNew : Bool)
    (recFn : List Char → List (List Char)) (splits : List (List Char)) :
    processSplits cs ov noNew recFn splits =
      (if (splits.foldl (pStep cs ov noNew recFn) ([], [])).2.isEmpty then
        (splits.foldl (pStep cs ov noNew recFn) ([], [])).1
      else
        (splits.foldl (pStep cs ov noNew recFn) ([], [])).1 ++
          mergeSplits cs ov
            (splits.foldl (pStep cs ov noNew recFn) ([], [])).2) := rfl

theorem pStep_good (cs ov : Nat) (noNew : Bool)
    (recFn : List Char → List (List Char))
    (st : List (List Char) × List (List Char)) (s : List Char)
    (h : s.length < cs) :
    pStep cs ov noNew recFn st s = (st.1, st.2 ++ [s]) := by
  unfold pStep
  rw [if_pos h]

theorem pStep_bad (cs ov : Nat) (noNew : Bool)
    (recFn : List Char → List (List Char))
    (st : List (List Char) × List (List Char)) (s : List Char)
    (h : ¬(s.length < cs)) :
    pStep cs ov noNew recFn st s =
      ((if st.2.isEmpty then st.1 else st.1 ++ mergeSplits cs ov st.2) ++
        (if noNew then [s] else recFn s), []) := by
  unfold pStep
  rw [if_neg h]
  cases noNew <;> rfl

/-- Fold invariant of the `_split_text` loop: everything emitted so far
is bounded by `B`, and the pending good splits are all short. -/
theorem foldl_pStep_le (cs ov B : Nat) (noNew : Bool)
    (recFn : List Char → List (List Char)) (hB : cs ≤ B) :
    ∀ (l : List (List Char)) (st : List (List Char) × List (List Char)),
      (∀ s ∈ l, ¬(s.length < cs) →
        ∀ c ∈ (if noNew then [s] else recFn s), c.length ≤ B) →
      (∀ c ∈ st.1, c.length ≤ B) → (∀ s ∈ st.2, s.length < cs) →
      (∀ c ∈ (l.foldl (pStep cs ov noNew recFn) st).1, c.length ≤ B) ∧
      (∀ s ∈ (l.foldl (pStep cs ov noNew recFn) st).2, s.length < cs) := by
  intro l
  induction l with
  | nil => exact fun st _ h1 h2 => ⟨h1, h2⟩
  | cons s t ih =>
    intro st hl h1 h2
    rw [List.foldl_cons]
    by_cases hs : s.length < cs
    · rw [pStep_good cs ov noNew recFn st s hs]
      refine ih _ (fun x hx => hl x (List.mem_cons_of_mem s hx)) h1 ?_
      intro x hx
      rcases List.mem_append.1 hx with hm | hm
      · exact h2 x hm
      · rw [List.mem_singleton.1 hm]
        exact hs
    · rw [pStep_bad cs ov noNew recFn st s hs]
      refine ih _ (fun x hx => hl x (List.mem_cons_of_mem s hx)) ?_
        (fun x hx => absurd hx (List.not_mem_nil x))
      intro c hc
      rcases List.mem_append.1 hc with hm | hm
      · by_cases hemp : st.2.isEmpty = true
        · rw [if_pos hemp] at hm
          exact h1 c hm
        · rw [if_neg hemp] at hm
          rcases List.mem_append.1 hm with hm2 | hm2
          · exact h1 c hm2
          · exact le_trans (mergeSplits_le cs ov st.2 h2 c hm2) hB
      · exact hl s (List.mem_cons_self s t) hs c hm

/-- Every chunk `_split_text` produces is bounded by `B` whenever the
oversized-split handler is (`B ≥ chunk_size` covers the merged ones). -/
theorem processSplits_le (cs ov B : Nat) (noNew : Bool)
    (recFn : List Char → List (List Char)) (splits : List (List Char))
    (hB : cs ≤ B)
    (hsplit : ∀ s ∈ splits, ¬(s.length < cs) →
      ∀ c ∈ (if noNew then [s] else recFn s), c.length ≤ B) :
    ∀ c ∈ processSplits cs ov noNew recFn splits, c.length ≤ B := by
  rw [processSplits_eq]
  rcases foldl_pStep_le cs ov B noNew recFn hB splits ([], []) hsplit
    (fun c hc => absurd hc (List.not_mem_nil c))
    (fun s hs => absurd hs (List.not_mem_nil s)) with ⟨g1, g2⟩
  intro c hc
  by_cases hfin : (splits.foldl (pStep cs ov noNew recFn) ([], [])).2.isEmpty = true
  · rw [if_pos hfin] at hc
    exact g1 c hc
  · rw [if_neg hfin] at hc
    rcases List.mem_append.1 hc with hm | hm
    · exact g1 c hm
    · exact le_trans (mergeSplits_le cs ov _ g2 c hm) hB

/-- Unfolding one level of the splitter recursion. -/
theorem splitTextRec_succ (cs ov fuel : Nat) (seps : List (List Char))
    (text : List Char) :
    splitTextRec cs ov (fuel + 1) seps text =
      processSplits cs ov (chooseSep seps text).2.isEmpty
        (splitTextRec cs ov fuel (chooseSep seps text).2)
        (splitKeepSep (chooseSep seps text).1 text) := rfl

/-- The separator-selection loop on a list whose last entry is the empty
separator: either the empty separator is chosen with nothing left, or a
strictly shorter remainder again ending in the empty separator is kept. -/
theorem chooseSep_spec (text : List Char) :
    ∀ seps : List (List Char), seps ≠ [] → seps.getLast? = some [] →
      chooseSep seps text = ([], []) ∨
      ((chooseSep seps text).2 ≠ [] ∧
        (chooseSep seps text).2.getLast? = some [] ∧
        (chooseSep seps text).2.length < seps.length) := by
  intro seps
  induction seps with
  | nil => exact fun h _ => absurd rfl h
  | cons s rest ih =>
    intro _ hlast
    unfold chooseSep
    by_cases hs : s.isEmpty = true
    · rw [if_pos hs]
      exact Or.inl rfl
    · rw [if_neg hs]
      by_cases hc : containsSub s text = true
      · rw [if_pos hc]
        cases rest with
        | nil =>
          exfalso
          have hsnil : s = [] := by simpa using hlast
          rw [hsnil] at hs
          exact hs rfl
        | cons r2 t2 =>
          right
          rw [List.getLast?_cons_cons] at hlast
          exact ⟨by simp, hlast, by simp⟩
      · rw [if_neg hc]
        cases rest with
        | nil =>
          exfalso
          have hsnil : s = [] := by simpa using hlast
          rw [hsnil] at hs
          exact hs rfl
        | cons r2 t2 =>
          rw [List.getLast?_cons_cons] at hlast
          rcases ih (by simp) hlast with h | ⟨a, b, c⟩
          · exact Or.inl h
          · exact Or.inr ⟨a, b, Nat.lt_trans c (by simp)⟩

theorem splitKeepSep_empty_length (text : List Char) :
    ∀ s ∈ splitKeepSep [] text, s.length = 1 := by
  intro s hs
  unfold splitKeepSep at hs
  rw [if_pos (show ([] : List Char).isEmpty = true from rfl)] at hs
  rcases List.mem_filter.1 hs with ⟨hm, _⟩
  rcases List.mem_map.1 hm with ⟨c, _, hc⟩
  rw [← hc]
  rfl

/-- Every chunk the recursive splitter emits is at most `chunk_size`
long (or a single character when `chunk_size < 1`): with the empty
separator closing the preference list, the only unsplittable units left
at the bottom are single characters. -/
theorem splitTextRec_le (cs ov : Nat) :
    ∀ (fuel : Nat) (seps : List (List Char)) (text : List Char),
      seps ≠ [] → seps.getLast? = some [] → seps.length ≤ fuel →
      ∀ c ∈ splitTextRec cs ov fuel seps text, c.length ≤ max cs 1 := by
  intro fuel
  induction fuel with
  | zero =>
    intro seps text hne _ hlen
    exact absurd (List.length_eq_zero.1 (Nat.le_zero.1 hlen)) hne
  | succ n ih =>
    intro seps text hne hlast hlen
    rw [splitTextRec_succ]
    rcases chooseSep_spec text seps hne hlast with hcase | ⟨h2ne, h2last, h2len⟩
    · rw [hcase]
      refine processSplits_le cs ov (max cs 1) _ _ _ (le_max_left cs 1) ?_
      intro s hsmem _ c hcm
      have hs1 : s.length = 1 := splitKeepSep_empty_length text s hsmem
      have hcs : c = s := by
        rcases List.mem_singleton.1 (by simpa using hcm) with h
        exact h
      rw [hcs, hs1]
      exact le_max_right cs 1
    · refine processSplits_le cs ov (max cs 1) _ _ _ (le_max_left cs 1) ?_
      intro s _ _ c hcm
      have hno : (chooseSep seps text).2.isEmpty = false :=
        Bool.eq_false_iff.2 (fun hh => h2ne (List.isEmpty_iff.1 hh))
      rw [hno] at hcm
      simp only [Bool.false_eq_true, if_false] at hcm
      exact ih (chooseSep seps text).2 s h2ne h2last (by omega) c hcm


/-- One `_merge_splits` iteration never loses the last non-whitespace
character: it stays in an emitted doc or in the running window. -/
theorem mergeStep_ink (cs ov : Nat) (st : MergeSt) (d : List Char)
    (h : ((∃ doc ∈ st.docs, hasInk doc = true) ∨
        hasInk st.cur.flatten = true) ∨ hasInk d = true) :
    (∃ doc ∈ (mergeStep cs ov st d).docs, hasInk doc = true) ∨
      hasInk (mergeStep cs ov st d).cur.flatten = true := by
  by_cases hover : cs < st.total + d.length
  · by_cases hcur : st.cur.isEmpty = true
    · rw [mergeStep_flush_empty cs ov st d hover hcur]
      dsimp only
      rcases h with (hdocs | hcur_ink) | hd
      · exact Or.inl hdocs
      · rcases (hasInk_flatten _).1 hcur_ink with ⟨s, hs, hi⟩
        exact Or.inr ((hasInk_flatten _).2 ⟨s, List.mem_append_left _ hs, hi⟩)
      · exact Or.inr ((hasInk_flatten _).2
          ⟨d, List.mem_append_right _ (List.mem_singleton.2 rfl), hd⟩)
    · rw [mergeStep_flush cs ov st d hover hcur]
      dsimp only
      rcases hj : joinDocs st.cur with _ | t
      · rcases h with (hdocs | hcur_ink) | hd
        · exact Or.inl hdocs
        · rcases joinDocs_of_hasInk st.cur hcur_ink with ⟨t2, hjt, _⟩
          rw [hj] at hjt
          exact Option.noConfusion hjt
        · exact Or.inr ((hasInk_flatten _).2
            ⟨d, List.mem_append_right _ (List.mem_singleton.2 rfl), hd⟩)
      · rcases h with (hdocs | hcur_ink) | hd
        · rcases hdocs with ⟨doc, hm, hi⟩
          exact Or.inl ⟨doc, List.mem_append_left _ hm, hi⟩
        · rcases joinDocs_of_hasInk st.cur hcur_ink with ⟨t2, hjt, hti⟩
          rw [hj] at hjt
          have ht2 : t2 = t := Option.some.inj hjt.symm
          rw [ht2] at hti
          exact Or.inl ⟨t, List.mem_append_right _ (List.mem_singleton.2 rfl),
            hti⟩
        · exact Or.inr ((hasInk_flatten _).2
            ⟨d, List.mem_append_right _ (List.mem_singleton.2 rfl), hd⟩)
  · rw [mergeStep_no_flush cs ov st d hover]
    dsimp only
    rcases h with (hdocs | hcur_ink) | hd
    · exact Or.inl hdocs
    · rcases (hasInk_flatten _).1 hcur_ink with ⟨s, hs, hi⟩
      exact Or.inr ((hasInk_flatten _).2 ⟨s, List.mem_append_left _ hs, hi⟩)
    · exact Or.inr ((hasInk_flatten _).2
        ⟨d, List.mem_append_right _ (List.mem_singleton.2 rfl), hd⟩)

theorem foldl_mergeStep_ink (cs ov : Nat) :
    ∀ (l : List (List Char)) (st : MergeSt),
      ((∃ s ∈ l, hasInk s = true) ∨
        ((∃ doc ∈ st.docs, hasInk doc = true) ∨
          hasInk st.cur.flatten = true)) →
      ((∃ doc ∈ (l.foldl (mergeStep cs ov) st).docs, hasInk doc = true) ∨
        hasInk (l.foldl (mergeStep cs ov) st).cur.flatten = true) := by
  intro l
  induction l with
  | nil =>
    intro st h
    rcases h with ⟨s, hs, _⟩ | hI
    · exact absurd hs (List.not_mem_nil s)
    · exact hI
  | cons d t ih =>
    intro st h
    rw [List.foldl_cons]
    rcases h with ⟨s, hs, hink⟩ | hI
    · rcases List.mem_cons.1 hs with he | hm
      · exact ih _ (Or.inr (mergeStep_ink cs ov st d (Or.inr (he ▸ hink))))
      · exact ih _ (Or.inl ⟨s, hm, hink⟩)
    · exact ih _ (Or.inr (mergeStep_ink cs ov st d (Or.inl hI)))

/-- `_merge_splits` keeps at least one chunk containing any given
non-whitespace content of its input splits. -/
theorem mergeSplits_ink (cs ov : Nat) (splits : List (List Char))
    (h : ∃ s ∈ splits, hasInk s = true) :
    ∃ doc ∈ mergeSplits cs ov splits, hasInk doc = true := by
  rw [mergeSplits_eq]
  rcases foldl_mergeStep_ink cs ov splits ⟨[], [], 0⟩ (Or.inl h) with
    hdocs | hcur
  · rcases hdocs with ⟨doc, hm, hi⟩
    exact ⟨doc, List.mem_append_left _ hm, hi⟩
  · rcases joinDocs_of_hasInk _ hcur with ⟨t, hjt, hti⟩
    rw [hjt]
    exact ⟨t, List.mem_append_right _ (List.mem_singleton.2 rfl), hti⟩

theorem pStep_ink (cs ov : Nat) (noNew : Bool)
    (recFn : List Char → List (List Char))
    (st : List (List Char) × List (List Char)) (s : List Char)
    (hrec : ¬(s.length < cs) → hasInk s = true →
      ∃ c ∈ (if noNew then [s] else recFn s), hasInk c = true)
    (h : ((∃ c ∈ st.1, hasInk c = true) ∨ (∃ x ∈ st.2, hasInk x = true)) ∨
      hasInk s = true) :
    (∃ c ∈ (pStep cs ov noNew recFn st s).1, hasInk c = true) ∨
      (∃ x ∈ (pStep cs ov noNew recFn st s).2, hasInk x = true) := by
  by_cases hs : s.length < cs
  · rw [pStep_good cs ov noNew recFn st s hs]
    rcases h with (h1 | h2) | hink
    · exact Or.inl h1
    · rcases h2 with ⟨x, hm, hi⟩
      exact Or.inr ⟨x, List.mem_append_left _ hm, hi⟩
    · exact Or.inr ⟨s, List.mem_append_right _ (List.mem_singleton.2 rfl),
        hink⟩
  · rw [pStep_bad cs ov noNew recFn st s hs]
    left
    rcases h with (h1 | h2) | hink
    · rcases h1 with ⟨c, hm, hi⟩
      refine ⟨c, List.mem_append_left _ ?_, hi⟩
      by_cases hemp : st.2.isEmpty = true
      · rw [if_pos hemp]
        exact hm
      · rw [if_neg hemp]
        exact List.mem_append_left _ hm
    · rcases h2 with ⟨x, hm, hi⟩
      have hemp : st.2.isEmpty = false :=
        Bool.eq_false_iff.2 (fun hh => List.ne_nil_of_mem hm
          (List.isEmpty_iff.1 hh))
      rcases mergeSplits_ink cs ov st.2 ⟨x, hm, hi⟩ with ⟨doc, hdm, hdi⟩
      refine ⟨doc, List.mem_append_left _ ?_, hdi⟩
      rw [hemp]
      simp only [Bool.false_eq_true, if_false]
      exact List.mem_append_right _ hdm
    · rcases hrec hs hink with ⟨c, hm, hi⟩
      exact ⟨c, List.mem_append_right _ hm, hi⟩

theorem foldl_pStep_ink (cs ov : Nat) (noNew : Bool)
    (recFn : List Char → List (List Char)) :
    ∀ (l : List (List Char)) (st : List (List Char) × List (List Char)),
      (∀ s ∈ l, ¬(s.length < cs) → hasInk s = true →
        ∃ c ∈ (if noNew then [s] else recFn s), hasInk c = true) →
      ((∃ s ∈ l, hasInk s = true) ∨
        ((∃ c ∈ st.1, hasInk c = true) ∨ (∃ x ∈ st.2, hasInk x = true))) →
      ((∃ c ∈ (l.foldl (pStep cs ov noNew recFn) st).1, hasInk c = true) ∨
        (∃ x ∈ (l.foldl (pStep cs ov noNew recFn) st).2, hasInk x = true)) := by
  intro l
  induction l with
  | nil =>
    intro st _ h
    rcases h with ⟨s, hs, _⟩ | hJ
    · exact absurd hs (List.not_mem_nil s)
    · exact hJ
  | cons d t ih =>
    intro st hrec h
    rw [List.foldl_cons]
    have hrect : ∀ s ∈ t, ¬(s.length < cs) → hasInk s = true →
        ∃ c ∈ (if noNew then [s] else recFn s), hasInk c = true :=
      fun s hs => hrec s (List.mem_cons_of_mem d hs)
    have hrecd := hrec d (List.mem_cons_self d t)
    rcases h with ⟨s, hs, hink⟩ | hJ
    · rcases List.mem_cons.1 hs with he | hm
      · exact ih _ hrect
          (Or.inr (pStep_ink cs ov noNew recFn st d hrecd
            (Or.inr (he ▸ hink))))
      · exact ih _ hrect (Or.inl ⟨s, hm, hink⟩)
    · exact ih _ hrect
        (Or.inr (pStep_ink cs ov noNew recFn st d hrecd (Or.inl hJ)))

/-- The `_split_text` loop keeps at least one chunk containing any given
non-whitespace content, provided the oversized-split handler does. -/
theorem processSplits_ink (cs ov : Nat) (noNew : Bool)
    (recFn : List Char → List (List Char)) (splits : List (List Char))
    (hrec : ∀ s ∈ splits, ¬(s.length < cs) → hasInk s = true →
      ∃ c ∈ (if noNew then [s] else recFn s), hasInk c = true)
    (h : ∃ s ∈ splits, hasInk s = true) :
    ∃ c ∈ processSplits cs ov noNew recFn splits, hasInk c = true := by
  rw [processSplits_eq]
  rcases foldl_pStep_ink cs ov noNew recFn splits ([], []) hrec (Or.inl h)
    with h1 | h2
  · rcases h1 with ⟨c, hm, hi⟩
    by_cases hfin :
        (splits.foldl (pStep cs ov noNew recFn) ([], [])).2.isEmpty = true
    · rw [if_pos hfin]
      exact ⟨c, hm, hi⟩
    · rw [if_neg hfin]
      exact ⟨c, List.mem_append_left _ hm, hi⟩
  · rcases h2 with ⟨x, hm, hi⟩
    have hfin :
        (splits.foldl (pStep cs ov noNew recFn) ([], [])).2.isEmpty = false :=
      Bool.eq_false_iff.2 (fun hh => List.ne_nil_of_mem hm
        (List.isEmpty_iff.1 hh))
    rw [hfin]
    simp only [Bool.false_eq_true, if_false]
    rcases mergeSplits_ink cs ov _ ⟨x, hm, hi⟩ with ⟨doc, hdm, hdi⟩
    exact ⟨doc, List.mem_append_right _ hdm, hdi⟩

/-- The recursive splitter of non-whitespace text emits at least one
chunk that still contains non-whitespace content. -/
theorem splitTextRec_ink (cs ov : Nat) :
    ∀ (fuel : Nat) (seps : List (List Char)) (text : List Char),
      seps ≠ [] → seps.getLast? = some [] → seps.length ≤ fuel →
      hasInk text = true →
      ∃ c ∈ splitTextRec cs ov fuel seps text, hasInk c = true := by
  intro fuel
  induction fuel with
  | zero =>
    intro seps text hne _ hlen
    exact absurd (List.length_eq_zero.1 (Nat.le_zero.1 hlen)) hne
  | succ n ih =>
    intro seps text hne hlast hlen hink
    rw [splitTextRec_succ]
    have hpieces : ∃ s ∈ splitKeepSep (chooseSep seps text).1 text,
        hasInk s = true := by
      refine (hasInk_flatten _).1 ?_
      rw [splitKeepSep_flatten]
      exact hink
    rcases chooseSep_spec text seps hne hlast with hcase | ⟨h2ne, h2last, h2len⟩
    · have h2 : (chooseSep seps text).2 = [] := by
        rw [hcase]
      have hemp : (chooseSep seps text).2.isEmpty = true := by
        rw [h2]
        rfl
      refine processSplits_ink cs ov _ _ _ ?_ hpieces
      intro s _ _ hsink
      rw [if_pos hemp]
      exact ⟨s, List.mem_singleton.2 rfl, hsink⟩
    · have hemp : (chooseSep seps text).2.isEmpty = false :=
        Bool.eq_false_iff.2 (fun hh => h2ne (List.isEmpty_iff.1 hh))
      refine processSplits_ink cs ov _ _ _ ?_ hpieces
      intro s _ _ hsink
      rw [hemp]
      simp only [Bool.false_eq_true, if_false]
      exact ih (chooseSep seps text).2 s h2ne h2last (by omega) hsink

/-- The concrete text of the chunking counterexample. -/
def textC7 : List Char := ['a', ' ', '\n', '\n', ' ', 'b']

/-- Claim C7 is false on the code: chunking the six-character text
`"a \n\n b"` with `chunk_size = 3` and `overlap = 0` yields the chunks
`"a"` and `"b"`; with zero overlap, rejoining with the overlaps removed
is plain concatenation, and `"ab"` is not the original text — the
whitespace at the chunk boundaries was stripped away. -/
theorem C7_counterexample :
    chunk_text textC7 3 0 = [['a'], ['b']] ∧
    (chunk_text textC7 3 0).flatten ≠ textC7 :=
  ⟨rfl, by decide⟩

/-- Claim C7 (amended): the original claim holds except for its
reconstruction clause.  Empty or whitespace-only input yields the empty
sequence, not an error; input containing any non-whitespace character
yields a non-empty sequence; every returned chunk is non-empty and
whitespace-trimmed; every chunk's length is at most `chunk_size` (the
only unsplittable units surviving the final empty-string separator are
single characters, so a longer chunk needs `chunk_size < 1`); and the
output — in particular the chunk count — is determined by
`(text, chunk_size, overlap)` alone.  Only exact reconstruction by
rejoining fails, per `C7_counterexample`. -/
theorem chunk_text_trimmed (text : List Char) (cs ov : Nat) :
    ((stripChars text).isEmpty = true → chunk_text text cs ov = []) ∧
    (hasInk text = true → chunk_text text cs ov ≠ []) ∧
    (∀ c ∈ chunk_text text cs ov, c ≠ [] ∧ stripChars c = c) ∧
    (∀ c ∈ chunk_text text cs ov, c.length ≤ max cs 1) ∧
    (∀ (text2 : List Char) (cs2 ov2 : Nat),
      text = text2 → cs = cs2 → ov = ov2 →
      (chunk_text text cs ov).length = (chunk_text text2 cs2 ov2).length) := by
  refine ⟨?_, ?_, ?_, ?_, ?_⟩
  · intro h
    unfold chunk_text
    rw [if_pos h]
  · intro hink
    have hguard : (stripChars text).isEmpty = false :=
      Bool.eq_false_iff.2 (fun hh =>
        stripChars_ne_nil text hink (List.isEmpty_iff.1 hh))
    unfold chunk_text
    rw [hguard]
    simp only [Bool.false_eq_true, if_false]
    rcases splitTextRec_ink cs ov chunkSeparators.length chunkSeparators text
      (by decide) rfl (le_refl _) hink with ⟨c0, hc0, hc0i⟩
    have hsne : stripChars c0 ≠ [] := stripChars_ne_nil c0 hc0i
    have hmem : stripChars c0 ∈ (splitTextRec cs ov chunkSeparators.length
        chunkSeparators text).filterMap (fun c =>
        let s := stripChars c
        if s.isEmpty then none else some s) := by
      refine List.mem_filterMap.2 ⟨c0, hc0, ?_⟩
      dsimp only
      rw [if_neg (fun hh => hsne (List.isEmpty_iff.1 hh))]
    exact List.ne_nil_of_mem hmem
  · intro c hc
    unfold chunk_text at hc
    by_cases h : (stripChars text).isEmpty
    · rw [if_pos h] at hc
      exact absurd hc (List.not_mem_nil c)
    · rw [if_neg h] at hc
      rcases List.mem_filterMap.1 hc with ⟨a, _, hfa⟩
      by_cases he : (stripChars a).isEmpty
      · simp only [he, if_true] at hfa
        exact absurd hfa (by simp)
      · simp only [he, Bool.false_eq_true, if_false] at hfa
        have hca : c = stripChars a := by
          have := Option.some.inj hfa
          exact this.symm
        subst hca
        refine ⟨?_, stripChars_idem a⟩
        intro hnil
        rw [hnil] at he
        exact he rfl
  · intro c hc
    unfold chunk_text at hc
    by_cases h : (stripChars text).isEmpty
    · rw [if_pos h] at hc
      exact absurd hc (List.not_mem_nil c)
    · rw [if_neg h] at hc
      rcases List.mem_filterMap.1 hc with ⟨a, ha, hfa⟩
      by_cases he : (stripChars a).isEmpty
      · simp only [he, if_true] at hfa
        exact absurd hfa (by simp)
      · simp only [he, Bool.false_eq_true, if_false] at hfa
        have hca : c = stripChars a := (Option.some.inj hfa).symm
        rw [hca]
        calc (stripChars a).length ≤ a.length := stripChars_length_le a
          _ ≤ max cs 1 := splitTextRec_le cs ov chunkSeparators.length
              chunkSeparators text (by decide) rfl (le_refl _) a ha
  · intro text2 cs2 ov2 ht hcs hov
    rw [ht, hcs, hov]

/-- Witness for `chunk_text_trimmed`: the whitespace-only input `" "`
yields no chunks; `"a"` yields a non-empty list whose chunk `"a"` is
non-empty, trimmed and within the size bound; and the chunk count is
reproduced on identical inputs. -/
theorem chunk_text_trimmed_witness :
    (chunk_text [' '] 5 0 = []) ∧
    (chunk_text ['a'] 5 0 ≠ []) ∧
    (['a'] ≠ [] ∧ stripChars ['a'] = ['a']) ∧
    (['a'] : List Char).length ≤ max 5 1 ∧
    (chunk_text ['a'] 5 0).length = (chunk_text ['a'] 5 0).length :=
  ⟨(chunk_text_trimmed [' '] 5 0).1 (by decide),
   (chunk_text_trimmed ['a'] 5 0).2.1 (by decide),
   (chunk_text_trimmed ['a'] 5 0).2.2.1 ['a'] (by decide),
   (chunk_text_trimmed ['a'] 5 0).2.2.2.1 ['a'] (by decide),
   (chunk_text_trimmed ['a'] 5 0).2.2.2.2 ['a'] 5 0 rfl rfl rfl⟩

/-! ## RRF fusion lemmas -/

/-- The ids of a candidate list, in rank order. -/
def chunkIds (l : List Chunk) : List String := l.map (fun c => c.id)

/-- The claim's per-list reciprocal-rank term, in `ℚ`: `1/(K + rank + 1)`
for the 0-based rank of `id` in the list, 0 when absent. -/
def rankTerm (ids : List String) (id : String) : ℚ :=
  match ids.findIdx? (fun x => x == id) with
  | some r => 1 / ((RRF_K : ℚ) + r + 1)
  | none => 0

/-- The claim's fused score: the sum of the reciprocal-rank terms over
the input lists containing the chunk. -/
def rrfSpecScore (dense sparse : List Chunk) (id : String) : ℚ :=
  rankTerm (chunkIds dense) id + rankTerm (chunkIds sparse) id

/-- The keys of an association-list dict. -/
def dictKeys {α : Type} (m : List (String × α)) : List String :=
  m.map Prod.fst

theorem dictFind?_nil {α : Type} (id : String) :
    dictFind? ([] : List (String × α)) id = none := rfl

theorem dictFind?_dictAdd_self (m : List (String × Frac)) (id : String)
    (v : Frac) :
    dictFind? (dictAdd m id v) id = some
      (match dictFind? m id with
       | some w => w.add v
       | none => v) := by
  induction m with
  | nil => simp [dictAdd, dictFind?]
  | cons p rest ih =>
    obtain ⟨k, w⟩ := p
    by_cases hk : k = id
    · subst hk
      simp [dictAdd, dictFind?]
    · have hbeq : (k == id) = false := by
        simpa using hk
      simp only [dictAdd, if_neg hk, dictFind?, List.find?_cons, hbeq]
      exact ih

theorem dictFind?_dictAdd_other (m : List (String × Frac)) (id id' : String)
    (v : Frac) (h : id' ≠ id) :
    dictFind? (dictAdd m id v) id' = dictFind? m id' := by
  induction m with
  | nil =>
    have hbeq : (id == id') = false := by
      simpa using (Ne.symm h)
    simp [dictAdd, dictFind?, hbeq]
  | cons p rest ih =>
    obtain ⟨k, w⟩ := p
    by_cases hk : k = id
    · subst hk
      have hbeq : (k == id') = false := by
        simpa using fun he => h he.symm
      simp [dictAdd, dictFind?, List.find?_cons, hbeq]
    · by_cases hk' : k = id'
      · subst hk'
        simp [dictAdd, if_neg hk, dictFind?, List.find?_cons]
      · have hbeq : (k == id') = false := by simpa using hk'
        simp only [dictAdd, if_neg hk, dictFind?, List.find?_cons, hbeq]
        exact ih

theorem findIdx?_eq_none_of_not_mem (ids : List String) (id : String)
    (i : Nat) (h : id ∉ ids) :
    ids.findIdx? (fun x => x == id) i = none := by
  induction ids generalizing i with
  | nil => rfl
  | cons x t ih =>
    have hx : x ≠ id := fun he => h (he ▸ List.mem_cons_self x t)
    have hbeq : (x == id) = false := by simpa using hx
    rw [List.findIdx?_cons, hbeq]
    simp only [Bool.false_eq_true, if_false]
    exact ih (i + 1) (fun hm => h (List.mem_cons_of_mem x hm))

theorem findIdx?_isSome_of_mem (ids : List String) (id : String) (i : Nat)
    (h : id ∈ ids) :
    ∃ r, ids.findIdx? (fun x => x == id) i = some r := by
  induction ids generalizing i with
  | nil => exact absurd h (List.not_mem_nil id)
  | cons x t ih =>
    rw [List.findIdx?_cons]
    by_cases hx : (x == id) = true
    · rw [hx]
      exact ⟨i, rfl⟩
    · rw [Bool.not_eq_true] at hx
      rw [hx]
      simp only [Bool.false_eq_true, if_false]
      rcases List.mem_cons.1 h with he | hm
      · exfalso
        cases he
        simp at hx
      · exact ih (i + 1) hm

theorem mem_of_findIdx?_eq_some (ids : List String) (id : String) (i r : Nat)
    (h : ids.findIdx? (fun x => x == id) i = some r) : id ∈ ids := by
  by_contra hm
  rw [findIdx?_eq_none_of_not_mem ids id i hm] at h
  exact Option.noConfusion h

/-- Looking up any id in the scores dict built by one enumeration loop:
the reciprocal-rank term of the id's rank is added to the previous value
exactly once when the id occurs in the (duplicate-free) list, and the
dict is untouched at ids that do not occur. -/
theorem dictFind?_rrfFold (l : List Chunk) (k : Nat)
    (m : List (String × Frac)) (id : String)
    (hnod : (chunkIds l).Nodup) :
    dictFind? ((l.enumFrom k).foldl
        (fun acc rc => dictAdd acc rc.2.id (rrfTerm rc.1)) m) id =
      match (chunkIds l).findIdx? (fun x => x == id) k with
      | some r => some
          (match dictFind? m id with
           | some w => w.add (rrfTerm r)
           | none => rrfTerm r)
      | none => dictFind? m id := by
  induction l generalizing k m with
  | nil => rfl
  | cons c tl ih =>
    have hnods : (chunkIds tl).Nodup := by
      have := hnod
      simp only [chunkIds, List.map_cons, List.nodup_cons] at this
      exact this.2
    have hcnot : c.id ∉ chunkIds tl := by
      have := hnod
      simp only [chunkIds, List.map_cons, List.nodup_cons] at this
      exact this.1
    rw [List.enumFrom_cons, List.foldl_cons]
    have hids : chunkIds (c :: tl) = c.id :: chunkIds tl := rfl
    rw [hids, List.findIdx?_cons]
    by_cases hid : c.id = id
    · subst hid
      have hbeq : (c.id == c.id) = true := by simp
      rw [hbeq]
      simp only [if_true]
      rw [ih (k + 1) (dictAdd m c.id (rrfTerm k)) hnods]
      rw [findIdx?_eq_none_of_not_mem (chunkIds tl) c.id (k + 1) hcnot]
      exact dictFind?_dictAdd_self m c.id (rrfTerm k)
    · have hbeq : (c.id == id) = false := by simpa using hid
      rw [hbeq]
      simp only [Bool.false_eq_true, if_false]
      rw [ih (k + 1) (dictAdd m c.id (rrfTerm k)) hnods]
      rw [dictFind?_dictAdd_other m c.id id (rrfTerm k)
        (fun he => hid he.symm)]

theorem rrfTerm_toRat (r : Nat) :
    (rrfTerm r).toRat = 1 / ((RRF_K : ℚ) + r + 1) := by
  rw [rrfTerm, Frac.toRat_rcp]
  push_cast
  ring_nf

theorem rankTerm_of_findIdx? (ids : List String) (id : String) (r : Nat)
    (h : ids.findIdx? (fun x => x == id) = some r) :
    rankTerm ids id = 1 / ((RRF_K : ℚ) + r + 1) := by
  unfold rankTerm
  rw [h]

theorem rankTerm_of_not_mem (ids : List String) (id : String)
    (h : id ∉ ids) : rankTerm ids id = 0 := by
  unfold rankTerm
  rw [findIdx?_eq_none_of_not_mem ids id 0 h]

theorem rankTerm_pos_of_mem (ids : List String) (id : String)
    (h : id ∈ ids) : 0 < rankTerm ids id := by
  rcases findIdx?_isSome_of_mem ids id 0 h with ⟨r, hr⟩
  rw [rankTerm_of_findIdx? ids id r hr]
  positivity

/-- The fused score dict of `_rrf_fuse`, read through `Frac.toRat`,
realises exactly the claim's Σ 1/(K + rank + 1) formula. -/
theorem dictFind?_rrfScores (dense sparse : List Chunk) (id : String)
    (hd : (chunkIds dense).Nodup) (hs : (chunkIds sparse).Nodup) :
    (dictFind? (rrfScores dense sparse) id).map Frac.toRat =
      if id ∈ chunkIds dense ∨ id ∈ chunkIds sparse
      then some (rrfSpecScore dense sparse id)
      else none := by
  unfold rrfScores
  have hdense := dictFind?_rrfFold dense 0 [] id hd
  have hsparse := dictFind?_rrfFold sparse 0
    ((dense.enumFrom 0).foldl
      (fun acc rc => dictAdd acc rc.2.id (rrfTerm rc.1)) []) id hs
  show (dictFind? ((sparse.enumFrom 0).foldl
      (fun acc rc => dictAdd acc rc.2.id (rrfTerm rc.1))
      ((dense.enumFrom 0).foldl
        (fun acc rc => dictAdd acc rc.2.id (rrfTerm rc.1)) [])) id).map
      Frac.toRat = _
  rw [hsparse]
  rcases hfs : (chunkIds sparse).findIdx? (fun x => x == id) with _ | rs
  · rcases hfd : (chunkIds dense).findIdx? (fun x => x == id) with _ | rd
    · rw [hdense, hfd]
      have h1 : id ∉ chunkIds dense := fun hm => by
        rcases findIdx?_isSome_of_mem (chunkIds dense) id 0 hm with ⟨r, hr⟩
        rw [hr] at hfd
        exact Option.noConfusion hfd
      have h2 : id ∉ chunkIds sparse := fun hm => by
        rcases findIdx?_isSome_of_mem (chunkIds sparse) id 0 hm with ⟨r, hr⟩
        rw [hr] at hfs
        exact Option.noConfusion hfs
      rw [if_neg (by tauto)]
      rfl
    · rw [hdense, hfd]
      have h1 : id ∈ chunkIds dense := mem_of_findIdx?_eq_some _ id 0 rd hfd
      have h2 : id ∉ chunkIds sparse := fun hm => by
        rcases findIdx?_isSome_of_mem (chunkIds sparse) id 0 hm with ⟨r, hr⟩
        rw [hr] at hfs
        exact Option.noConfusion hfs
      rw [if_pos (Or.inl h1)]
      unfold rrfSpecScore
      rw [rankTerm_of_findIdx? _ id rd hfd, rankTerm_of_not_mem _ id h2]
      simp [dictFind?_nil, rrfTerm_toRat, one_div]
  · rw [hdense]
    have h2 : id ∈ chunkIds sparse := mem_of_findIdx?_eq_some _ id 0 rs hfs
    rcases hfd : (chunkIds dense).findIdx? (fun x => x == id) with _ | rd
    · have h1 : id ∉ chunkIds dense := fun hm => by
        rcases findIdx?_isSome_of_mem (chunkIds dense) id 0 hm with ⟨r, hr⟩
        rw [hr] at hfd
        exact Option.noConfusion hfd
      rw [if_pos (Or.inr h2)]
      unfold rrfSpecScore
      rw [rankTerm_of_not_mem _ id h1, rankTerm_of_findIdx? _ id rs hfs]
      simp [dictFind?_nil, rrfTerm_toRat, one_div]
    · have h1 : id ∈ chunkIds dense := mem_of_findIdx?_eq_some _ id 0 rd hfd
      rw [if_pos (Or.inl h1)]
      unfold rrfSpecScore
      rw [rankTerm_of_findIdx? _ id rd hfd, rankTerm_of_findIdx? _ id rs hfs]
      simp [dictFind?_nil, Frac.toRat_add, rrfTerm_toRat, one_div]

theorem dictKeys_dictAdd (m : List (String × Frac)) (id : String) (v : Frac) :
    dictKeys (dictAdd m id v) =
      if id ∈ dictKeys m then dictKeys m else dictKeys m ++ [id] := by
  induction m with
  | nil => simp [dictAdd, dictKeys]
  | cons p rest ih =>
    obtain ⟨k, w⟩ := p
    by_cases hk : k = id
    · subst hk
      simp [dictAdd, dictKeys]
    · simp only [dictAdd, if_neg hk, dictKeys, List.map_cons,
        List.mem_cons] at *
      by_cases hm : id ∈ List.map Prod.fst rest
      · rw [if_pos hm] at ih
        rw [ih, if_pos (Or.inr hm)]
      · rw [if_neg hm] at ih
        rw [ih, if_neg (by
          rintro (he | hm2)
          · exact hk he.symm
          · exact hm hm2)]
        simp

theorem nodup_dictKeys_dictAdd (m : List (String × Frac)) (id : String)
    (v : Frac) (h : (dictKeys m).Nodup) : (dictKeys (dictAdd m id v)).Nodup := by
  rw [dictKeys_dictAdd]
  by_cases hm : id ∈ dictKeys m
  · rwa [if_pos hm]
  · rw [if_neg hm]
    rw [List.nodup_append]
    exact ⟨h, List.nodup_singleton id, by
      intro x hx hxm
      rcases List.mem_singleton.1 hxm with rfl
      exact hm hx⟩

theorem nodup_dictKeys_rrfFold (l : List Chunk) (k : Nat)
    (m : List (String × Frac)) (h : (dictKeys m).Nodup) :
    (dictKeys ((l.enumFrom k).foldl
      (fun acc rc => dictAdd acc rc.2.id (rrfTerm rc.1)) m)).Nodup := by
  induction l generalizing k m with
  | nil => exact h
  | cons c tl ih =>
    rw [List.enumFrom_cons, List.foldl_cons]
    exact ih (k + 1) _ (nodup_dictKeys_dictAdd m c.id (rrfTerm k) h)

theorem nodup_dictKeys_rrfScores (dense sparse : List Chunk) :
    (dictKeys (rrfScores dense sparse)).Nodup := by
  unfold rrfScores
  exact nodup_dictKeys_rrfFold sparse 0 _
    (nodup_dictKeys_rrfFold dense 0 [] List.nodup_nil)

theorem find?_eq_of_mem_nodupKeys {α : Type} (m : List (String × α))
    (p : String × α) (hm : p ∈ m) (h : (dictKeys m).Nodup) :
    m.find? (fun q => q.1 == p.1) = some p := by
  induction m with
  | nil => exact absurd hm (List.not_mem_nil p)
  | cons q rest ih =>
    have hn : (dictKeys rest).Nodup := by
      simp only [dictKeys, List.map_cons, List.nodup_cons] at h
      exact h.2
    have hq : q.1 ∉ dictKeys rest := by
      simp only [dictKeys, List.map_cons, List.nodup_cons] at h
      exact h.1
    rcases List.mem_cons.1 hm with he | hrest
    · subst he
      rw [List.find?_cons]
      simp
    · have hne : (q.1 == p.1) = false := by
        have hne2 : q.1 ≠ p.1 := by
          intro he
          apply hq
          rw [he]
          exact List.mem_map.2 ⟨p, hrest, rfl⟩
        simpa using hne2
      rw [List.find?_cons, hne]
      exact ih hrest hn

theorem dictFind?_eq_of_mem_nodupKeys (m : List (String × Frac))
    (p : String × Frac) (hm : p ∈ m) (h : (dictKeys m).Nodup) :
    dictFind? m p.1 = some p.2 := by
  unfold dictFind?
  rw [find?_eq_of_mem_nodupKeys m p hm h]
  rfl

/-- Every entry of the `by_id` dict stores a chunk whose id is its key. -/
theorem rrfById_inv (dense sparse : List Chunk) :
    ∀ p ∈ rrfById dense sparse, (p.2 : Chunk).id = p.1 := by
  have hput : ∀ (m : List (String × Chunk)) (c : Chunk),
      (∀ p ∈ m, (p.2 : Chunk).id = p.1) → ∀ p ∈ dictPut m c,
        (p.2 : Chunk).id = p.1 := by
    intro m c
    induction m with
    | nil =>
      intro _ p hp
      rcases List.mem_singleton.1 hp with rfl
      rfl
    | cons q rest ih =>
      obtain ⟨qk, qv⟩ := q
      intro hinv p hp
      rw [show dictPut ((qk, qv) :: rest) c =
        (if qk = c.id then (qk, c) :: rest
         else (qk, qv) :: dictPut rest c) from rfl] at hp
      by_cases hq : qk = c.id
      · rw [if_pos hq] at hp
        rcases List.mem_cons.1 hp with rfl | hrest
        · exact hq.symm
        · exact hinv p (List.mem_cons_of_mem (qk, qv) hrest)
      · rw [if_neg hq] at hp
        rcases List.mem_cons.1 hp with rfl | hrest
        · exact hinv (qk, qv) (List.mem_cons_self (qk, qv) rest)
        · exact ih (fun r hr => hinv r (List.mem_cons_of_mem (qk, qv) hr))
            p hrest
  have hputs : ∀ (m : List (String × Chunk)) (c : Chunk),
      (∀ p ∈ m, (p.2 : Chunk).id = p.1) → ∀ p ∈ dictPutSparse m c,
        (p.2 : Chunk).id = p.1 := by
    intro m c
    induction m with
    | nil =>
      intro _ p hp
      rcases List.mem_singleton.1 hp with rfl
      rfl
    | cons q rest ih =>
      obtain ⟨qk, qv⟩ := q
      intro hinv p hp
      rw [show dictPutSparse ((qk, qv) :: rest) c =
        (if qk = c.id then (qk, { qv with fts_score := c.fts_score }) :: rest
         else (qk, qv) :: dictPutSparse rest c) from rfl] at hp
      by_cases hq : qk = c.id
      · rw [if_pos hq] at hp
        rcases List.mem_cons.1 hp with rfl | hrest
        · exact hinv (qk, qv) (List.mem_cons_self (qk, qv) rest)
        · exact hinv p (List.mem_cons_of_mem (qk, qv) hrest)
      · rw [if_neg hq] at hp
        rcases List.mem_cons.1 hp with rfl | hrest
        · exact hinv (qk, qv) (List.mem_cons_self (qk, qv) rest)
        · exact ih (fun r hr => hinv r (List.mem_cons_of_mem (qk, qv) hr))
            p hrest
  have hfold1 : ∀ (l : List Chunk) (m : List (String × Chunk)),
      (∀ p ∈ m, (p.2 : Chunk).id = p.1) →
      ∀ p ∈ l.foldl dictPut m, (p.2 : Chunk).id = p.1 := by
    intro l
    induction l with
    | nil => intro m hm; exact hm
    | cons c tl ih =>
      intro m hm
      rw [List.foldl_cons]
      exact ih (dictPut m c) (hput m c hm)
  have hfold2 : ∀ (l : List Chunk) (m : List (String × Chunk)),
      (∀ p ∈ m, (p.2 : Chunk).id = p.1) →
      ∀ p ∈ l.foldl dictPutSparse m, (p.2 : Chunk).id = p.1 := by
    intro l
    induction l with
    | nil => intro m hm; exact hm
    | cons c tl ih =>
      intro m hm
      rw [List.foldl_cons]
      exact ih (dictPutSparse m c) (hputs m c hm)
  unfold rrfById
  exact hfold2 sparse _ (hfold1 dense []
    (fun p hp => absurd hp (List.not_mem_nil p)))

theorem rrfById_find_id (dense sparse : List Chunk) (k : String) (c : Chunk)
    (h : dictFind? (rrfById dense sparse) k = some c) : c.id = k := by
  unfold dictFind? at h
  rcases hf : (rrfById dense sparse).find? (fun p => p.1 == k) with _ | p
  · rw [hf] at h
    exact Option.noConfusion h
  · rw [hf] at h
    have hp2 : p.2 = c := by simpa using h
    have hpk :=
      @List.find?_some _ (fun q : String × Chunk => q.1 == k) p _ hf
    have hmem : p ∈ rrfById dense sparse := List.mem_of_find?_eq_some hf
    have hid : p.2.id = p.1 := rrfById_inv dense sparse p hmem
    rw [← hp2, hid]
    simpa using hpk

instance : IsTrans (String × Frac) scoreGE :=
  ⟨fun a b c hab hbc => by
    unfold scoreGE at hab hbc ⊢
    exact Frac.ble_trans hbc hab⟩

instance : IsTotal (String × Frac) scoreGE :=
  ⟨fun a b => by
    unfold scoreGE
    exact Frac.ble_total b.2 a.2⟩

/-- Claim C6: on duplicate-free candidate lists, every chunk `_rrf_fuse`
returns carries fused score Σ 1/(60 + rank + 1) over the input lists
containing it (0-based ranks); a chunk at rank r in the dense list that
also appears in the lexical list outscores a chunk at rank r in a dense
list that appears in no lexical list; the output is sorted by fused score
descending and is no longer than `limit`. -/
theorem rrf_fuse_spec (dense sparse : List Chunk) (limit : Nat)
    (hd : (chunkIds dense).Nodup) (hs : (chunkIds sparse).Nodup) :
    (∀ c ∈ rrf_fuse dense sparse limit,
      c.rrf_score.toRat = rrfSpecScore dense sparse c.id) ∧
    (rrf_fuse dense sparse limit).Pairwise
      (fun a b => b.rrf_score.toRat ≤ a.rrf_score.toRat) ∧
    (rrf_fuse dense sparse limit).length ≤ limit ∧
    (∀ (dense2 sparse2 : List Chunk) (id1 id2 : String) (r : Nat),
      (chunkIds dense).findIdx? (fun x => x == id1) = some r →
      id1 ∈ chunkIds sparse →
      (chunkIds dense2).findIdx? (fun x => x == id2) = some r →
      id2 ∉ chunkIds sparse2 →
      rrfSpecScore dense2 sparse2 id2 < rrfSpecScore dense sparse id1) := by
  refine ⟨?_, ?_, rrf_fuse_length_le dense sparse limit, ?_⟩
  · intro c hc
    unfold rrf_fuse at hc
    rcases List.mem_map.1 hc with ⟨p, hp, hpc⟩
    have hpmem : p ∈ rrfScores dense sparse := by
      have h1 : p ∈ (rrfScores dense sparse).insertionSort scoreGE :=
        List.mem_of_mem_take hp
      exact (List.perm_insertionSort scoreGE _).mem_iff.1 h1
    have hfind : dictFind? (rrfScores dense sparse) p.1 = some p.2 :=
      dictFind?_eq_of_mem_nodupKeys _ p hpmem
        (nodup_dictKeys_rrfScores dense sparse)
    have hscores := dictFind?_rrfScores dense sparse p.1 hd hs
    rw [hfind] at hscores
    have hcid : c.id = p.1 := by
      rw [← hpc]
      rcases hby : dictFind? (rrfById dense sparse) p.1 with _ | w
      · simp [hby]
      · simp [hby, rrfById_find_id dense sparse p.1 w hby]
    have hcscore : c.rrf_score = p.2 := by
      rw [← hpc]
    rw [hcscore, hcid]
    by_cases hmem2 : p.1 ∈ chunkIds dense ∨ p.1 ∈ chunkIds sparse
    · rw [if_pos hmem2] at hscores
      exact Option.some.inj (by simpa using hscores)
    · rw [if_neg hmem2] at hscores
      exact absurd hscores (by simp)
  · unfold rrf_fuse
    rw [List.pairwise_map]
    have hsorted :
        ((rrfScores dense sparse).insertionSort scoreGE).Pairwise scoreGE :=
      List.sorted_insertionSort scoreGE _
    have htake := List.Pairwise.sublist
      (List.take_sublist limit ((rrfScores dense sparse).insertionSort
        scoreGE)) hsorted
    refine htake.imp ?_
    intro a b hab
    have hle := (Frac.ble_iff b.2 a.2).1 hab
    simpa using hle
  · intro dense2 sparse2 id1 id2 r hfd1 hmem1 hfd2 hnmem2
    unfold rrfSpecScore
    rw [rankTerm_of_findIdx? _ id1 r hfd1, rankTerm_of_findIdx? _ id2 r hfd2,
        rankTerm_of_not_mem _ id2 hnmem2]
    have hpos := rankTerm_pos_of_mem (chunkIds sparse) id1 hmem1
    linarith

def chunkC6a : Chunk := { id := "a", content := "A" }

def chunkC6b : Chunk := { id := "b", content := "B" }

/-- Witness for `rrf_fuse_spec` on the concrete candidate lists
`dense = [a, b]`, `sparse = [a]`, `limit = 10`. -/
theorem rrf_fuse_spec_witness :
    (∀ c ∈ rrf_fuse [chunkC6a, chunkC6b] [chunkC6a] 10,
      c.rrf_score.toRat = rrfSpecScore [chunkC6a, chunkC6b] [chunkC6a] c.id) ∧
    (rrf_fuse [chunkC6a, chunkC6b] [chunkC6a] 10).Pairwise
      (fun a b => b.rrf_score.toRat ≤ a.rrf_score.toRat) ∧
    (rrf_fuse [chunkC6a, chunkC6b] [chunkC6a] 10).length ≤ 10 ∧
    (∀ (dense2 sparse2 : List Chunk) (id1 id2 : String) (r : Nat),
      (chunkIds [chunkC6a, chunkC6b]).findIdx? (fun x => x == id1) = some r →
      id1 ∈ chunkIds [chunkC6a] →
      (chunkIds dense2).findIdx? (fun x => x == id2) = some r →
      id2 ∉ chunkIds sparse2 →
      rrfSpecScore dense2 sparse2 id2 <
        rrfSpecScore [chunkC6a, chunkC6b] [chunkC6a] id1) :=
  rrf_fuse_spec [chunkC6a, chunkC6b] [chunkC6a] 10 (by decide) (by decide)

/-! ## Sync engine lemmas -/

theorem getLast?_mem {α : Type} (l : List α) (a : α)
    (h : l.getLast? = some a) : a ∈ l := by
  induction l with
  | nil => exact Option.noConfusion h
  | cons x t ih =>
    cases t with
    | nil =>
      have : x = a := by simpa using h
      subst this
      exact List.mem_cons_self x []
    | cons y s =>
      rw [List.getLast?_cons_cons] at h
      exact List.mem_cons_of_mem x (ih h)

theorem getLast?_cons_eq {α : Type} (a : α) (l : List α) :
    (a :: l).getLast? =
      match l.getLast? with
      | some x => some x
      | none => some a := by
  cases l with
  | nil => rfl
  | cons b t =>
    rw [List.getLast?_cons_cons]
    rcases h : (b :: t).getLast? with _ | x
    · exact absurd (List.getLast?_eq_none_iff.1 h) (by simp)
    · rfl

/-- The per-file error message `sync_drive` would record for a file, or
`none` when processing it raises nothing (it succeeds or is one of the
silent empty-text / empty-chunks skips). -/
def failMsg (cfg : SyncCfg) (env : SyncEnv) (f : DriveFileRecord) :
    Option String :=
  match env.fetchParse f.id with
  | Except.error e => some (f.name ++ ": " ++ e)
  | Except.ok text =>
    if (stripChars text).isEmpty then none
    else
      let chunks := chunk_text text cfg.kb_chunk_size cfg.kb_chunk_overlap
      if chunks.isEmpty then none
      else
        match embedAll env chunks with
        | Except.error e => some (f.name ++ ": " ++ e)
        | Except.ok _ =>
          if env.insertOk f.id then none
          else some (f.name ++ ": insert failed")

/-- Does processing the file reach the success branch (download, parse,
chunking, embedding and the insert transaction all go through)? -/
def processEffect (cfg : SyncCfg) (env : SyncEnv) (f : DriveFileRecord) :
    Bool :=
  match env.fetchParse f.id with
  | Except.error _ => false
  | Except.ok text =>
    if (stripChars text).isEmpty then false
    else
      let chunks := chunk_text text cfg.kb_chunk_size cfg.kb_chunk_overlap
      if chunks.isEmpty then false
      else
        match embedAll env chunks with
        | Except.error _ => false
        | Except.ok _ => env.insertOk f.id

/-- A file failing the change-detection test is counted as skipped and
nothing else happens. -/
theorem processFile_skip (cfg : SyncCfg) (env : SyncEnv) (now : Nat)
    (srcRows : List SourceRow) (force : Bool) (acc : SyncAcc)
    (f : DriveFileRecord)
    (h : (force || needs_sync f (lookupSource srcRows f.id)) = false) :
    processFile cfg env now srcRows force acc f =
      { acc with files_skipped := acc.files_skipped + 1 } := by
  rcases Bool.or_eq_false_iff.1 h with ⟨hf, hn⟩
  unfold processFile
  dsimp only
  rw [hf, hn]
  rfl

/-- A processed file whose pipeline raises appends exactly its error
message and touches nothing else — in particular the store (including
the rolled-back insert transaction) is exactly as before. -/
theorem processFile_fail (cfg : SyncCfg) (env : SyncEnv) (now : Nat)
    (srcRows : List SourceRow) (force : Bool) (acc : SyncAcc)
    (f : DriveFileRecord) (m : String)
    (hproc : (force || needs_sync f (lookupSource srcRows f.id)) = true)
    (hfail : failMsg cfg env f = some m) :
    processFile cfg env now srcRows force acc f =
      { acc with errors := acc.errors ++ [m] } := by
  have hcond : (!force && !needs_sync f (lookupSource srcRows f.id)) = false := by
    rcases Bool.or_eq_true_iff.1 hproc with hf | hn
    · rw [hf]
      rfl
    · rw [hn]
      simp
  unfold processFile
  dsimp only
  rw [hcond]
  simp only [Bool.false_eq_true, if_false]
  unfold failMsg at hfail
  rcases hfp : env.fetchParse f.id with e | text
  · rw [hfp] at hfail
    dsimp only
    have hm : m = f.name ++ ": " ++ e := (Option.some.inj hfail).symm
    rw [hm]
  · rw [hfp] at hfail
    dsimp only at hfail ⊢
    by_cases hstrip : (stripChars text).isEmpty
    · rw [if_pos hstrip] at hfail
      exact Option.noConfusion hfail
    · rw [if_neg hstrip] at hfail
      rw [if_neg hstrip]
      by_cases hch :
          (chunk_text text cfg.kb_chunk_size cfg.kb_chunk_overlap).isEmpty
      · rw [if_pos hch] at hfail
        exact Option.noConfusion hfail
      · rw [if_neg hch] at hfail
        rw [if_neg hch]
        rcases hemb : embedAll env
            (chunk_text text cfg.kb_chunk_size cfg.kb_chunk_overlap)
          with e | embs
        · rw [hemb] at hfail
          dsimp only
          have hm : m = f.name ++ ": " ++ e := (Option.some.inj hfail).symm
          rw [hm]
        · rw [hemb] at hfail
          dsimp only
          by_cases hio : env.insertOk f.id
          · rw [if_pos hio] at hfail
            exact Option.noConfusion hfail
          · rw [Bool.not_eq_true] at hio
            rw [hio] at hfail
            simp only [Bool.false_eq_true, if_false] at hfail
            rw [hio]
            simp only [Bool.false_eq_true, if_false]
            have hm : m = f.name ++ ": insert failed" :=
              (Option.some.inj hfail).symm
            rw [hm]

/-- Inert processing: when the pipeline never reaches the success branch,
the store and the synced/inserted counters are unchanged. -/
theorem processFile_inert (cfg : SyncCfg) (env : SyncEnv) (now : Nat)
    (srcRows : List SourceRow) (force : Bool) (acc : SyncAcc)
    (f : DriveFileRecord) (h : processEffect cfg env f = false) :
    (processFile cfg env now srcRows force acc f).store = acc.store ∧
    (processFile cfg env now srcRows force acc f).files_synced =
      acc.files_synced ∧
    (processFile cfg env now srcRows force acc f).chunks_inserted =
      acc.chunks_inserted := by
  unfold processFile
  dsimp only
  by_cases hc : (!force && !needs_sync f (lookupSource srcRows f.id)) = true
  · rw [hc]
    exact ⟨rfl, rfl, rfl⟩
  · rw [Bool.not_eq_true] at hc
    rw [hc]
    simp only [Bool.false_eq_true, if_false]
    unfold processEffect at h
    rcases hfp : env.fetchParse f.id with e | text
    · exact ⟨rfl, rfl, rfl⟩
    · rw [hfp] at h
      dsimp only at h ⊢
      by_cases hstrip : (stripChars text).isEmpty
      · rw [if_pos hstrip]
        exact ⟨rfl, rfl, rfl⟩
      · rw [if_neg hstrip] at h
        rw [if_neg hstrip]
        by_cases hch :
            (chunk_text text cfg.kb_chunk_size cfg.kb_chunk_overlap).isEmpty
        · rw [if_pos hch]
          exact ⟨rfl, rfl, rfl⟩
        · rw [if_neg hch] at h
          rw [if_neg hch]
          rcases hemb : embedAll env
              (chunk_text text cfg.kb_chunk_size cfg.kb_chunk_overlap)
            with e | embs
          · exact ⟨rfl, rfl, rfl⟩
          · rw [hemb] at h
            dsimp only at h
            rw [h]
            simp

theorem getLast?_map {α β : Type} (g : α → β) (l : List α) :
    (l.map g).getLast? = l.getLast?.map g := by
  induction l with
  | nil => rfl
  | cons x t ih =>
    rw [List.map_cons, getLast?_cons_eq, getLast?_cons_eq, ih]
    rcases t.getLast? with _ | y <;> rfl

theorem filter_key_map (l : List SourceRow) (g : SourceRow → SourceRow)
    (fid : String) (hk : ∀ r, (g r).file_id = r.file_id) :
    (l.map g).filter (fun r => r.file_id == fid) =
      (l.filter (fun r => r.file_id == fid)).map g := by
  induction l with
  | nil => rfl
  | cons r t ih =>
    rw [List.map_cons, List.filter_cons, List.filter_cons]
    by_cases hr : (r.file_id == fid) = true
    · have hgr : ((g r).file_id == fid) = true := by
        rw [hk r]
        exact hr
      rw [hr, hgr]
      simp only [if_true, List.map_cons]
      rw [ih]
    · rw [Bool.not_eq_true] at hr
      have hgr : ((g r).file_id == fid) = false := by
        rw [hk r]
        exact hr
      rw [hr, hgr]
      simp only [Bool.false_eq_true, if_false]
      exact ih

theorem filter_key_map_id (l : List SourceRow) (g : SourceRow → SourceRow)
    (fid : String) (hk : ∀ r, (g r).file_id = r.file_id)
    (hid : ∀ r, r.file_id = fid → g r = r) :
    (l.map g).filter (fun r => r.file_id == fid) =
      l.filter (fun r => r.file_id == fid) := by
  rw [filter_key_map l g fid hk]
  have : ∀ r ∈ l.filter (fun r => r.file_id == fid), g r = r := by
    intro r hr
    have := (List.mem_filter.1 hr).2
    exact hid r (by simpa using this)
  calc (l.filter (fun r => r.file_id == fid)).map g
      = (l.filter (fun r => r.file_id == fid)).map id :=
        List.map_congr_left this
    _ = _ := List.map_id _

/-- `markDeleted` never touches the chunks table. -/
theorem markDeleted_chunks (st : Store) (fid : String) (now : Nat) :
    (markDeleted st fid now).chunks = st.chunks := rfl

/-- `deleteChunks` never touches the registry. -/
theorem deleteChunks_sources (st : Store) (fid : String) :
    (deleteChunks st fid).sources = st.sources := rfl

theorem markDeleted_sources_other (st : Store) (fid fid' : String)
    (now : Nat) (h : fid ≠ fid') :
    (markDeleted st fid' now).sources.filter (fun r => r.file_id == fid) =
      st.sources.filter (fun r => r.file_id == fid) := by
  unfold markDeleted
  refine filter_key_map_id _ _ _ ?_ ?_
  · intro r
    by_cases hr : (r.file_id == fid') = true
    · rw [if_pos hr]
    · rw [Bool.not_eq_true] at hr
      rw [hr]
      simp
  · intro r hr
    have : (r.file_id == fid') = false := by
      rw [hr]
      simpa using h
    rw [this]
    simp

theorem deleteChunks_chunks_other (st : Store) (fid fid' : String)
    (h : fid ≠ fid') :
    (deleteChunks st fid').chunks.filter (fun c => c.drive_file_id == fid) =
      st.chunks.filter (fun c => c.drive_file_id == fid) := by
  unfold deleteChunks
  rw [List.filter_filter]
  apply List.filter_congr
  intro c _
  by_cases hc : (c.drive_file_id == fid) = true
  · have : c.drive_file_id = fid := by simpa using hc
    have hne : (c.drive_file_id != fid') = true := by
      rw [this]
      simpa using h
    rw [hc, hne]
    rfl
  · rw [Bool.not_eq_true] at hc
    rw [hc]
    simp

theorem deleteChunks_chunks_self (st : Store) (fid : String) :
    (deleteChunks st fid).chunks.filter (fun c => c.drive_file_id == fid) =
      [] := by
  unfold deleteChunks
  rw [List.filter_filter, List.filter_eq_nil_iff]
  intro c _
  by_cases hc : (c.drive_file_id == fid) = true
  · have : (c.drive_file_id != fid) = false := by
      simpa using (by simpa using hc : c.drive_file_id = fid)
    rw [hc, this]
    simp
  · rw [Bool.not_eq_true] at hc
    rw [hc]
    simp

theorem markDeleted_sources_self (st : Store) (fid : String) (now : Nat) :
    ∀ r ∈ (markDeleted st fid now).sources, r.file_id = fid →
      r.status = "deleted" ∧ r.last_synced = some now := by
  unfold markDeleted
  intro r hr hk
  rcases List.mem_map.1 hr with ⟨q, _, hq⟩
  by_cases hqk : (q.file_id == fid) = true
  · rw [if_pos hqk] at hq
    rw [← hq]
    exact ⟨rfl, rfl⟩
  · rw [Bool.not_eq_true] at hqk
    rw [hqk] at hq
    simp only [Bool.false_eq_true, if_false] at hq
    rw [← hq] at hk
    rw [hk] at hqk
    simp at hqk

/-- `_upsert_kb_source` never touches the chunks table. -/
theorem upsert_kb_source_chunks (st : Store) (fid n c : String) (mt cnt now : Nat) :
    (upsert_kb_source st fid n c mt cnt now).chunks = st.chunks := by
  unfold upsert_kb_source
  split <;> rfl

/-- `_upsert_file_chunks` never touches the registry. -/
theorem upsert_file_chunks_sources (st : Store) (fid n c : String)
    (chunks : List (List Char)) (embs : List (List Frac)) :
    (upsert_file_chunks st fid n c chunks embs).1.sources = st.sources := by
  unfold upsert_file_chunks
  split <;> rfl

theorem upsert_kb_source_sources_other (st : Store) (fid fid' n c : String)
    (mt cnt now : Nat) (h : fid ≠ fid') :
    (upsert_kb_source st fid' n c mt cnt now).sources.filter
        (fun r => r.file_id == fid) =
      st.sources.filter (fun r => r.file_id == fid) := by
  unfold upsert_kb_source
  by_cases hany : st.sources.any (fun r => r.file_id == fid')
  · rw [if_pos hany]
    refine filter_key_map_id _ _ _ ?_ ?_
    · intro r
      by_cases hr : (r.file_id == fid') = true
      · rw [if_pos hr]
      · rw [Bool.not_eq_true] at hr
        rw [hr]
        simp
    · intro r hr
      have : (r.file_id == fid') = false := by
        rw [hr]
        simpa using h
      rw [this]
      simp
  · rw [if_neg hany]
    dsimp only
    rw [List.filter_append]
    have hone : (List.filter (fun r => r.file_id == fid)
        [({ file_id := fid', filename := n, category := c,
            modified_time := mt, last_synced := some now, chunk_count := cnt,
            status := "active" } : SourceRow)]) = [] := by
      simp only [List.filter_cons, List.filter_nil]
      have hne : ((fid' : String) == fid) = false := by
        simpa using fun he => h he.symm
      simp [hne]
    rw [hone, List.append_nil]

theorem upsert_file_chunks_chunks_other (st : Store) (fid fid' n c : String)
    (chunks : List (List Char)) (embs : List (List Frac)) (h : fid ≠ fid') :
    (upsert_file_chunks st fid' n c chunks embs).1.chunks.filter
        (fun q => q.drive_file_id == fid) =
      st.chunks.filter (fun q => q.drive_file_id == fid) := by
  unfold upsert_file_chunks
  by_cases hch : chunks.isEmpty
  · rw [if_pos hch]
    exact deleteChunks_chunks_other st fid fid' h
  · rw [if_neg hch]
    dsimp only
    rw [List.filter_append]
    have hnew : (((chunks.zip embs).enum.map (fun p =>
        ({ id := (deleteChunks st fid').nextId + p.1, content := p.2.1,
           embedding := p.2.2, source_category := c, drive_file_id := fid',
           filename := n, chunk_index := p.1 } : ChunkRow))).filter
        (fun q => q.drive_file_id == fid)) = [] := by
      rw [List.filter_eq_nil_iff]
      intro q hq
      rcases List.mem_map.1 hq with ⟨p, _, hp⟩
      rw [← hp]
      simpa using fun he => h he.symm
    rw [hnew, List.append_nil]
    exact deleteChunks_chunks_other st fid fid' h

/-- The registry rows keyed by an id absent from the vanished list are
untouched by the deletion phase. -/
theorem remove_deleted_files_sources_other (fids : List String) (st : Store)
    (now : Nat) (fid : String) (h : fid ∉ fids) :
    (remove_deleted_files st fids now).sources.filter
        (fun r => r.file_id == fid) =
      st.sources.filter (fun r => r.file_id == fid) := by
  induction fids generalizing st with
  | nil => rfl
  | cons g t ih =>
    unfold remove_deleted_files
    rw [List.foldl_cons]
    have hg : fid ≠ g := fun he => h (he ▸ List.mem_cons_self g t)
    have ht : fid ∉ t := fun hm => h (List.mem_cons_of_mem g hm)
    rw [show List.foldl (fun s fid => markDeleted (deleteChunks s fid) fid now)
        (markDeleted (deleteChunks st g) g now) t =
      remove_deleted_files (markDeleted (deleteChunks st g) g now) t now
      from rfl]
    rw [ih (markDeleted (deleteChunks st g) g now) ht]
    rw [markDeleted_sources_other _ fid g now hg, deleteChunks_sources]

theorem remove_deleted_files_chunks_other (fids : List String) (st : Store)
    (now : Nat) (fid : String) (h : fid ∉ fids) :
    (remove_deleted_files st fids now).chunks.filter
        (fun c => c.drive_file_id == fid) =
      st.chunks.filter (fun c => c.drive_file_id == fid) := by
  induction fids generalizing st with
  | nil => rfl
  | cons g t ih =>
    unfold remove_deleted_files
    rw [List.foldl_cons]
    have hg : fid ≠ g := fun he => h (he ▸ List.mem_cons_self g t)
    have ht : fid ∉ t := fun hm => h (List.mem_cons_of_mem g hm)
    rw [show List.foldl (fun s fid => markDeleted (deleteChunks s fid) fid now)
        (markDeleted (deleteChunks st g) g now) t =
      remove_deleted_files (markDeleted (deleteChunks st g) g now) t now
      from rfl]
    rw [ih (markDeleted (deleteChunks st g) g now) ht, markDeleted_chunks]
    exact deleteChunks_chunks_other st fid g hg

/-- After the deletion phase, a vanished file has no chunks left. -/
theorem remove_deleted_files_chunks_self (fids : List String) (st : Store)
    (now : Nat) (fid : String) (h : fid ∈ fids) :
    (remove_deleted_files st fids now).chunks.filter
        (fun c => c.drive_file_id == fid) = [] := by
  induction fids generalizing st with
  | nil => exact absurd h (List.not_mem_nil fid)
  | cons g t ih =>
    unfold remove_deleted_files
    rw [List.foldl_cons]
    rw [show List.foldl (fun s fid => markDeleted (deleteChunks s fid) fid now)
        (markDeleted (deleteChunks st g) g now) t =
      remove_deleted_files (markDeleted (deleteChunks st g) g now) t now
      from rfl]
    by_cases hm : fid ∈ t
    · exact ih (markDeleted (deleteChunks st g) g now) hm
    · have hfg : fid = g := by
        rcases List.mem_cons.1 h with he | hmem
        · exact he
        · exact absurd hmem hm
      subst hfg
      rw [remove_deleted_files_chunks_other t _ now fid hm, markDeleted_chunks]
      exact deleteChunks_chunks_self st fid

/-- After the deletion phase, every registry row of a vanished file is
flipped to `deleted` with `last_synced = now`. -/
theorem remove_deleted_files_sources_self (fids : List String) (st : Store)
    (now : Nat) (fid : String) (h : fid ∈ fids) :
    ∀ r ∈ (remove_deleted_files st fids now).sources, r.file_id = fid →
      r.status = "deleted" ∧ r.last_synced = some now := by
  induction fids generalizing st with
  | nil => exact absurd h (List.not_mem_nil fid)
  | cons g t ih =>
    unfold remove_deleted_files
    rw [List.foldl_cons]
    rw [show List.foldl (fun s fid => markDeleted (deleteChunks s fid) fid now)
        (markDeleted (deleteChunks st g) g now) t =
      remove_deleted_files (markDeleted (deleteChunks st g) g now) t now
      from rfl]
    by_cases hm : fid ∈ t
    · exact ih (markDeleted (deleteChunks st g) g now) hm
    · have hfg : fid = g := by
        rcases List.mem_cons.1 h with he | hmem
        · exact he
        · exact absurd hmem hm
      subst hfg
      intro r hr hk
      have hpres := remove_deleted_files_sources_other t
        (markDeleted (deleteChunks st fid) fid now) now fid hm
      have hrmem : r ∈ (markDeleted (deleteChunks st fid) fid now).sources := by
        have h1 : r ∈ (remove_deleted_files
            (markDeleted (deleteChunks st fid) fid now) t now).sources.filter
            (fun q => q.file_id == fid) := by
          rw [List.mem_filter]
          exact ⟨hr, by simpa using hk⟩
        rw [hpres] at h1
        exact (List.mem_filter.1 h1).1
      exact markDeleted_sources_self (deleteChunks st fid) fid now r hrmem hk

/-- Wherever `processFile` lands, the store is either untouched or
replaced by the per-file chunk transaction followed by the registry
upsert, both keyed by the file's own id. -/
theorem processFile_store_cases (cfg : SyncCfg) (env : SyncEnv) (now : Nat)
    (srcRows : List SourceRow) (force : Bool) (acc : SyncAcc)
    (f : DriveFileRecord) :
    (processFile cfg env now srcRows force acc f).store = acc.store ∨
    ∃ chunks embs,
      (processFile cfg env now srcRows force acc f).store =
        upsert_kb_source
          (upsert_file_chunks acc.store f.id f.name f.category chunks embs).1
          f.id f.name f.category f.modified_time
          (upsert_file_chunks acc.store f.id f.name f.category chunks embs).2
          now := by
  unfold processFile
  dsimp only
  by_cases hc : (!force && !needs_sync f (lookupSource srcRows f.id)) = true
  · rw [hc]
    exact Or.inl rfl
  · rw [Bool.not_eq_true] at hc
    rw [hc]
    simp only [Bool.false_eq_true, if_false]
    rcases hfp : env.fetchParse f.id with e | text
    · exact Or.inl rfl
    · dsimp only
      by_cases hstrip : (stripChars text).isEmpty
      · rw [if_pos hstrip]
        exact Or.inl rfl
      · rw [if_neg hstrip]
        by_cases hch :
            (chunk_text text cfg.kb_chunk_size cfg.kb_chunk_overlap).isEmpty
        · rw [if_pos hch]
          exact Or.inl rfl
        · rw [if_neg hch]
          rcases hemb : embedAll env
              (chunk_text text cfg.kb_chunk_size cfg.kb_chunk_overlap)
            with e | embs
          · exact Or.inl rfl
          · dsimp only
            by_cases hio : env.insertOk f.id
            · rw [if_pos hio]
              exact Or.inr ⟨chunk_text text cfg.kb_chunk_size
                cfg.kb_chunk_overlap, embs, rfl⟩
            · rw [Bool.not_eq_true] at hio
              rw [hio]
              exact Or.inl rfl

/-- Files other than `fid` never touch the registry rows or chunk rows
keyed by `fid` during the per-file loop. -/
theorem foldl_processFile_other (cfg : SyncCfg) (env : SyncEnv) (now : Nat)
    (srcRows : List SourceRow) (force : Bool) (files : List DriveFileRecord)
    (acc : SyncAcc) (fid : String)
    (h : fid ∉ files.map (fun f => f.id)) :
    (files.foldl (processFile cfg env now srcRows force) acc).store.sources.filter
        (fun r => r.file_id == fid) =
      acc.store.sources.filter (fun r => r.file_id == fid) ∧
    (files.foldl (processFile cfg env now srcRows force) acc).store.chunks.filter
        (fun c => c.drive_file_id == fid) =
      acc.store.chunks.filter (fun c => c.drive_file_id == fid) := by
  induction files generalizing acc with
  | nil => exact ⟨rfl, rfl⟩
  | cons g t ih =>
    have hg : fid ≠ g.id := by
      intro he
      exact h (by
        rw [List.map_cons]
        exact he ▸ List.mem_cons_self g.id _)
    have ht : fid ∉ t.map (fun f => f.id) := by
      intro hm
      exact h (by
        rw [List.map_cons]
        exact List.mem_cons_of_mem g.id hm)
    rw [List.foldl_cons]
    rcases ih (processFile cfg env now srcRows force acc g) ht with ⟨ihs, ihc⟩
    refine ⟨?_, ?_⟩
    · rw [ihs]
      rcases processFile_store_cases cfg env now srcRows force acc g with
        hsame | ⟨chunks, embs, hupd⟩
      · rw [hsame]
      · rw [hupd]
        rw [upsert_kb_source_sources_other _ fid g.id _ _ _ _ _ hg,
          upsert_file_chunks_sources]
    · rw [ihc]
      rcases processFile_store_cases cfg env now srcRows force acc g with
        hsame | ⟨chunks, embs, hupd⟩
      · rw [hsame]
      · rw [hupd]
        rw [show (upsert_kb_source
            (upsert_file_chunks acc.store g.id g.name g.category chunks embs).1
            g.id g.name g.category g.modified_time
            (upsert_file_chunks acc.store g.id g.name g.category chunks
              embs).2 now).chunks =
          (upsert_file_chunks acc.store g.id g.name g.category chunks
            embs).1.chunks from upsert_kb_source_chunks _ _ _ _ _ _ _]
        exact upsert_file_chunks_chunks_other acc.store fid g.id g.name
          g.category chunks embs hg

/-- After `_upsert_kb_source`, the registry's dict entry for the file is
an active row whose `last_synced` is the pass timestamp. -/
theorem lookupSource_upsert_kb_source (st : Store) (fid n c : String)
    (mt cnt now : Nat) :
    ∃ r, lookupSource (upsert_kb_source st fid n c mt cnt now).sources fid =
        some r ∧
      r.last_synced = some now ∧ r.status = "active" := by
  unfold upsert_kb_source lookupSource
  by_cases hany : st.sources.any (fun r => r.file_id == fid)
  · rw [if_pos hany]
    dsimp only
    rw [filter_key_map (g := fun r =>
      if r.file_id == fid then
        { r with filename := n, category := c, modified_time := mt,
                 last_synced := some now, chunk_count := cnt,
                 status := "active" }
      else r)]
    · rw [getLast?_map]
      rcases List.any_eq_true.1 hany with ⟨x, hx, hxk⟩
      have hximem : x ∈ st.sources.filter (fun r => r.file_id == fid) :=
        List.mem_filter.2 ⟨hx, hxk⟩
      rcases hlast : (st.sources.filter
          (fun r => r.file_id == fid)).getLast? with _ | y
      · rw [List.getLast?_eq_none_iff] at hlast
        rw [hlast] at hximem
        exact absurd hximem (List.not_mem_nil x)
      · have hyk : (y.file_id == fid) = true :=
          (List.mem_filter.1 (getLast?_mem _ y hlast)).2
        rw [hlast]
        refine ⟨_, rfl, ?_⟩
        dsimp only
        rw [hyk]
        exact ⟨rfl, rfl⟩
    · intro r
      by_cases hr : (r.file_id == fid) = true
      · rw [if_pos hr]
      · rw [Bool.not_eq_true] at hr
        rw [hr]
        simp
  · rw [if_neg hany]
    dsimp only
    rw [List.filter_append]
    have hone : (List.filter (fun r => r.file_id == fid)
        [({ file_id := fid, filename := n, category := c,
            modified_time := mt, last_synced := some now, chunk_count := cnt,
            status := "active" } : SourceRow)]) =
        [({ file_id := fid, filename := n, category := c,
            modified_time := mt, last_synced := some now, chunk_count := cnt,
            status := "active" } : SourceRow)] := by
      simp [List.filter_cons]
    rw [hone, List.getLast?_concat]
    exact ⟨_, rfl, rfl, rfl⟩

/-- A processed file whose pipeline succeeds ends the step with an
active registry row stamped `last_synced = now`, and one more synced
file. -/
theorem processFile_success (cfg : SyncCfg) (env : SyncEnv) (now : Nat)
    (srcRows : List SourceRow) (force : Bool) (acc : SyncAcc)
    (f : DriveFileRecord)
    (hproc : (force || needs_sync f (lookupSource srcRows f.id)) = true)
    (heff : processEffect cfg env f = true) :
    ∃ r, lookupSource
        (processFile cfg env now srcRows force acc f).store.sources f.id =
        some r ∧
      r.last_synced = some now ∧ r.status = "active" := by
  have hcond : (!force && !needs_sync f (lookupSource srcRows f.id)) = false := by
    rcases Bool.or_eq_true_iff.1 hproc with hf | hn
    · rw [hf]
      rfl
    · rw [hn]
      simp
  unfold processFile
  dsimp only
  rw [hcond]
  simp only [Bool.false_eq_true, if_false]
  unfold processEffect at heff
  rcases hfp : env.fetchParse f.id with e | text
  · rw [hfp] at heff
    exact Bool.noConfusion heff
  · rw [hfp] at heff
    dsimp only at heff ⊢
    by_cases hstrip : (stripChars text).isEmpty
    · rw [if_pos hstrip] at heff
      exact Bool.noConfusion heff
    · rw [if_neg hstrip] at heff
      rw [if_neg hstrip]
      by_cases hch :
          (chunk_text text cfg.kb_chunk_size cfg.kb_chunk_overlap).isEmpty
      · rw [if_pos hch] at heff
        exact Bool.noConfusion heff
      · rw [if_neg hch] at heff
        rw [if_neg hch]
        rcases hemb : embedAll env
            (chunk_text text cfg.kb_chunk_size cfg.kb_chunk_overlap)
          with e | embs
        · rw [hemb] at heff
          exact Bool.noConfusion heff
        · rw [hemb] at heff
          dsimp only at heff ⊢
          rw [heff]
          simp only [if_true]
          exact lookupSource_upsert_kb_source _ f.id f.name f.category
            f.modified_time _ now

theorem toDict_step_find?_self (acc : List SourceRow) (r : SourceRow) :
    ((if acc.any (fun q => q.file_id == r.file_id) then
        acc.map (fun q => if q.file_id == r.file_id then r else q)
      else acc ++ [r]).find? (fun q => q.file_id == r.file_id)) = some r := by
  by_cases hany : acc.any (fun q => q.file_id == r.file_id)
  · rw [if_pos hany]
    induction acc with
    | nil => simp at hany
    | cons q rest ih =>
      rw [List.map_cons, List.find?_cons]
      by_cases hq : (q.file_id == r.file_id) = true
      · rw [if_pos hq]
        simp
      · rw [Bool.not_eq_true] at hq
        rw [hq]
        simp only [Bool.false_eq_true, if_false]
        have hrest : rest.any (fun q => q.file_id == r.file_id) = true := by
          rcases List.any_eq_true.1 hany with ⟨x, hx, hxk⟩
          rcases List.mem_cons.1 hx with rfl | hxr
          · rw [hxk] at hq
            exact Bool.noConfusion hq
          · refine List.any_eq_true.2 ⟨x, hxr, ?_⟩
            exact hxk
        have hres := ih hrest
        simpa [hq] using hres
  · rw [if_neg hany]
    rw [List.find?_append]
    have hnone : acc.find? (fun q => q.file_id == r.file_id) = none := by
      rw [List.find?_eq_none]
      intro x hx hxk
      rw [Bool.not_eq_true] at hany
      have hx2 : acc.any (fun q => q.file_id == r.file_id) = true := by
        refine List.any_eq_true.2 ⟨x, hx, ?_⟩
        exact hxk
      rw [hany] at hx2
      exact Bool.noConfusion hx2
    rw [hnone]
    simp

theorem toDict_step_find?_other (acc : List SourceRow) (r : SourceRow)
    (fid : String) (h : fid ≠ r.file_id) :
    ((if acc.any (fun q => q.file_id == r.file_id) then
        acc.map (fun q => if q.file_id == r.file_id then r else q)
      else acc ++ [r]).find? (fun q => q.file_id == fid)) =
      acc.find? (fun q => q.file_id == fid) := by
  by_cases hany : acc.any (fun q => q.file_id == r.file_id)
  · rw [if_pos hany]
    clear hany
    induction acc with
    | nil => rfl
    | cons q rest ih =>
      rw [List.map_cons, List.find?_cons, List.find?_cons]
      by_cases hq : (q.file_id == r.file_id) = true
      · have hqfid : (q.file_id == fid) = false := by
          have hqr : q.file_id = r.file_id := by simpa using hq
          rw [hqr]
          simpa using fun he => h he.symm
        rw [if_pos hq]
        have hrfid : (r.file_id == fid) = false := by
          simpa using fun he => h he.symm
        simp only [hrfid, hqfid]
        exact ih
      · rw [Bool.not_eq_true] at hq
        rw [hq]
        simp only [Bool.false_eq_true, if_false]
        rcases hqfid : (q.file_id == fid) with _ | _
        · simpa [hqfid] using ih
        · simp [hqfid]
  · rw [if_neg hany]
    rw [List.find?_append]
    have hr : [r].find? (fun q => q.file_id == fid) = none := by
      simp only [List.find?_cons]
      have hrk : (r.file_id == fid) = false := by
        simpa using fun he => h he.symm
      rw [hrk]
      rfl
    rw [hr]
    rcases hacc : List.find? (fun q => q.file_id == fid) acc with _ | x <;>
      rw [hacc] <;> rfl

/-- A dict lookup on the registry dict agrees with `lookupSource`
(last keyed row wins). -/
theorem toDict_find? (rows : List SourceRow) (fid : String) :
    (toDict rows).find? (fun q => q.file_id == fid) =
      lookupSource rows fid := by
  unfold toDict lookupSource
  suffices haux : ∀ (l : List SourceRow) (acc : List SourceRow),
      ((l.foldl (fun acc r =>
        if acc.any (fun q => q.file_id == r.file_id) then
          acc.map (fun q => if q.file_id == r.file_id then r else q)
        else acc ++ [r]) acc).find? (fun q => q.file_id == fid)) =
      (match (l.filter (fun q => q.file_id == fid)).getLast? with
       | some q => some q
       | none => acc.find? (fun q => q.file_id == fid)) by
    rw [haux rows []]
    rcases hlast : (rows.filter (fun q => q.file_id == fid)).getLast?
      with _ | q <;> (rw [hlast]; try rfl)
  intro l
  induction l with
  | nil => intro acc; rfl
  | cons r tl ih =>
    intro acc
    rw [List.foldl_cons, ih, List.filter_cons]
    by_cases hk : (r.file_id == fid) = true
    · rw [hk]
      simp only [if_true]
      rw [getLast?_cons_eq]
      rcases hlast : (tl.filter (fun q => q.file_id == fid)).getLast?
        with _ | x
      · rw [hlast]
        have hfid : fid = r.file_id := by
          have h2 : r.file_id = fid := by simpa using hk
          exact h2.symm
        subst hfid
        exact toDict_step_find?_self acc r
      · rw [hlast]
    · rw [Bool.not_eq_true] at hk
      rw [hk]
      simp only [Bool.false_eq_true, if_false]
      rcases hlast : (tl.filter (fun q => q.file_id == fid)).getLast?
        with _ | x
      · rw [hlast]
        have hne : fid ≠ r.file_id := by
          intro he
          rw [he] at hk
          simp at hk
        exact toDict_step_find?_other acc r fid hne
      · rw [hlast]

theorem toDict_keys_nodup (rows : List SourceRow) :
    ((toDict rows).map (fun r => r.file_id)).Nodup := by
  unfold toDict
  suffices haux : ∀ (l : List SourceRow) (acc : List SourceRow),
      ((acc.map (fun r => r.file_id)).Nodup) →
      (((l.foldl (fun acc r =>
        if acc.any (fun q => q.file_id == r.file_id) then
          acc.map (fun q => if q.file_id == r.file_id then r else q)
        else acc ++ [r]) acc).map (fun r => r.file_id)).Nodup) by
    exact haux rows [] List.nodup_nil
  intro l
  induction l with
  | nil => intro acc h; exact h
  | cons r tl ih =>
    intro acc hacc
    rw [List.foldl_cons]
    refine ih _ ?_
    by_cases hany : acc.any (fun q => q.file_id == r.file_id)
    · rw [if_pos hany]
      have hmap : (acc.map (fun q => if q.file_id == r.file_id then r
          else q)).map (fun q => q.file_id) =
          acc.map (fun q => q.file_id) := by
        rw [List.map_map]
        apply List.map_congr_left
        intro q _
        simp only [Function.comp]
        split
        · rename_i hcond
          have hqr : q.file_id = r.file_id := by simpa using hcond
          exact hqr.symm
        · rfl
      rw [hmap]
      exact hacc
    · rw [if_neg hany]
      rw [List.map_append, List.nodup_append]
      refine ⟨hacc, by simp, ?_⟩
      intro x hx hxm
      have hxr : x = r.file_id := by simpa using hxm
      subst hxr
      rcases List.mem_map.1 hx with ⟨q, hq, hqk⟩
      rw [Bool.not_eq_true] at hany
      have hq2 : acc.any (fun q => q.file_id == r.file_id) = true := by
        refine List.any_eq_true.2 ⟨q, hq, ?_⟩
        simp [hqk]
      rw [hany] at hq2
      exact Bool.noConfusion hq2

theorem find?_eq_of_mem_nodupKeysRow (m : List SourceRow) (r : SourceRow)
    (hm : r ∈ m) (h : (m.map (fun q => q.file_id)).Nodup) :
    m.find? (fun q => q.file_id == r.file_id) = some r := by
  induction m with
  | nil => exact absurd hm (List.not_mem_nil r)
  | cons q rest ih =>
    have hn : (rest.map (fun q => q.file_id)).Nodup := by
      rw [List.map_cons, List.nodup_cons] at h
      exact h.2
    have hq : q.file_id ∉ rest.map (fun q => q.file_id) := by
      rw [List.map_cons, List.nodup_cons] at h
      exact h.1
    rcases List.mem_cons.1 hm with he | hrest
    · subst he
      rw [List.find?_cons]
      simp
    · have hne : (q.file_id == r.file_id) = false := by
        have hne2 : q.file_id ≠ r.file_id := by
          intro he
          apply hq
          rw [he]
          exact List.mem_map.2 ⟨r, hrest, rfl⟩
        simpa using hne2
      rw [List.find?_cons, hne]
      exact ih hrest hn

/-- Every dict entry is what `lookupSource` returns for its key. -/
theorem toDict_mem_lookup (rows : List SourceRow) (r : SourceRow)
    (h : r ∈ toDict rows) : lookupSource rows r.file_id = some r := by
  rw [← toDict_find? rows r.file_id]
  exact find?_eq_of_mem_nodupKeysRow (toDict rows) r h (toDict_keys_nodup rows)

theorem lookup_mem_toDict (rows : List SourceRow) (fid : String)
    (r : SourceRow) (h : lookupSource rows fid = some r) : r ∈ toDict rows := by
  rw [← toDict_find? rows fid] at h
  exact List.mem_of_find?_eq_some h

theorem lookupSource_key (rows : List SourceRow) (fid : String)
    (r : SourceRow) (h : lookupSource rows fid = some r) : r.file_id = fid := by
  unfold lookupSource at h
  have hmem := getLast?_mem _ r h
  have := (List.mem_filter.1 hmem).2
  simpa using this

/-- Membership in the vanished-file id list `deleted_ids` of
`sync_drive`, characterised through the registry dict. -/
theorem mem_deleted_ids (rows : List SourceRow) (ids : List String)
    (fid : String) :
    fid ∈ ((toDict rows).filter (fun r =>
        r.status == "active" && !(ids.contains r.file_id))).map
        (fun r => r.file_id) ↔
      ∃ r, lookupSource rows fid = some r ∧ r.status = "active" ∧
        ids.contains fid = false := by
  constructor
  · intro h
    rcases List.mem_map.1 h with ⟨r, hrf, hrk⟩
    rcases List.mem_filter.1 hrf with ⟨hrd, hcond⟩
    rcases Bool.and_eq_true_iff.1 hcond with ⟨hst, hnc⟩
    subst hrk
    refine ⟨r, toDict_mem_lookup rows r hrd, by simpa using hst, ?_⟩
    simpa using hnc
  · rintro ⟨r, hl, hst, hnc⟩
    have hk : r.file_id = fid := lookupSource_key rows fid r hl
    have hmem : r ∈ toDict rows := lookup_mem_toDict rows fid r hl
    refine List.mem_map.2 ⟨r, ?_, hk⟩
    refine List.mem_filter.2 ⟨hmem, ?_⟩
    rw [Bool.and_eq_true_iff]
    refine ⟨by simpa using hst, ?_⟩
    rw [hk, hnc]
    rfl

theorem processFile_skipped_delta (cfg : SyncCfg) (env : SyncEnv) (now : Nat)
    (srcRows : List SourceRow) (force : Bool) (acc : SyncAcc)
    (f : DriveFileRecord) :
    (processFile cfg env now srcRows force acc f).files_skipped =
      acc.files_skipped +
        (if (!force && !needs_sync f (lookupSource srcRows f.id)) = true
         then 1 else 0) := by
  unfold processFile
  dsimp only
  split
  · simp
  · split
    · simp
    · split
      · simp
      · split
        · simp
        · split
          · simp
          · split <;> simp

theorem processFile_errors_extend (cfg : SyncCfg) (env : SyncEnv) (now : Nat)
    (srcRows : List SourceRow) (force : Bool) (acc : SyncAcc)
    (f : DriveFileRecord) :
    ∃ tl, (processFile cfg env now srcRows force acc f).errors =
      acc.errors ++ tl := by
  unfold processFile
  dsimp only
  split
  · exact ⟨[], (List.append_nil _).symm⟩
  · split
    · exact ⟨_, rfl⟩
    · split
      · exact ⟨[], (List.append_nil _).symm⟩
      · split
        · exact ⟨[], (List.append_nil _).symm⟩
        · split
          · exact ⟨_, rfl⟩
          · split
            · exact ⟨[], (List.append_nil _).symm⟩
            · exact ⟨_, rfl⟩

theorem foldl_files_skipped (cfg : SyncCfg) (env : SyncEnv) (now : Nat)
    (srcRows : List SourceRow) (force : Bool) (files : List DriveFileRecord)
    (acc : SyncAcc) :
    (files.foldl (processFile cfg env now srcRows force) acc).files_skipped =
      acc.files_skipped + (files.filter (fun f =>
        (!force && !needs_sync f (lookupSource srcRows f.id)))).length := by
  induction files generalizing acc with
  | nil => simp
  | cons g t ih =>
    rw [List.foldl_cons, ih, List.filter_cons]
    rw [processFile_skipped_delta]
    by_cases hg : (!force && !needs_sync g (lookupSource srcRows g.id)) = true
    · simp only [hg, if_true, List.length_cons]
      omega
    · rw [Bool.not_eq_true] at hg
      simp only [hg, Bool.false_eq_true, if_false]
      omega

theorem foldl_errors_extend (cfg : SyncCfg) (env : SyncEnv) (now : Nat)
    (srcRows : List SourceRow) (force : Bool) (files : List DriveFileRecord)
    (acc : SyncAcc) :
    ∃ tl, (files.foldl (processFile cfg env now srcRows force) acc).errors =
      acc.errors ++ tl := by
  induction files generalizing acc with
  | nil => exact ⟨[], (List.append_nil _).symm⟩
  | cons g t ih =>
    rw [List.foldl_cons]
    rcases ih (processFile cfg env now srcRows force acc g) with ⟨tl2, h2⟩
    rcases processFile_errors_extend cfg env now srcRows force acc g with
      ⟨tl1, h1⟩
    exact ⟨tl1 ++ tl2, by rw [h2, h1, List.append_assoc]⟩

/-- A pass in which every file is either up to date or doomed to an
inert/failing pipeline syncs nothing and never touches the store. -/
theorem foldl_processFile_settled (cfg : SyncCfg) (env : SyncEnv) (now : Nat)
    (srcRows : List SourceRow) (files : List DriveFileRecord) (acc : SyncAcc)
    (hsettle : ∀ f ∈ files,
      (false || needs_sync f (lookupSource srcRows f.id)) = false ∨
      processEffect cfg env f = false) :
    (files.foldl (processFile cfg env now srcRows false) acc).store =
      acc.store ∧
    (files.foldl (processFile cfg env now srcRows false) acc).files_synced =
      acc.files_synced := by
  induction files generalizing acc with
  | nil => exact ⟨rfl, rfl⟩
  | cons g t ih =>
    rw [List.foldl_cons]
    have hrest := ih (processFile cfg env now srcRows false acc g)
      (fun f hf => hsettle f (List.mem_cons_of_mem g hf))
    rcases hsettle g (List.mem_cons_self g t) with hskip | hinert
    · rw [processFile_skip cfg env now srcRows false acc g hskip]
      exact ih { acc with files_skipped := acc.files_skipped + 1 }
        (fun f hf => hsettle f (List.mem_cons_of_mem g hf))
    · rcases processFile_inert cfg env now srcRows false acc g hinert with
        ⟨hs, hy, _⟩
      exact ⟨hrest.1.trans hs, hrest.2.trans hy⟩

theorem markDeleted_last_synced (st : Store) (fid : String) (now : Nat)
    (h : ∀ r ∈ st.sources, r.last_synced ≠ none) :
    ∀ r ∈ (markDeleted st fid now).sources, r.last_synced ≠ none := by
  unfold markDeleted
  intro r hr
  rcases List.mem_map.1 hr with ⟨q, hq, hqr⟩
  by_cases hk : (q.file_id == fid) = true
  · rw [if_pos hk] at hqr
    rw [← hqr]
    simp
  · rw [Bool.not_eq_true] at hk
    rw [hk] at hqr
    simp only [Bool.false_eq_true, if_false] at hqr
    rw [← hqr]
    exact h q hq

theorem remove_deleted_files_last_synced (fids : List String) (st : Store)
    (now : Nat) (h : ∀ r ∈ st.sources, r.last_synced ≠ none) :
    ∀ r ∈ (remove_deleted_files st fids now).sources,
      r.last_synced ≠ none := by
  induction fids generalizing st with
  | nil => exact h
  | cons g t ih =>
    unfold remove_deleted_files
    rw [List.foldl_cons]
    rw [show List.foldl (fun s fid => markDeleted (deleteChunks s fid) fid now)
        (markDeleted (deleteChunks st g) g now) t =
      remove_deleted_files (markDeleted (deleteChunks st g) g now) t now
      from rfl]
    exact ih (markDeleted (deleteChunks st g) g now)
      (markDeleted_last_synced (deleteChunks st g) g now h)

theorem upsert_kb_source_last_synced (st : Store) (fid n c : String)
    (mt cnt now : Nat) (h : ∀ r ∈ st.sources, r.last_synced ≠ none) :
    ∀ r ∈ (upsert_kb_source st fid n c mt cnt now).sources,
      r.last_synced ≠ none := by
  unfold upsert_kb_source
  by_cases hany : st.sources.any (fun r => r.file_id == fid)
  · rw [if_pos hany]
    intro r hr
    rcases List.mem_map.1 hr with ⟨q, hq, hqr⟩
    by_cases hk : (q.file_id == fid) = true
    · rw [if_pos hk] at hqr
      rw [← hqr]
      simp
    · rw [Bool.not_eq_true] at hk
      rw [hk] at hqr
      simp only [Bool.false_eq_true, if_false] at hqr
      rw [← hqr]
      exact h q hq
  · rw [if_neg hany]
    intro r hr
    rcases List.mem_append.1 hr with hl | hs
    · exact h r hl
    · rcases List.mem_singleton.1 hs with rfl
      simp

theorem foldl_processFile_last_synced (cfg : SyncCfg) (env : SyncEnv)
    (now : Nat) (srcRows : List SourceRow) (force : Bool)
    (files : List DriveFileRecord) (acc : SyncAcc)
    (h : ∀ r ∈ acc.store.sources, r.last_synced ≠ none) :
    ∀ r ∈ (files.foldl (processFile cfg env now srcRows force) acc).store.sources,
      r.last_synced ≠ none := by
  induction files generalizing acc with
  | nil => exact h
  | cons g t ih =>
    rw [List.foldl_cons]
    refine ih (processFile cfg env now srcRows force acc g) ?_
    rcases processFile_store_cases cfg env now srcRows force acc g with
      hsame | ⟨chunks, embs, hupd⟩
    · rw [hsame]
      exact h
    · rw [hupd]
      refine upsert_kb_source_last_synced _ g.id g.name g.category
        g.modified_time _ now ?_
      rw [upsert_file_chunks_sources]
      exact h


/-- Claim C8: a listed file is processed iff `force` is set, no registry
record exists, or the remote modification time is strictly newer than
the record's last-synced time (stated for records whose `last_synced` is
present — the final conjunct shows `sync_drive` preserves presence of
`last_synced`, which the code always writes); every other file is
counted in `files_skipped` by the exact skip step that touches nothing,
and `files_skipped` counts exactly the files failing the test against
the registry snapshot. -/
theorem sync_change_detection (cfg : SyncCfg) (env : SyncEnv)
    (files : List DriveFileRecord) (st : Store) (force : Bool) (now : Nat) :
    (∀ (f : DriveFileRecord) (src : Option SourceRow),
      (src = none ∨ ∃ r, src = some r ∧ r.last_synced ≠ none) →
      ((force || needs_sync f src) = true ↔
        (force = true ∨ src = none ∨
          ∃ r ls, src = some r ∧ r.last_synced = some ls ∧
            ls < f.modified_time))) ∧
    (∀ (acc : SyncAcc) (f : DriveFileRecord),
      (force || needs_sync f (lookupSource st.sources f.id)) = false →
      processFile cfg env now st.sources force acc f =
        { acc with files_skipped := acc.files_skipped + 1 }) ∧
    ((sync_drive cfg env files st force now).1.files_skipped =
      (files.filter (fun f =>
        (!force && !needs_sync f (lookupSource st.sources f.id)))).length) ∧
    ((∀ r ∈ st.sources, r.last_synced ≠ none) →
      ∀ r ∈ (sync_drive cfg env files st force now).2.sources,
        r.last_synced ≠ none) := by
  refine ⟨?_, ?_, ?_, ?_⟩
  · intro f src hsrc
    rcases src with _ | r
    · simp [needs_sync]
    · rcases hsrc with hnone | ⟨r', hr', hls⟩
      · exact Option.noConfusion hnone
      · have hrr : r = r' := by
          injection hr'
        subst hrr
        rcases hlsv : r.last_synced with _ | ls
        · exact absurd hlsv hls
        · simp only [needs_sync, hlsv, Bool.or_eq_true, decide_eq_true_eq]
          constructor
          · rintro (hf | hlt)
            · exact Or.inl hf
            · exact Or.inr (Or.inr ⟨r, ls, rfl, hlsv, hlt⟩)
          · rintro (hf | hnone | ⟨r2, ls2, hr2, hls2, hlt2⟩)
            · exact Or.inl hf
            · exact Option.noConfusion hnone
            · have h2 : r = r2 := by injection hr2
              subst h2
              rw [hlsv] at hls2
              have h3 : ls = ls2 := by injection hls2
              subst h3
              exact Or.inr hlt2
  · intro acc f h
    exact processFile_skip cfg env now st.sources force acc f h
  · unfold sync_drive
    dsimp only
    rw [foldl_files_skipped]
    simp
  · intro hbase
    unfold sync_drive
    dsimp only
    refine foldl_processFile_last_synced cfg env now st.sources force files _
      ?_
    exact remove_deleted_files_last_synced _ st now hbase

def envC8 : SyncEnv :=
  { fetchParse := fun _ => Except.ok ['d', 'o', 'c']
    embedBatch := fun b => Except.ok (b.map (fun _ => []))
    insertOk := fun _ => true }

def cfgC8 : SyncCfg := { kb_chunk_size := 1000, kb_chunk_overlap := 100 }

def srcC8 : SourceRow :=
  { file_id := "fa", filename := "a.txt", category := "general",
    modified_time := 5, last_synced := some 7, chunk_count := 1,
    status := "active" }

def stC8 : Store := { chunks := [], sources := [srcC8], nextId := 0 }

def fileC8 : DriveFileRecord :=
  { id := "fa", name := "a.txt", modified_time := 5, category := "general" }

/-- Witness for `sync_change_detection`: one unmodified file against its
registry row. -/
theorem sync_change_detection_witness :
    ((false || needs_sync fileC8 (some srcC8)) = true ↔
      (false = true ∨ (some srcC8 : Option SourceRow) = none ∨
        ∃ r ls, (some srcC8 : Option SourceRow) = some r ∧
          r.last_synced = some ls ∧ ls < fileC8.modified_time)) ∧
    ((∀ r ∈ stC8.sources, r.last_synced ≠ none) →
      ∀ r ∈ (sync_drive cfgC8 envC8 [fileC8] stC8 false 9).2.sources,
        r.last_synced ≠ none) :=
  ⟨(sync_change_detection cfgC8 envC8 [fileC8] stC8 false 9).1 fileC8
      (some srcC8) (Or.inr ⟨srcC8, rfl, by simp [srcC8]⟩),
    (sync_change_detection cfgC8 envC8 [fileC8] stC8 false 9).2.2.2⟩

theorem nodup_ids_split (pre post : List DriveFileRecord) (f : DriveFileRecord)
    (hnodup : ((pre ++ f :: post).map (fun g => g.id)).Nodup) :
    f.id ∉ pre.map (fun g => g.id) ∧ f.id ∉ post.map (fun g => g.id) := by
  rw [List.map_append, List.map_cons] at hnodup
  rcases List.nodup_append.1 hnodup with ⟨_, hc, hdisj⟩
  refine ⟨?_, (List.nodup_cons.1 hc).1⟩
  intro hmem
  exact hdisj hmem (List.mem_cons_self _ _)

/-- If the step at `f` never touches the store, the whole per-file loop
preserves the registry rows and chunk rows keyed by `f.id`, provided no
other listed file shares that id. -/
theorem foldl_processFile_keyed_inert (cfg : SyncCfg) (env : SyncEnv)
    (now : Nat) (srcRows : List SourceRow) (force : Bool)
    (pre post : List DriveFileRecord) (f : DriveFileRecord) (acc : SyncAcc)
    (hpre : f.id ∉ pre.map (fun g => g.id))
    (hpost : f.id ∉ post.map (fun g => g.id))
    (hstep : ∀ a : SyncAcc,
      (processFile cfg env now srcRows force a f).store = a.store) :
    ((pre ++ f :: post).foldl
        (processFile cfg env now srcRows force) acc).store.sources.filter
        (fun r => r.file_id == f.id) =
      acc.store.sources.filter (fun r => r.file_id == f.id) ∧
    ((pre ++ f :: post).foldl
        (processFile cfg env now srcRows force) acc).store.chunks.filter
        (fun c => c.drive_file_id == f.id) =
      acc.store.chunks.filter (fun c => c.drive_file_id == f.id) := by
  rw [List.foldl_append, List.foldl_cons]
  rcases foldl_processFile_other cfg env now srcRows force pre acc f.id hpre
    with ⟨hps, hpc⟩
  rcases foldl_processFile_other cfg env now srcRows force post
      (processFile cfg env now srcRows force
        (pre.foldl (processFile cfg env now srcRows force) acc) f)
      f.id hpost with ⟨hqs, hqc⟩
  constructor
  · rw [hqs, hstep, hps]
  · rw [hqc, hstep, hpc]

/-- Claim C10: change detection never looks at a registry row's status,
and the deletion phase stamps `last_synced = now` on the rows it flips
to `deleted`; hence a file reappearing in the listing whose registry row
carries a `last_synced` at or after its remote modification time is
skipped by a `force = false` pass — its chunk rows stay empty and its
registry row (still `deleted`) is returned unchanged by the lookup. -/
theorem deleted_file_reappearance (cfg : SyncCfg) (env : SyncEnv)
    (files : List DriveFileRecord) (st : Store) (f : DriveFileRecord)
    (r : SourceRow) (now ls : Nat)
    (hnodup : (files.map (fun g => g.id)).Nodup)
    (hf : f ∈ files)
    (hlook : lookupSource st.sources f.id = some r)
    (hstatus : r.status = "deleted")
    (hls : r.last_synced = some ls)
    (hmt : f.modified_time ≤ ls)
    (hchunks : st.chunks.filter (fun c => c.drive_file_id == f.id) = []) :
    (∀ (g : DriveFileRecord) (q : SourceRow) (s : String),
      needs_sync g (some { q with status := s }) = needs_sync g (some q)) ∧
    (∀ (fid2 : String) (now2 : Nat),
      ∀ q ∈ (markDeleted st fid2 now2).sources, q.file_id = fid2 →
        q.status = "deleted" ∧ q.last_synced = some now2) ∧
    ((sync_drive cfg env files st false now).2.chunks.filter
        (fun c => c.drive_file_id == f.id) = []) ∧
    (lookupSource (sync_drive cfg env files st false now).2.sources f.id =
        some r ∧ r.status = "deleted") ∧
    1 ≤ (sync_drive cfg env files st false now).1.files_skipped := by
  have hskipcond :
      (false || needs_sync f (lookupSource st.sources f.id)) = false := by
    rw [hlook]
    unfold needs_sync
    dsimp only
    rw [hls]
    simp only [Bool.false_or, decide_eq_false_iff_not]
    exact Nat.not_lt.2 hmt
  have hstep : ∀ a : SyncAcc,
      (processFile cfg env now st.sources false a f).store = a.store := by
    intro a
    rw [processFile_skip cfg env now st.sources false a f hskipcond]
  have hmemid : f.id ∈ files.map (fun g => g.id) :=
    List.mem_map.2 ⟨f, hf, rfl⟩
  have hcont : (files.map (fun g => g.id)).contains f.id = true := by
    simpa using hmemid
  have hnotdel : f.id ∉ ((toDict st.sources).filter (fun q =>
      q.status == "active" &&
        !((files.map (fun g => g.id)).contains q.file_id))).map
      (fun q => q.file_id) := by
    intro hmem
    rcases (mem_deleted_ids st.sources (files.map (fun g => g.id)) f.id).1
      hmem with ⟨r2, _, _, hnc⟩
    rw [hcont] at hnc
    exact Bool.noConfusion hnc
  rcases List.append_of_mem hf with ⟨pre, post, hsplit⟩
  subst hsplit
  rcases nodup_ids_split pre post f hnodup with ⟨hpre, hpost⟩
  refine ⟨fun g q s => rfl, fun fid2 now2 => markDeleted_sources_self st fid2 now2,
    ?_, ⟨?_, hstatus⟩, ?_⟩
  · unfold sync_drive
    dsimp only
    rcases foldl_processFile_keyed_inert cfg env now st.sources false pre post
      f _ hpre hpost hstep with ⟨_, hc⟩
    rw [hc]
    dsimp only
    rw [remove_deleted_files_chunks_other _ st now f.id hnotdel]
    exact hchunks
  · unfold sync_drive
    dsimp only
    unfold lookupSource
    rcases foldl_processFile_keyed_inert cfg env now st.sources false pre post
      f _ hpre hpost hstep with ⟨hs, _⟩
    rw [hs]
    dsimp only
    rw [remove_deleted_files_sources_other _ st now f.id hnotdel]
    unfold lookupSource at hlook
    exact hlook
  · unfold sync_drive
    dsimp only
    rw [foldl_files_skipped]
    dsimp only
    have hns : needs_sync f (lookupSource st.sources f.id) = false := by
      simpa using hskipcond
    have hmemf : f ∈ (pre ++ f :: post).filter (fun g =>
        (!false && !needs_sync g (lookupSource st.sources g.id))) := by
      refine List.mem_filter.2 ⟨hf, ?_⟩
      rw [hns]
      rfl
    have hpos := List.length_pos_of_mem hmemf
    omega

def envC10 : SyncEnv :=
  { fetchParse := fun _ => Except.ok ['n', 'e', 'w']
    embedBatch := fun b => Except.ok (b.map (fun _ => []))
    insertOk := fun _ => true }

def cfgC10 : SyncCfg := { kb_chunk_size := 1000, kb_chunk_overlap := 100 }

def fileC10 : DriveFileRecord :=
  { id := "fr", name := "r.txt", modified_time := 5, category := "general" }

def srcC10 : SourceRow :=
  { file_id := "fr", filename := "r.txt", category := "general",
    modified_time := 5, last_synced := some 7, chunk_count := 0,
    status := "deleted" }

def stC10 : Store := { chunks := [], sources := [srcC10], nextId := 0 }

/-- Witness for `deleted_file_reappearance`: a deleted file reappears
unmodified and the pass leaves it deleted, chunkless and skipped. -/
theorem deleted_file_reappearance_witness :
    ((sync_drive cfgC10 envC10 [fileC10] stC10 false 9).2.chunks.filter
        (fun c => c.drive_file_id == fileC10.id) = []) ∧
    (lookupSource (sync_drive cfgC10 envC10 [fileC10] stC10 false 9).2.sources
        fileC10.id = some srcC10 ∧ srcC10.status = "deleted") ∧
    1 ≤ (sync_drive cfgC10 envC10 [fileC10] stC10 false 9).1.files_skipped :=
  ⟨(deleted_file_reappearance cfgC10 envC10 [fileC10] stC10 fileC10 srcC10 9 7
      (by decide) (List.mem_singleton.2 rfl) rfl rfl rfl (by decide)
      rfl).2.2.1,
   (deleted_file_reappearance cfgC10 envC10 [fileC10] stC10 fileC10 srcC10 9 7
      (by decide) (List.mem_singleton.2 rfl) rfl rfl rfl (by decide)
      rfl).2.2.2.1,
   (deleted_file_reappearance cfgC10 envC10 [fileC10] stC10 fileC10 srcC10 9 7
      (by decide) (List.mem_singleton.2 rfl) rfl rfl rfl (by decide)
      rfl).2.2.2.2⟩

/-- Claim C4: an error raised while processing one file (download/parse,
embedding, or the insert transaction) is caught and recorded as
"name: message" in `errors`, the step changes nothing else, the pass
continues with the remaining files from exactly that state, and the
failed file's chunk rows and registry rows survive the whole pass
untouched (the delete+insert replace being one transaction, the rolled
back insert leaves no partial state). -/
theorem sync_per_file_failure_isolated (cfg : SyncCfg) (env : SyncEnv)
    (files pre post : List DriveFileRecord) (f : DriveFileRecord) (st : Store)
    (force : Bool) (now : Nat) (m : String)
    (hsplit : files = pre ++ f :: post)
    (hnodup : (files.map (fun g => g.id)).Nodup)
    (hfail : failMsg cfg env f = some m)
    (hproc : (force || needs_sync f (lookupSource st.sources f.id)) = true) :
    (∀ acc, processFile cfg env now st.sources force acc f =
      { acc with errors := acc.errors ++ [m] }) ∧
    (∀ acc, files.foldl (processFile cfg env now st.sources force) acc =
      post.foldl (processFile cfg env now st.sources force)
        { pre.foldl (processFile cfg env now st.sources force) acc with
          errors :=
            (pre.foldl (processFile cfg env now st.sources force) acc).errors
              ++ [m] }) ∧
    m ∈ (sync_drive cfg env files st force now).1.errors ∧
    ((sync_drive cfg env files st force now).2.sources.filter
        (fun q => q.file_id == f.id) =
      st.sources.filter (fun q => q.file_id == f.id)) ∧
    ((sync_drive cfg env files st force now).2.chunks.filter
        (fun c => c.drive_file_id == f.id) =
      st.chunks.filter (fun c => c.drive_file_id == f.id)) := by
  subst hsplit
  rcases nodup_ids_split pre post f hnodup with ⟨hpre, hpost⟩
  have hstep1 : ∀ acc, processFile cfg env now st.sources force acc f =
      { acc with errors := acc.errors ++ [m] } :=
    fun acc => processFile_fail cfg env now st.sources force acc f m hproc hfail
  have hstore : ∀ a : SyncAcc,
      (processFile cfg env now st.sources force a f).store = a.store := by
    intro a
    rw [hstep1 a]
  have hmemf : f ∈ pre ++ f :: post :=
    List.mem_append.2 (Or.inr (List.mem_cons_self f post))
  have hmemid : f.id ∈ (pre ++ f :: post).map (fun g => g.id) :=
    List.mem_map.2 ⟨f, hmemf, rfl⟩
  have hcont : ((pre ++ f :: post).map (fun g => g.id)).contains f.id = true := by
    simp
  have hnotdel : f.id ∉ ((toDict st.sources).filter (fun q =>
      q.status == "active" &&
        !(((pre ++ f :: post).map (fun g => g.id)).contains q.file_id))).map
      (fun q => q.file_id) := by
    intro hmem
    rcases (mem_deleted_ids st.sources ((pre ++ f :: post).map (fun g => g.id))
      f.id).1 hmem with ⟨r2, _, _, hnc⟩
    rw [hcont] at hnc
    exact Bool.noConfusion hnc
  refine ⟨hstep1, ?_, ?_, ?_, ?_⟩
  · intro acc
    rw [List.foldl_append, List.foldl_cons, hstep1]
  · unfold sync_drive
    dsimp only
    rw [List.foldl_append, List.foldl_cons, hstep1]
    obtain ⟨tl, htl⟩ := foldl_errors_extend cfg env now st.sources force post _
    rw [htl]
    dsimp only
    exact List.mem_append.2
      (Or.inl (List.mem_append.2 (Or.inr (List.mem_singleton.2 rfl))))
  · unfold sync_drive
    dsimp only
    rcases foldl_processFile_keyed_inert cfg env now st.sources force pre post
      f _ hpre hpost hstore with ⟨hs, _⟩
    rw [hs]
    dsimp only
    exact remove_deleted_files_sources_other _ st now f.id hnotdel
  · unfold sync_drive
    dsimp only
    rcases foldl_processFile_keyed_inert cfg env now st.sources force pre post
      f _ hpre hpost hstore with ⟨_, hc⟩
    rw [hc]
    dsimp only
    exact remove_deleted_files_chunks_other _ st now f.id hnotdel

def envC4 : SyncEnv :=
  { fetchParse := fun _ => Except.error "boom"
    embedBatch := fun b => Except.ok (b.map (fun _ => []))
    insertOk := fun _ => true }

def cfgC4 : SyncCfg := { kb_chunk_size := 1000, kb_chunk_overlap := 100 }

def fileC4 : DriveFileRecord :=
  { id := "ff", name := "f.txt", modified_time := 5, category := "general" }

def stC4 : Store := { chunks := [], sources := [], nextId := 0 }

/-- Witness for `sync_per_file_failure_isolated`: one file whose download
fails; the error lands in `errors` and its rows are untouched. -/
theorem sync_per_file_failure_isolated_witness :
    ("f.txt: boom" ∈ (sync_drive cfgC4 envC4 [fileC4] stC4 false 9).1.errors) ∧
    ((sync_drive cfgC4 envC4 [fileC4] stC4 false 9).2.sources.filter
        (fun q => q.file_id == fileC4.id) =
      stC4.sources.filter (fun q => q.file_id == fileC4.id)) ∧
    ((sync_drive cfgC4 envC4 [fileC4] stC4 false 9).2.chunks.filter
        (fun c => c.drive_file_id == fileC4.id) =
      stC4.chunks.filter (fun c => c.drive_file_id == fileC4.id)) :=
  ⟨(sync_per_file_failure_isolated cfgC4 envC4 [fileC4] [] [] fileC4 stC4
      false 9 "f.txt: boom" rfl (by decide) rfl rfl).2.2.1,
   (sync_per_file_failure_isolated cfgC4 envC4 [fileC4] [] [] fileC4 stC4
      false 9 "f.txt: boom" rfl (by decide) rfl rfl).2.2.2.1,
   (sync_per_file_failure_isolated cfgC4 envC4 [fileC4] [] [] fileC4 stC4
      false 9 "f.txt: boom" rfl (by decide) rfl rfl).2.2.2.2⟩

/-- Claim C5: after a pass, every registry row of a file that was active
and absent from the remote listing has zero chunk rows and status
`deleted` (stamped with the pass time), and `files_deleted` reports the
number of such files — one per key of the registry dict that is active
and missing from the listing. -/
theorem sync_deletion_correct (cfg : SyncCfg) (env : SyncEnv)
    (files : List DriveFileRecord) (st : Store) (force : Bool) (now : Nat)
    (fid : String) (r : SourceRow)
    (hlook : lookupSource st.sources fid = some r)
    (hstatus : r.status = "active")
    (hnotmem : fid ∉ files.map (fun g => g.id)) :
    ((sync_drive cfg env files st force now).2.chunks.filter
        (fun c => c.drive_file_id == fid) = []) ∧
    (∀ q ∈ (sync_drive cfg env files st force now).2.sources,
      q.file_id = fid → q.status = "deleted" ∧ q.last_synced = some now) ∧
    ((sync_drive cfg env files st force now).1.files_deleted =
      ((toDict st.sources).filter (fun q => q.status == "active" &&
        !((files.map (fun g => g.id)).contains q.file_id))).length) := by
  have hcont : (files.map (fun g => g.id)).contains fid = false :=
    Bool.eq_false_iff.2 (fun h => hnotmem (by simpa using h))
  have hmemdel : fid ∈ ((toDict st.sources).filter (fun q =>
      q.status == "active" &&
        !((files.map (fun g => g.id)).contains q.file_id))).map
      (fun q => q.file_id) :=
    (mem_deleted_ids st.sources (files.map (fun g => g.id)) fid).2
      ⟨r, hlook, hstatus, hcont⟩
  refine ⟨?_, ?_, ?_⟩
  · unfold sync_drive
    dsimp only
    rcases foldl_processFile_other cfg env now st.sources force files _ fid
      hnotmem with ⟨_, hc⟩
    rw [hc]
    dsimp only
    exact remove_deleted_files_chunks_self _ st now fid hmemdel
  · unfold sync_drive
    dsimp only
    intro q hq hkey
    rcases foldl_processFile_other cfg env now st.sources force files _ fid
      hnotmem with ⟨hs, _⟩
    have hqf : q ∈ ((files.foldl (processFile cfg env now st.sources force)
        { store := remove_deleted_files st (((toDict st.sources).filter
            (fun q => q.status == "active" &&
              !((files.map (fun f => f.id)).contains q.file_id))).map
            (fun q => q.file_id)) now,
          files_synced := 0, files_skipped := 0, chunks_inserted := 0,
          errors := [] }).store.sources.filter (fun q => q.file_id == fid)) :=
      List.mem_filter.2 ⟨hq, by simp [hkey]⟩
    rw [hs] at hqf
    dsimp only at hqf
    rcases List.mem_filter.1 hqf with ⟨hq0, _⟩
    exact remove_deleted_files_sources_self _ st now fid hmemdel q hq0 hkey
  · unfold sync_drive
    dsimp only
    rw [List.length_map]

def envC5 : SyncEnv :=
  { fetchParse := fun _ => Except.ok ['t']
    embedBatch := fun b => Except.ok (b.map (fun _ => []))
    insertOk := fun _ => true }

def cfgC5 : SyncCfg := { kb_chunk_size := 1000, kb_chunk_overlap := 100 }

def srcC5 : SourceRow :=
  { file_id := "gone", filename := "g.txt", category := "general",
    modified_time := 3, last_synced := some 4, chunk_count := 1,
    status := "active" }

def stC5 : Store :=
  { chunks := [{ id := 0, content := ['x'], embedding := [],
                 source_category := "general", drive_file_id := "gone",
                 filename := "g.txt", chunk_index := 0 }]
    sources := [srcC5]
    nextId := 1 }

/-- Witness for `sync_deletion_correct`: a lone active file vanishes from
the listing; the pass empties its chunks and counts one deletion. -/
theorem sync_deletion_correct_witness :
    ((sync_drive cfgC5 envC5 [] stC5 false 9).2.chunks.filter
        (fun c => c.drive_file_id == "gone") = []) ∧
    ((sync_drive cfgC5 envC5 [] stC5 false 9).1.files_deleted =
      ((toDict stC5.sources).filter (fun q => q.status == "active" &&
        !((([] : List DriveFileRecord).map (fun g => g.id)).contains
          q.file_id))).length) :=
  ⟨(sync_deletion_correct cfgC5 envC5 [] stC5 false 9 "gone" srcC5 rfl rfl
      (by simp)).1,
   (sync_deletion_correct cfgC5 envC5 [] stC5 false 9 "gone" srcC5 rfl rfl
      (by simp)).2.2⟩

theorem lookupSource_mem (rows : List SourceRow) (fid : String) (r : SourceRow)
    (h : lookupSource rows fid = some r) : r ∈ rows := by
  unfold lookupSource at h
  exact (List.mem_filter.1 (getLast?_mem _ r h)).1

/-- A file id present in the listing is never collected into
`deleted_ids`. -/
theorem listed_not_deleted (rows : List SourceRow)
    (files : List DriveFileRecord) (fid : String)
    (h : fid ∈ files.map (fun g => g.id)) :
    fid ∉ ((toDict rows).filter (fun q => q.status == "active" &&
      !((files.map (fun g => g.id)).contains q.file_id))).map
      (fun q => q.file_id) := by
  intro hmem
  rcases (mem_deleted_ids rows (files.map (fun g => g.id)) fid).1 hmem with
    ⟨r2, _, _, hnc⟩
  have hcont : (files.map (fun g => g.id)).contains fid = true := by
    simpa using h
  rw [hcont] at hnc
  exact Bool.noConfusion hnc

/-- After the per-file loop, a file whose pipeline succeeds and whose
modification time is at most the pass time no longer needs syncing:
either it was skipped (same registry row as before the loop) or it was
processed and its row now carries `last_synced = now1`. -/
theorem foldl_lookup_settled (cfg : SyncCfg) (env : SyncEnv) (now1 : Nat)
    (st : Store) (pre post : List DriveFileRecord) (f : DriveFileRecord)
    (acc : SyncAcc)
    (hpre : f.id ∉ pre.map (fun g => g.id))
    (hpost : f.id ∉ post.map (fun g => g.id))
    (heff : processEffect cfg env f = true)
    (hmtf : f.modified_time ≤ now1)
    (hacc : lookupSource acc.store.sources f.id =
      lookupSource st.sources f.id) :
    (false || needs_sync f (lookupSource
      ((pre ++ f :: post).foldl
        (processFile cfg env now1 st.sources false) acc).store.sources
      f.id)) = false := by
  rw [List.foldl_append, List.foldl_cons]
  set A := pre.foldl (processFile cfg env now1 st.sources false) acc with hA
  have hpreA : lookupSource A.store.sources f.id =
      lookupSource st.sources f.id := by
    have h1 := (foldl_processFile_other cfg env now1 st.sources false pre acc
      f.id hpre).1
    unfold lookupSource
    rw [hA, h1]
    unfold lookupSource at hacc
    exact hacc
  have hpostEq := (foldl_processFile_other cfg env now1 st.sources false post
    (processFile cfg env now1 st.sources false A f) f.id hpost).1
  have hlk : lookupSource
      (post.foldl (processFile cfg env now1 st.sources false)
        (processFile cfg env now1 st.sources false A f)).store.sources f.id =
      lookupSource
        (processFile cfg env now1 st.sources false A f).store.sources f.id := by
    unfold lookupSource
    rw [hpostEq]
  rw [hlk]
  by_cases hns : (false || needs_sync f (lookupSource st.sources f.id)) = true
  · rcases processFile_success cfg env now1 st.sources false A f hns heff with
      ⟨r', hr', hlast, _⟩
    rw [hr']
    unfold needs_sync
    dsimp only
    rw [hlast]
    simp only [Bool.false_or, decide_eq_false_iff_not]
    exact Nat.not_lt.2 hmtf
  · have hns' : (false || needs_sync f (lookupSource st.sources f.id)) =
        false := by
      simpa using hns
    rw [processFile_skip cfg env now1 st.sources false A f hns']
    dsimp only
    rw [hpreA]
    exact hns'

/-- One completed `force = false` pass settles every listed file whose
modification time is at most the pass time: afterwards it is either
up to date or doomed to a failing/inert pipeline. -/
theorem pass1_settles (cfg : SyncCfg) (env : SyncEnv)
    (files : List DriveFileRecord) (st : Store) (now1 : Nat)
    (hnodup : (files.map (fun g => g.id)).Nodup)
    (hmt : ∀ f ∈ files, f.modified_time ≤ now1) :
    ∀ f ∈ files, (false || needs_sync f
        (lookupSource (sync_drive cfg env files st false now1).2.sources
          f.id)) = false ∨
      processEffect cfg env f = false := by
  intro f hf
  by_cases heff : processEffect cfg env f = true
  · left
    have hmtf := hmt f hf
    have hmemid : f.id ∈ files.map (fun g => g.id) :=
      List.mem_map.2 ⟨f, hf, rfl⟩
    have hnotdel := listed_not_deleted st.sources files f.id hmemid
    rcases List.append_of_mem hf with ⟨pre, post, hsplit⟩
    subst hsplit
    rcases nodup_ids_split pre post f hnodup with ⟨hpre, hpost⟩
    unfold sync_drive
    dsimp only
    refine foldl_lookup_settled cfg env now1 st pre post f _ hpre hpost heff
      hmtf ?_
    dsimp only
    unfold lookupSource
    rw [remove_deleted_files_sources_other _ st now1 f.id hnotdel]
  · exact Or.inr (by simpa using heff)

/-- After one pass, no registry entry is both active and absent from the
same listing: the second pass's `deleted_ids` is empty. -/
theorem pass1_no_deleted_ids (cfg : SyncCfg) (env : SyncEnv)
    (files : List DriveFileRecord) (st : Store) (now1 : Nat) :
    (toDict (sync_drive cfg env files st false now1).2.sources).filter
      (fun q => q.status == "active" &&
        !((files.map (fun g => g.id)).contains q.file_id)) = [] := by
  rw [List.filter_eq_nil_iff]
  intro q hq hcond
  rcases Bool.and_eq_true_iff.1 hcond with ⟨hst, hnc⟩
  have hstq : q.status = "active" := by simpa using hst
  have hcontq : (files.map (fun g => g.id)).contains q.file_id = false := by
    simpa using hnc
  have hnotid : q.file_id ∉ files.map (fun g => g.id) := by
    intro hm
    have hmc : (files.map (fun g => g.id)).contains q.file_id = true := by
      simpa using hm
    rw [hcontq] at hmc
    exact Bool.noConfusion hmc
  have hlook1 : lookupSource (sync_drive cfg env files st false now1).2.sources
      q.file_id = some q := toDict_mem_lookup _ q hq
  have hfold := (foldl_processFile_other cfg env now1 st.sources false files
    { store := remove_deleted_files st (((toDict st.sources).filter
        (fun r => r.status == "active" &&
          !((files.map (fun f => f.id)).contains r.file_id))).map
        (fun r => r.file_id)) now1,
      files_synced := 0, files_skipped := 0, chunks_inserted := 0,
      errors := [] } q.file_id hnotid).1
  have hlk : (sync_drive cfg env files st false now1).2.sources.filter
      (fun r => r.file_id == q.file_id) =
      (remove_deleted_files st (((toDict st.sources).filter
        (fun r => r.status == "active" &&
          !((files.map (fun f => f.id)).contains r.file_id))).map
        (fun r => r.file_id)) now1).sources.filter
        (fun r => r.file_id == q.file_id) := by
    unfold sync_drive
    dsimp only
    rw [hfold]
  rw [show lookupSource (sync_drive cfg env files st false now1).2.sources
      q.file_id = ((sync_drive cfg env files st false now1).2.sources.filter
        (fun r => r.file_id == q.file_id)).getLast? from rfl, hlk] at hlook1
  by_cases hdel : q.file_id ∈ ((toDict st.sources).filter
      (fun r => r.status == "active" &&
        !((files.map (fun f => f.id)).contains r.file_id))).map
      (fun r => r.file_id)
  · have hqmem : q ∈ (remove_deleted_files st (((toDict st.sources).filter
        (fun r => r.status == "active" &&
          !((files.map (fun f => f.id)).contains r.file_id))).map
        (fun r => r.file_id)) now1).sources :=
      (List.mem_filter.1 (getLast?_mem _ q hlook1)).1
    have hdq := remove_deleted_files_sources_self _ st now1 q.file_id hdel q
      hqmem rfl
    have h1 := hdq.1
    rw [hstq] at h1
    exact absurd h1 (by decide)
  · have hst0 := remove_deleted_files_sources_other _ st now1 q.file_id hdel
    have hlookst : lookupSource st.sources q.file_id = some q := by
      unfold lookupSource
      rw [hst0] at hlook1
      exact hlook1
    exact hdel ((mem_deleted_ids st.sources (files.map (fun f => f.id))
      q.file_id).2 ⟨q, hlookst, hstq, hcontq⟩)

/-- Claim C3: sync is idempotent under no remote change — after one
completed `force = false` pass over a duplicate-free listing whose
modification times are all at or before that pass's time, a second
`force = false` pass over the identical listing reports
`files_synced = 0` and returns the store byte-for-byte identical (chunk
rows and registry included). -/
theorem sync_idempotent (cfg : SyncCfg) (env : SyncEnv)
    (files : List DriveFileRecord) (st st1 : Store) (res1 : SyncResult)
    (now1 now2 : Nat)
    (hnodup : (files.map (fun g => g.id)).Nodup)
    (hmt : ∀ f ∈ files, f.modified_time ≤ now1)
    (hpass1 : sync_drive cfg env files st false now1 = (res1, st1)) :
    (sync_drive cfg env files st1 false now2).1.files_synced = 0 ∧
    (sync_drive cfg env files st1 false now2).2 = st1 := by
  have hst1 : (sync_drive cfg env files st false now1).2 = st1 := by
    rw [hpass1]
  have hsettle : ∀ f ∈ files, (false || needs_sync f
      (lookupSource st1.sources f.id)) = false ∨
      processEffect cfg env f = false := by
    intro f hf
    have h := pass1_settles cfg env files st now1 hnodup hmt f hf
    rw [hst1] at h
    exact h
  have hdel2 : (toDict st1.sources).filter
      (fun q => q.status == "active" &&
        !((files.map (fun g => g.id)).contains q.file_id)) = [] := by
    have h := pass1_no_deleted_ids cfg env files st now1
    rw [hst1] at h
    exact h
  unfold sync_drive
  dsimp only
  rw [hdel2]
  simp only [List.map_nil]
  rw [show remove_deleted_files st1 [] now2 = st1 from rfl]
  rcases foldl_processFile_settled cfg env now2 st1.sources files
    { store := st1, files_synced := 0, files_skipped := 0,
      chunks_inserted := 0, errors := [] } hsettle with ⟨hstore, hsynced⟩
  refine ⟨?_, ?_⟩
  · rw [hsynced]
  · rw [hstore]

def envC3 : SyncEnv :=
  { fetchParse := fun _ => Except.ok ['h', 'i']
    embedBatch := fun b => Except.ok (b.map (fun _ => []))
    insertOk := fun _ => true }

def cfgC3 : SyncCfg := { kb_chunk_size := 1000, kb_chunk_overlap := 100 }

def fileC3 : DriveFileRecord :=
  { id := "fa", name := "a.txt", modified_time := 3, category := "general" }

def stC3 : Store := { chunks := [], sources := [], nextId := 0 }

def st1C3 : Store := (sync_drive cfgC3 envC3 [fileC3] stC3 false 5).2

def res1C3 : SyncResult := (sync_drive cfgC3 envC3 [fileC3] stC3 false 5).1

/-- Witness for `sync_idempotent`: a new file is synced by pass one; the
second pass syncs nothing and returns the identical store. -/
theorem sync_idempotent_witness :
    (sync_drive cfgC3 envC3 [fileC3] st1C3 false 9).1.files_synced = 0 ∧
    (sync_drive cfgC3 envC3 [fileC3] st1C3 false 9).2 = st1C3 :=
  sync_idempotent cfgC3 envC3 [fileC3] stC3 st1C3 res1C3 5 9 (by decide)
    (by decide) rfl
